import Mathlib

/-!
# Verification of the svg-animator playback engine

A shallow embedding, over exact rational arithmetic, of the playback core of
the `pixodesk/svg-animator` repository:

* the frame-loop progress/iteration/direction math of
  `createBasicFrameLoopAnimator.renderFrame` (`PxAnimatorFrameLoop`),
* the frame-loop playback state machine (`tick`, `startAnim`, `pauseAnim`,
  `cancelAnim`, `finishAnim` and the `PxAnimatorAPI` methods),
* keyframe normalization and value calculation (`PxDefinitions`),
* the interpolation and easing library (`PxAnimatorUtil`),
* the native (Web Animations API) backend's delay/seek handling
  (`PxAnimatorWebApi`),
* document id regeneration (`generateNewIds`, `generateUniqueId`).

JavaScript numbers are modelled by `ℚ` (all source computations relevant here
are exact on rationals); `undefined`-able fields by `Option`; JS objects in the
generic document walker by an inductive JSON value type.  Wall-clock time
(`Date.now()`) is an explicit parameter of each operation.
-/

namespace SvgAnimator

/-! ## PxAnimatorUtil: numeric helpers -/

/-- `clamp(value, min, max)` from `PxAnimatorUtil.ts`:
`Math.max(min, Math.min(value, max))`. -/
def clamp (value lo hi : ℚ) : ℚ := max lo (min value hi)

/-- `interpolateNum(a, b, t)` from `PxAnimatorUtil.ts`: `a + (b - a) * t`. -/
def interpolateNum (a b t : ℚ) : ℚ := a + (b - a) * t

/-- `remap(value, inMin, inMax, outMin, outMax)` from `PxAnimatorUtil.ts`;
returns `outMin` when `inMax === inMin` (divide-by-zero guard). -/
def remap (value inMin inMax outMin outMax : ℚ) : ℚ :=
  if inMax = inMin then outMin
  else outMin + (value - inMin) / (inMax - inMin) * (outMax - outMin)

/-! ## Frame-loop progress math

`renderFrame`'s inner `getEffectiveProgress` in `PxAnimatorFrameLoop.ts`.
`duration` is the per-iteration duration, `iters` the normalized iteration
count (finite case; `iterations = Infinity` never enters this arithmetic
because the clamp below is only exercised through finite bounds in the
claims).  `Math.ceil` on a rational is `Int.ceil`. -/

/-- The `iteration`/`rawProgress` pair computed by `getEffectiveProgress`
(the `duration > 0` branch), for finite `iters`:

```js
currentTimeMs = clamp(currentTimeMs, 0, iterations * safeDuration);
iteration = Math.max(0, Math.ceil(currentTimeMs / safeDuration) - 1);
iteration = Math.min(iteration, iterations - 1);
const iterationTime = currentTimeMs - iteration * safeDuration;
rawProgress = clamp(iterationTime / safeDuration, 0, 1);
```
-/
def getIterationAndProgress (duration iters currentTimeMs : ℚ) : ℚ × ℚ :=
  let c := clamp currentTimeMs 0 (iters * duration)
  let iteration₀ : ℚ := max 0 ((⌈c / duration⌉ : ℚ) - 1)
  let iteration : ℚ := min iteration₀ (iters - 1)
  let iterationTime := c - iteration * duration
  (iteration, clamp (iterationTime / duration) 0 1)

/-- `direction` values of `PxAnimatorConfig` (`PlaybackDirection`). -/
inductive Direction where
  | normal
  | reverse
  | alternate
  | alternateReverse
deriving DecidableEq, Repr

/-- The direction mapping at the end of `getEffectiveProgress`
(iteration index given as an integer; the code tests `iteration % 2 === 1`
resp. `=== 0`):

```js
let effectiveProgress = baseProgress;
if (dir === 'reverse') effectiveProgress = 1 - baseProgress;
else if (dir === 'alternate') { if (iteration % 2 === 1) effectiveProgress = 1 - baseProgress; }
else if (dir === 'alternate-reverse') { if (iteration % 2 === 0) effectiveProgress = 1 - baseProgress; }
```
-/
def applyDirection (dir : Direction) (iteration : ℕ) (baseProgress : ℚ) : ℚ :=
  match dir with
  | .normal => baseProgress
  | .reverse => 1 - baseProgress
  | .alternate => if iteration % 2 = 1 then 1 - baseProgress else baseProgress
  | .alternateReverse => if iteration % 2 = 0 then 1 - baseProgress else baseProgress

/-- C1: for `durationMs > 0`, `iterations ≥ 1` and `currentTimeMs` in
`[0, iterations*durationMs]`, `renderFrame`'s `getEffectiveProgress` computes
the zero-based iteration index as `clamp(ceil(t/duration) - 1, 0, iterations-1)`
and the raw progress as `clamp((t - iteration*duration)/duration, 0, 1)`; and
at an exact positive multiple `t = k*duration` with `k ≤ iterations` the
iteration index is `k-1` and the raw progress is `1` (the boundary belongs to
the completing iteration). -/
theorem frameLoop_iteration_progress
    (duration iters t : ℚ) (hd : 0 < duration) (hi : 1 ≤ iters)
    (ht0 : 0 ≤ t) (ht1 : t ≤ iters * duration) :
    (getIterationAndProgress duration iters t).1
      = clamp ((⌈t / duration⌉ : ℚ) - 1) 0 (iters - 1)
    ∧ (getIterationAndProgress duration iters t).2
      = clamp ((t - (getIterationAndProgress duration iters t).1 * duration) / duration) 0 1
    ∧ ∀ k : ℕ, 1 ≤ k → (k : ℚ) ≤ iters → t = (k : ℚ) * duration →
        (getIterationAndProgress duration iters t).1 = (k : ℚ) - 1
        ∧ (getIterationAndProgress duration iters t).2 = 1 := by
  have hc : clamp t 0 (iters * duration) = t := by
    unfold clamp
    rw [min_eq_left ht1, max_eq_right ht0]
  have hiters : (0 : ℚ) ≤ iters - 1 := by linarith
  refine ⟨?_, ?_, ?_⟩
  · show min (max 0 ((⌈clamp t 0 (iters * duration) / duration⌉ : ℚ) - 1)) (iters - 1) = _
    rw [hc]
    unfold clamp
    rw [max_min_distrib_left, max_eq_right hiters]
  · rw [show (getIterationAndProgress duration iters t).2
        = clamp ((clamp t 0 (iters * duration)
            - (getIterationAndProgress duration iters t).1 * duration) / duration) 0 1 from rfl,
      hc]
  · intro k hk1 hk2 hkt
    have hdiv : t / duration = (k : ℚ) := by
      rw [hkt, mul_div_assoc, div_self hd.ne', mul_one]
    have hceil : (⌈t / duration⌉ : ℚ) = (k : ℚ) := by
      rw [hdiv]
      norm_num
    have hk1' : (1 : ℚ) ≤ (k : ℚ) := by exact_mod_cast hk1
    have hfst : (getIterationAndProgress duration iters t).1 = (k : ℚ) - 1 := by
      show min (max 0 ((⌈clamp t 0 (iters * duration) / duration⌉ : ℚ) - 1)) (iters - 1)
        = (k : ℚ) - 1
      rw [hc, hceil, max_eq_right (by linarith), min_eq_left (by linarith)]
    refine ⟨hfst, ?_⟩
    show clamp ((clamp t 0 (iters * duration)
        - (getIterationAndProgress duration iters t).1 * duration) / duration) 0 1 = 1
    rw [hc, hfst, hkt]
    have : ((k : ℚ) * duration - ((k : ℚ) - 1) * duration) / duration = 1 := by
      field_simp
      ring
    rw [this]
    unfold clamp
    norm_num

/-- Witness for `frameLoop_iteration_progress` at `duration = 2`,
`iterations = 3`, `currentTimeMs = 4 = 2·duration`: iteration index `1`,
raw progress `1`. -/
theorem frameLoop_iteration_progress_witness :
    (getIterationAndProgress 2 3 4).1 = 1 ∧ (getIterationAndProgress 2 3 4).2 = 1 := by
  have h := (frameLoop_iteration_progress 2 3 4 (by norm_num) (by norm_num)
    (by norm_num) (by norm_num)).2.2 2 (by norm_num) (by norm_num) (by norm_num)
  exact ⟨by rw [h.1]; norm_num, h.2⟩

/-- C2: the direction mapping of `getEffectiveProgress`: `normal` keeps the
raw progress `p`, `reverse` yields `1-p`, `alternate` yields `1-p` exactly on
odd iteration indices, `alternate-reverse` yields `1-p` exactly on even ones;
consequently the effective progress under `reverse` at raw progress `p` equals
the effective progress under `normal` at raw progress `1-p`. -/
theorem direction_mapping (p : ℚ) (i : ℕ) (hp0 : 0 ≤ p) (hp1 : p ≤ 1) :
    applyDirection .normal i p = p
    ∧ applyDirection .reverse i p = 1 - p
    ∧ applyDirection .alternate i p = (if i % 2 = 1 then 1 - p else p)
    ∧ applyDirection .alternateReverse i p = (if i % 2 = 0 then 1 - p else p)
    ∧ applyDirection .reverse i p = applyDirection .normal i (1 - p) :=
  ⟨rfl, rfl, rfl, rfl, rfl⟩

/-- Witness for `direction_mapping` at `p = 1/3`, iteration index `1`. -/
theorem direction_mapping_witness :
    applyDirection .reverse 1 (1/3 : ℚ) = applyDirection .normal 1 (1 - 1/3) :=
  (direction_mapping (1/3) 1 (by norm_num) (by norm_num)).2.2.2.2

/-! ## Frame-loop playback state machine

`createBasicFrameLoopAnimator` in `PxAnimatorFrameLoop.ts` closes over the
mutable variables `playing`, `timeBeforeLastStartMs`, `lastStartedTs`,
`playbackRate`, `finishCalled`, `lastRenderTs`.  Each API call is modelled as
a pure step on that record; `Date.now()` at the instant of a call is an
explicit `now` parameter (the source encodes "no start timestamp" as
`lastStartedTs = 0` via JS truthiness, and likewise `lastRenderTs = 0`). -/

/-- A JavaScript number argument: a finite rational or a non-finite value.
Used where the source checks `isFinite(rate)`. -/
inductive JsNum where
  | fin (q : ℚ)
  | nan
  | posInf
  | negInf
deriving DecidableEq, Repr

/-- `isFinite` on a `JsNum`. -/
def JsNum.isFinite : JsNum → Bool
  | .fin _ => true
  | _ => false

/-- Configuration captured by `createBasicFrameLoopAnimator` after its
normalization prologue: per-iteration `duration` (ms), the finite normalized
iteration count `iterations` (with `infiniteIterations` marking
`iterations: 'infinite'`), `delay` (`config.delay || 0`), and the throttle
interval `minFrameIntervalMs` (`0` when no `frameRate` is configured). -/
structure FLConfig where
  duration : ℚ
  iterations : ℚ
  infiniteIterations : Bool
  delay : ℚ
  minFrameInterval : ℚ
deriving DecidableEq, Repr

/-- `totalDuration = duration * iterations` (value used in the finite case;
when `infiniteIterations` the source's `totalDuration` is `Infinity` and every
`Number.isFinite(totalDuration)` test is `false`). -/
def FLConfig.total (cfg : FLConfig) : ℚ := cfg.duration * cfg.iterations

/-- Truthiness of `totalDuration` (`totalDuration && ...` in `tick`):
`Infinity` is truthy; a finite total is truthy iff non-zero. -/
def FLConfig.totalTruthy (cfg : FLConfig) : Bool :=
  cfg.infiniteIterations || decide (cfg.total ≠ 0)

/-- The closure state of `createBasicFrameLoopAnimator`. -/
structure FLState where
  playing : Bool
  timeBeforeLastStartMs : ℚ
  lastStartedTs : ℚ
  playbackRate : ℚ
  finishCalled : Bool
  lastRenderTs : ℚ
deriving DecidableEq, Repr

/-- The initial closure state: paused, accumulator `config.delay || 0`,
no start timestamp, rate 1, finish flag clear, no render timestamp. -/
def FLState.init (cfg : FLConfig) : FLState :=
  { playing := false
    timeBeforeLastStartMs := cfg.delay
    lastStartedTs := 0
    playbackRate := 1
    finishCalled := false
    lastRenderTs := 0 }

/-- The clamp applied at the end of `getAnimCurrentTime`:
`if (Number.isFinite(totalDuration) && time > totalDuration) time = totalDuration;
if (time < 0) time = 0;`. -/
def clampToTotal (cfg : FLConfig) (time : ℚ) : ℚ :=
  let t := if cfg.infiniteIterations = false ∧ time > cfg.total then cfg.total else time
  if t < 0 then 0 else t

/-- `getAnimCurrentTime` of the frame-loop animator: accumulator plus
rate-scaled wall-clock elapsed time, clamped into `[0, totalDuration]`
(lower bound only when the total is infinite). -/
def getAnimCurrentTime (cfg : FLConfig) (now : ℚ) (s : FLState) : ℚ :=
  let runningElapsed :=
    if s.lastStartedTs ≠ 0 then (now - s.lastStartedTs) * s.playbackRate else 0
  clampToTotal cfg (s.timeBeforeLastStartMs + runningElapsed)

/-- `pauseAnim`: no-op when not playing; otherwise captures the current
computed time into the accumulator, clears the start timestamp, stops, and
renders one frame at the captured time.  Returns the rendered times. -/
def pauseAnim (cfg : FLConfig) (now : ℚ) (s : FLState) : FLState × List ℚ :=
  if s.playing = false then (s, [])
  else
    let t := getAnimCurrentTime cfg now s
    ({ s with timeBeforeLastStartMs := t, lastStartedTs := 0, playing := false }, [t])

/-- `cancelAnim`: pause, then zero the accumulator, clear the finish flag,
and render a frame at time 0 (then fires `onCancel`, not `onFinish`). -/
def cancelAnim (cfg : FLConfig) (now : ℚ) (s : FLState) : FLState × List ℚ :=
  let p := pauseAnim cfg now s
  let s2 := { p.1 with timeBeforeLastStartMs := 0, lastStartedTs := 0,
                       playing := false, finishCalled := false }
  (s2, p.2 ++ [0])

/-- `finishAnim(callOnFinish)`: jump the accumulator to the total duration
(or to the current time when the total is infinite), stop, render the final
frame, and fire `onFinish` once (guarded by `finishCalled`).  Returns the
new state, whether `onFinish` fired, and the rendered times. -/
def finishAnim (cfg : FLConfig) (now : ℚ) (s : FLState) (callOnFinish : Bool) :
    FLState × Bool × List ℚ :=
  let acc := if cfg.infiniteIterations = false then cfg.total
             else getAnimCurrentTime cfg now s
  let s1 := { s with timeBeforeLastStartMs := acc, lastStartedTs := 0, playing := false }
  let fires := callOnFinish && !s.finishCalled
  let s2 := if fires then { s1 with finishCalled := true } else s1
  (s2, fires, [acc])

/-- `startAnim`: no-op when already playing; otherwise set `playing`, stamp
the wall-clock start and kick the loop. -/
def startAnim (now : ℚ) (s : FLState) : FLState :=
  if s.playing then s else { s with playing := true, lastStartedTs := now }

/-- One `tick` of the frame loop: implicit pause when the adapter reports the
surface detached; frame-rate throttle skip; natural-completion detection
(render the final frame, fire `onFinish` once, pause); otherwise render at
the computed current time.  Returns the new state, whether `onFinish` fired,
and the rendered times. -/
def tick (cfg : FLConfig) (now : ℚ) (connected : Bool) (s : FLState) :
    FLState × Bool × List ℚ :=
  if connected = false then
    let p := pauseAnim cfg now s
    (p.1, false, p.2)
  else
    let currentTime := getAnimCurrentTime cfg now s
    if cfg.minFrameInterval > 0 ∧ s.lastRenderTs ≠ 0 ∧
        now - s.lastRenderTs < cfg.minFrameInterval then
      (s, false, [])
    else
      let s0 := if cfg.minFrameInterval > 0 then { s with lastRenderTs := now } else s
      if cfg.totalTruthy = true ∧ cfg.infiniteIterations = false ∧
          currentTime ≥ cfg.total then
        let fires := !s0.finishCalled
        let s1 := if fires then { s0 with finishCalled := true } else s0
        let p := pauseAnim cfg now s1
        (p.1, fires, cfg.total :: p.2)
      else
        (s0, false, [currentTime])

/-- The observable effects of one API call / tick. -/
structure FLEffects where
  onFinishFired : Bool
  renderedTimes : List ℚ
deriving DecidableEq, Repr

/-- The public API calls of the frame-loop animator plus the scheduled `tick`
(each carrying the wall-clock instant at which it runs). -/
inductive FLOp where
  | tick (now : ℚ) (connected : Bool)
  | play (now : ℚ)
  | pause (now : ℚ)
  | cancel (now : ℚ)
  | finish (now : ℚ)
  | setPlaybackRate (now : ℚ) (rate : JsNum)
  | setCurrentTime (now : ℚ) (newTime : ℚ)
  | destroy (now : ℚ)
deriving DecidableEq, Repr

/-- One step of the frame-loop animator: the `PxAnimatorAPI` method bodies of
`createBasicFrameLoopAnimator` (`api.destroy` is `api.cancel()`;
`api.setPlaybackRate` rejects non-finite or zero rates;
`api.setCurrentTime` clamps, re-stamps the start when playing, and renders). -/
def step (cfg : FLConfig) (op : FLOp) (s : FLState) : FLState × FLEffects :=
  match op with
  | .tick now connected =>
      let t := tick cfg now connected s
      (t.1, ⟨t.2.1, t.2.2⟩)
  | .play now => (startAnim now s, ⟨false, []⟩)
  | .pause now =>
      let p := pauseAnim cfg now s
      (p.1, ⟨false, p.2⟩)
  | .cancel now =>
      let c := cancelAnim cfg now s
      (c.1, ⟨false, c.2⟩)
  | .finish now =>
      let f := finishAnim cfg now s true
      (f.1, ⟨f.2.1, f.2.2⟩)
  | .setPlaybackRate now rate =>
      match rate with
      | .fin q =>
          if q = 0 then (s, ⟨false, []⟩)
          else
            let current := getAnimCurrentTime cfg now s
            ({ s with playbackRate := q,
                      timeBeforeLastStartMs := current,
                      lastStartedTs := if s.playing then now else s.lastStartedTs },
             ⟨false, []⟩)
      | _ => (s, ⟨false, []⟩)
  | .setCurrentTime now newTime =>
      let t1 := if newTime < 0 then 0 else newTime
      let t2 := if cfg.infiniteIterations = false ∧ t1 > cfg.total then cfg.total else t1
      let s' := { s with timeBeforeLastStartMs := t2,
                         lastStartedTs := if s.playing then now else s.lastStartedTs }
      (s', ⟨false, [getAnimCurrentTime cfg now s']⟩)
  | .destroy now =>
      let c := cancelAnim cfg now s
      (c.1, ⟨false, c.2⟩)

/-- Number of `onFinish` invocations over a sequence of operations. -/
def countFinishFires (cfg : FLConfig) (s : FLState) : List FLOp → ℕ
  | [] => 0
  | op :: ops =>
      (if (step cfg op s).2.onFinishFired then 1 else 0)
        + countFinishFires cfg (step cfg op s).1 ops

/-- Whether an operation, run in state `s`, performs the completion action
(independently of the `finishCalled` guard): a `finish()` call always does; a
`tick` does when the surface is connected, the frame is not throttle-skipped,
and the computed current time has reached a finite non-zero total duration. -/
def opWouldComplete (cfg : FLConfig) (s : FLState) : FLOp → Bool
  | .finish _ => true
  | .tick now connected =>
      if connected = false then false
      else if cfg.minFrameInterval > 0 ∧ s.lastRenderTs ≠ 0 ∧
          now - s.lastRenderTs < cfg.minFrameInterval then false
      else if cfg.totalTruthy = true ∧ cfg.infiniteIterations = false ∧
          getAnimCurrentTime cfg now s ≥ cfg.total then true
      else false
  | _ => false

/-- A run reaches the natural end of the animation iff some operation in it
performs the completion action in the state it runs in. -/
def reachesNaturalEnd (cfg : FLConfig) : FLState → List FLOp → Bool
  | _, [] => false
  | s, op :: ops =>
      opWouldComplete cfg s op || reachesNaturalEnd cfg (step cfg op s).1 ops

/-- Operations that execute `cancelAnim` (`cancel()`, and `destroy()` which
delegates to `cancel()`). -/
def FLOp.invokesCancel : FLOp → Bool
  | .cancel _ => true
  | .destroy _ => true
  | _ => false

/-- `pauseAnim` never touches the `finishCalled` flag. -/
theorem pauseAnim_finishCalled (cfg : FLConfig) (now : ℚ) (s : FLState) :
    (pauseAnim cfg now s).1.finishCalled = s.finishCalled := by
  unfold pauseAnim
  split <;> rfl

/-- `onFinish` fires on a step iff the operation performs the completion
action and the one-shot flag is still clear. -/
theorem step_onFinishFired (cfg : FLConfig) (op : FLOp) (s : FLState) :
    (step cfg op s).2.onFinishFired = (opWouldComplete cfg s op && !s.finishCalled) := by
  cases op with
  | tick now connected =>
    simp only [step, tick, opWouldComplete, pauseAnim]
    split_ifs <;> simp_all
  | play now => simp [step, opWouldComplete]
  | pause now => simp [step, opWouldComplete]
  | cancel now => simp [step, opWouldComplete]
  | finish now => simp [step, opWouldComplete, finishAnim]
  | setPlaybackRate now rate =>
    cases rate with
    | fin q =>
      simp only [step, opWouldComplete]
      split_ifs <;> simp
    | nan => simp [step, opWouldComplete]
    | posInf => simp [step, opWouldComplete]
    | negInf => simp [step, opWouldComplete]
  | setCurrentTime now newTime => simp [step, opWouldComplete]
  | destroy now => simp [step, opWouldComplete]

/-- For every operation other than `cancel()`/`destroy()`, the one-shot flag
after the step is the old flag or-ed with whether `onFinish` fired: such
operations set the flag when firing and never clear it. -/
theorem step_finishCalled (cfg : FLConfig) (op : FLOp) (s : FLState)
    (h : op.invokesCancel = false) :
    (step cfg op s).1.finishCalled
      = (s.finishCalled || (step cfg op s).2.onFinishFired) := by
  cases op with
  | tick now connected =>
    simp only [step, tick, pauseAnim]
    split_ifs <;> simp_all
  | play now =>
    simp only [step, startAnim]
    split_ifs <;> simp
  | pause now =>
    simp only [step, pauseAnim]
    split_ifs <;> simp
  | cancel now => exact absurd h (by simp [FLOp.invokesCancel])
  | finish now =>
    simp only [step, finishAnim]
    split_ifs <;> simp_all
  | setPlaybackRate now rate =>
    cases rate with
    | fin q =>
      simp only [step]
      split_ifs <;> simp
    | nan => simp [step]
    | posInf => simp [step]
    | negInf => simp [step]
  | setCurrentTime now newTime => simp [step]
  | destroy now => exact absurd h (by simp [FLOp.invokesCancel])

/-- Once the one-shot flag is set, a cancel-free run fires `onFinish` zero
times. -/
theorem countFinishFires_eq_zero (cfg : FLConfig) (ops : List FLOp) (s : FLState)
    (hflag : s.finishCalled = true)
    (hnc : ∀ op ∈ ops, op.invokesCancel = false) :
    countFinishFires cfg s ops = 0 := by
  induction ops generalizing s with
  | nil => rfl
  | cons op ops ih =>
    have hop : op.invokesCancel = false := hnc op (List.mem_cons_self op ops)
    have hfired : (step cfg op s).2.onFinishFired = false := by
      rw [step_onFinishFired, hflag]
      simp
    have hflag' : (step cfg op s).1.finishCalled = true := by
      rw [step_finishCalled cfg op s hop, hflag, hfired]
      rfl
    rw [countFinishFires, hfired]
    simp only [Bool.false_eq_true, if_false, Nat.zero_add]
    exact ih _ hflag' (fun o ho => hnc o (List.mem_cons_of_mem op ho))

/-- C3: starting with the one-shot flag clear, any cancel-free sequence of
frame-loop steps (ticks and `finish()` calls among them) that reaches the
natural end of the animation invokes `onFinish` exactly once; and for every
operation other than `cancel()`/`destroy()`, the flag afterwards is clear iff
it was clear before and `onFinish` did not fire — the flag is set when
`onFinish` fires and cleared only by `cancelAnim`. -/
theorem onFinish_fires_exactly_once (cfg : FLConfig) (ops : List FLOp) (s : FLState)
    (hflag : s.finishCalled = false)
    (hnc : ∀ op ∈ ops, op.invokesCancel = false)
    (hreach : reachesNaturalEnd cfg s ops = true) :
    countFinishFires cfg s ops = 1
    ∧ ∀ (op : FLOp) (s' : FLState), op.invokesCancel = false →
        ((step cfg op s').1.finishCalled = false ↔
          s'.finishCalled = false ∧ (step cfg op s').2.onFinishFired = false) := by
  constructor
  · induction ops generalizing s with
    | nil => exact absurd hreach (by simp [reachesNaturalEnd])
    | cons op ops ih =>
      have hop : op.invokesCancel = false := hnc op (List.mem_cons_self op ops)
      have hnc' : ∀ o ∈ ops, o.invokesCancel = false :=
        fun o ho => hnc o (List.mem_cons_of_mem op ho)
      by_cases hwc : opWouldComplete cfg s op = true
      · have hfired : (step cfg op s).2.onFinishFired = true := by
          rw [step_onFinishFired, hwc, hflag]
          rfl
        have hflag' : (step cfg op s).1.finishCalled = true := by
          rw [step_finishCalled cfg op s hop, hfired]
          simp
        rw [countFinishFires, hfired, countFinishFires_eq_zero cfg ops _ hflag' hnc']
        simp
      · have hwc' : opWouldComplete cfg s op = false := by
          revert hwc
          cases opWouldComplete cfg s op <;> simp
        have hfired : (step cfg op s).2.onFinishFired = false := by
          rw [step_onFinishFired, hwc']
          rfl
        have hflag' : (step cfg op s).1.finishCalled = false := by
          rw [step_finishCalled cfg op s hop, hflag, hfired]
          rfl
        have hreach' : reachesNaturalEnd cfg (step cfg op s).1 ops = true := by
          rw [reachesNaturalEnd, hwc'] at hreach
          simpa using hreach
        rw [countFinishFires, hfired]
        simp only [Bool.false_eq_true, if_false, Nat.zero_add]
        exact ih _ hflag' hnc' hreach'
  · intro op s' hop
    rw [step_finishCalled cfg op s' hop]
    cases s'.finishCalled <;> cases (step cfg op s').2.onFinishFired <;> simp

/-- Configuration used by concrete witnesses: duration 1 ms, 1 iteration,
no delay, no frame-rate throttle. -/
def witnessCfg : FLConfig :=
  { duration := 1, iterations := 1, infiniteIterations := false,
    delay := 0, minFrameInterval := 0 }

/-- Witness for `onFinish_fires_exactly_once`: play at wall-clock 1, then a
tick at wall-clock 3 (current time 2, clamped to the total 1): exactly one
`onFinish`. -/
theorem onFinish_fires_exactly_once_witness :
    countFinishFires witnessCfg (FLState.init witnessCfg)
      [FLOp.play 1, FLOp.tick 3 true] = 1 :=
  (onFinish_fires_exactly_once witnessCfg [FLOp.play 1, FLOp.tick 3 true]
    (FLState.init witnessCfg) rfl (by decide)
    (by
      simp only [reachesNaturalEnd, opWouldComplete, step, startAnim, tick,
        FLState.init, witnessCfg, getAnimCurrentTime, clampToTotal,
        FLConfig.total, FLConfig.totalTruthy]
      norm_num)).1

/-- C5 counterexample: `destroy()` then `play()` on the frame-loop animator
restarts playback (`playing = true`), so a call after `destroy()` is not a
no-op — the claim that all post-destroy calls are safe no-ops fails. -/
theorem destroy_then_play_restarts :
    ((step witnessCfg (FLOp.play 5)
        ((step witnessCfg (FLOp.destroy 3) (FLState.init witnessCfg)).1)).1).playing
      = true := rfl

/-- C5 (amended): `destroy()` is exactly `cancel()` — it resets the
accumulator to 0, stops playback and clears the one-shot finish flag — but it
installs no destroyed state: a subsequent `play()` always restarts playback.
-/
theorem destroy_equals_cancel_then_play_restarts
    (cfg : FLConfig) (s : FLState) (now now' : ℚ) :
    step cfg (FLOp.destroy now) s = step cfg (FLOp.cancel now) s
    ∧ ((step cfg (FLOp.destroy now) s).1).timeBeforeLastStartMs = 0
    ∧ ((step cfg (FLOp.destroy now) s).1).playing = false
    ∧ ((step cfg (FLOp.destroy now) s).1).finishCalled = false
    ∧ ((step cfg (FLOp.play now') ((step cfg (FLOp.destroy now) s).1)).1).playing
        = true :=
  ⟨rfl, rfl, rfl, rfl, rfl⟩

/-- C6: `setCurrentTime(x)` sets the accumulator to `x` clamped into
`[0, totalDuration]` (lower bound only when the total is infinite), renders
immediately at the resulting current time, and — for `x` within range — an
immediate `getCurrentTime()` at the same wall-clock instant returns exactly
`x`, whether playing or paused (the hypothesis `hinv` is the reachable-state
invariant that a paused animator has no start timestamp). -/
theorem setCurrentTime_clamp_render_roundtrip
    (cfg : FLConfig) (s : FLState) (now x : ℚ)
    (hd : 0 < cfg.duration) (hi : 1 ≤ cfg.iterations)
    (hinv : s.playing = false → s.lastStartedTs = 0) :
    ((step cfg (FLOp.setCurrentTime now x) s).1.timeBeforeLastStartMs
        = if cfg.infiniteIterations then max 0 x else clamp x 0 cfg.total)
    ∧ (step cfg (FLOp.setCurrentTime now x) s).2.renderedTimes
        = [getAnimCurrentTime cfg now (step cfg (FLOp.setCurrentTime now x) s).1]
    ∧ (0 ≤ x → (cfg.infiniteIterations = false → x ≤ cfg.total) →
        getAnimCurrentTime cfg now (step cfg (FLOp.setCurrentTime now x) s).1 = x) := by
  have htotal : 0 < cfg.total := by
    have : cfg.duration * 1 ≤ cfg.duration * cfg.iterations :=
      mul_le_mul_of_nonneg_left hi hd.le
    unfold FLConfig.total
    nlinarith
  refine ⟨?_, rfl, ?_⟩
  · show (if cfg.infiniteIterations = false ∧
        (if x < 0 then 0 else x) > cfg.total then cfg.total else if x < 0 then 0 else x) = _
    have h1 : (if x < 0 then (0:ℚ) else x) = max 0 x := by
      split_ifs with h
      · exact (max_eq_left h.le).symm
      · exact (max_eq_right (not_lt.mp h)).symm
    cases hii : cfg.infiniteIterations with
    | true => simp [hii, h1]
    | false =>
      simp only [hii, true_and, h1, Bool.false_eq_true, if_false]
      unfold clamp
      rcases le_or_lt (0 ⊔ x) cfg.total with h | h
      · rw [if_neg (not_lt.mpr h), min_eq_left ((le_max_right 0 x).trans h)]
      · rw [if_pos h]
        have hx0 : 0 < x := by
          by_contra hx0
          push_neg at hx0
          rw [max_eq_left hx0] at h
          exact absurd h (not_lt.mpr htotal.le)
        rw [max_eq_right hx0.le] at h
        rw [min_eq_right h.le, max_eq_right htotal.le]
  · intro hx0 hxt
    have ht1 : (if x < 0 then (0:ℚ) else x) = x := if_neg (not_lt.mpr hx0)
    show clampToTotal cfg
        ((if cfg.infiniteIterations = false ∧
            (if x < 0 then 0 else x) > cfg.total then cfg.total
          else if x < 0 then 0 else x)
          + (if (if s.playing = true then now else s.lastStartedTs) ≠ 0 then
              (now - (if s.playing = true then now else s.lastStartedTs)) * s.playbackRate
            else 0)) = x
    have ht2 : (if cfg.infiniteIterations = false ∧
        (if x < 0 then 0 else x) > cfg.total then cfg.total
          else if x < 0 then 0 else x) = x := by
      rw [ht1]
      split_ifs with h
      · exact absurd (hxt h.1) (not_le.mpr h.2)
      · rfl
    have hE : (if (if s.playing = true then now else s.lastStartedTs) ≠ 0 then
        (now - (if s.playing = true then now else s.lastStartedTs)) * s.playbackRate
      else 0) = 0 := by
      cases hp : s.playing with
      | true => simp [hp, sub_self]
      | false => simp [hp, hinv hp]
    rw [ht2, hE, add_zero]
    simp only [clampToTotal]
    have hP : ¬(cfg.infiniteIterations = false ∧ x > cfg.total) := by
      rintro ⟨hf, hgt⟩
      exact absurd (hxt hf) (not_le.mpr hgt)
    rw [if_neg hP, if_neg (not_lt.mpr hx0)]

/-- Witness for `setCurrentTime_clamp_render_roundtrip`: seek to `1/2` with
duration 1 and one iteration while paused; `getCurrentTime` returns `1/2`. -/
theorem setCurrentTime_clamp_render_roundtrip_witness :
    getAnimCurrentTime witnessCfg 7
      ((step witnessCfg (FLOp.setCurrentTime 7 (1/2)) (FLState.init witnessCfg)).1)
      = 1/2 :=
  (setCurrentTime_clamp_render_roundtrip witnessCfg (FLState.init witnessCfg) 7 (1/2)
    (by norm_num [witnessCfg]) (by norm_num [witnessCfg]) (fun _ => rfl)).2.2
    (by norm_num) (fun _ => by norm_num [witnessCfg, FLConfig.total])

/-- The clamp at the end of `getAnimCurrentTime` is idempotent. -/
theorem clampToTotal_idem (cfg : FLConfig) (t : ℚ) :
    clampToTotal cfg (clampToTotal cfg t) = clampToTotal cfg t := by
  simp only [clampToTotal]
  by_cases hf : cfg.infiniteIterations = false
  · simp only [hf, eq_self_iff_true, true_and]
    split_ifs <;> linarith
  · have hfi : ∀ x : ℚ,
        (if cfg.infiniteIterations = false ∧ x > cfg.total then cfg.total else x) = x :=
      fun x => if_neg (fun hc => hf hc.1)
    rw [hfi, hfi]
    split_ifs <;> linarith

/-- C7: `setPlaybackRate(rate)` rejects a non-finite or zero rate, leaving
the whole state unchanged with no render and no callback; for a finite
non-zero rate it captures the currently-computed logical time into the
accumulator, re-stamps the wall-clock start when playing, then applies the
rate — so `getCurrentTime()` evaluated at the instant of the change is
unchanged (the hypothesis `hinv` is the reachable-state invariant that a
paused animator has no start timestamp). -/
theorem setPlaybackRate_rejects_or_preserves_time
    (cfg : FLConfig) (s : FLState) (now : ℚ) (rate : JsNum)
    (hinv : s.playing = false → s.lastStartedTs = 0) :
    (rate.isFinite = false ∨ rate = JsNum.fin 0 →
      step cfg (FLOp.setPlaybackRate now rate) s = (s, ⟨false, []⟩))
    ∧ (∀ q : ℚ, rate = JsNum.fin q → q ≠ 0 →
        (step cfg (FLOp.setPlaybackRate now rate) s).1
          = { s with playbackRate := q,
                     timeBeforeLastStartMs := getAnimCurrentTime cfg now s,
                     lastStartedTs := if s.playing then now else s.lastStartedTs }
        ∧ (step cfg (FLOp.setPlaybackRate now rate) s).2 = ⟨false, []⟩
        ∧ getAnimCurrentTime cfg now (step cfg (FLOp.setPlaybackRate now rate) s).1
            = getAnimCurrentTime cfg now s) := by
  constructor
  · intro hrej
    cases rate with
    | fin q =>
      rcases hrej with hbad | h0
      · simp [JsNum.isFinite] at hbad
      · obtain rfl : q = 0 := by injection h0
        simp [step]
    | nan => rfl
    | posInf => rfl
    | negInf => rfl
  · rintro q rfl hq
    refine ⟨by simp [step, hq], by simp [step, hq], ?_⟩
    have hstate : (step cfg (FLOp.setPlaybackRate now (JsNum.fin q)) s).1
        = { s with playbackRate := q,
                   timeBeforeLastStartMs := getAnimCurrentTime cfg now s,
                   lastStartedTs := if s.playing then now else s.lastStartedTs } := by
      simp [step, hq]
    rw [hstate]
    show clampToTotal cfg
        (getAnimCurrentTime cfg now s
          + (if (if s.playing = true then now else s.lastStartedTs) ≠ 0 then
              (now - (if s.playing = true then now else s.lastStartedTs)) * q
            else 0)) = getAnimCurrentTime cfg now s
    have hE : (if (if s.playing = true then now else s.lastStartedTs) ≠ 0 then
        (now - (if s.playing = true then now else s.lastStartedTs)) * q
      else 0) = 0 := by
      cases hp : s.playing with
      | true => simp [hp, sub_self]
      | false => simp [hp, hinv hp]
    rw [hE, add_zero]
    show clampToTotal cfg (clampToTotal cfg _) = _
    exact clampToTotal_idem cfg _

/-- Witness for `setPlaybackRate_rejects_or_preserves_time`: changing the
rate to 2 at wall-clock 7 on a paused animator leaves `getCurrentTime`
unchanged, and a zero rate leaves the state untouched. -/
theorem setPlaybackRate_rejects_or_preserves_time_witness :
    (step witnessCfg (FLOp.setPlaybackRate 7 (JsNum.fin 0)) (FLState.init witnessCfg)
        = (FLState.init witnessCfg, ⟨false, []⟩))
    ∧ getAnimCurrentTime witnessCfg 7
        ((step witnessCfg (FLOp.setPlaybackRate 7 (JsNum.fin 2)) (FLState.init witnessCfg)).1)
        = getAnimCurrentTime witnessCfg 7 (FLState.init witnessCfg) :=
  ⟨(setPlaybackRate_rejects_or_preserves_time witnessCfg (FLState.init witnessCfg) 7
      (JsNum.fin 0) (fun _ => rfl)).1 (Or.inr rfl),
   ((setPlaybackRate_rejects_or_preserves_time witnessCfg (FLState.init witnessCfg) 7
      (JsNum.fin 2) (fun _ => rfl)).2 2 rfl (by norm_num)).2.2⟩

/-! ## Native (Web Animations API) backend: delay/seek handling

`createWebApiAnimator` in `PxAnimatorWebApi.ts` builds, per element,
`KeyframeEffectOptions` and an optional initial `anim.currentTime` seek:

```js
const positiveDelay = config.delay && config.delay > 0 ? config.delay : undefined;
const seekPosition = config.delay && config.delay < 0 && config.duration
    ? (-config.delay) % config.duration
    : undefined;
...
if (seekPosition) { anim.currentTime = seekPosition; }
```
-/

/-- JS remainder `a % b` as used in `(-config.delay) % config.duration`:
both operands are positive there, where JS `%` is `a - b * trunc(a/b)`
= `a - b * ⌊a/b⌋`. -/
def jsRem (a b : ℚ) : ℚ := a - b * ⌊a / b⌋

/-- The `delay` entry of the native `KeyframeEffectOptions`
(`undefined` unless the configured delay is truthy and positive). -/
def webApiPositiveDelay : Option ℚ → Option ℚ
  | some d => if d ≠ 0 ∧ d > 0 then some d else none
  | none => none

/-- The computed `seekPosition` (`undefined` unless the configured delay is
truthy and negative and the duration is truthy). -/
def webApiSeekPosition (delay duration : Option ℚ) : Option ℚ :=
  match delay, duration with
  | some d, some L => if d ≠ 0 ∧ d < 0 ∧ L ≠ 0 then some (jsRem (-d) L) else none
  | _, _ => none

/-- The initial `anim.currentTime` assignment on construction:
`if (seekPosition) { anim.currentTime = seekPosition; }` — the seek runs only
when the computed position is truthy (non-zero); `none` means the fresh
animation's running time is left untouched. -/
def webApiInitialSeek (delay duration : Option ℚ) : Option ℚ :=
  match webApiSeekPosition delay duration with
  | some q => if q ≠ 0 then some q else none
  | none => none

/-- C8 counterexample: with delay `-1000` and duration `1000` the claimed
seek to `(-d) mod duration = 0` does not happen — `if (seekPosition)` is
falsy at 0, so the running time is left untouched, not set to `0`. -/
theorem webApi_negative_delay_exact_multiple_skips_seek :
    webApiInitialSeek (some (-1000)) (some 1000) ≠ some (jsRem (-(-1000)) 1000)
    ∧ webApiInitialSeek (some (-1000)) (some 1000) = none := by
  have hrem : jsRem (1000 : ℚ) 1000 = 0 := by
    norm_num [jsRem]
  have hnone : webApiInitialSeek (some (-1000)) (some 1000) = none := by
    simp [webApiInitialSeek, webApiSeekPosition, hrem]
  exact ⟨by rw [hnone]; simp, hnone⟩

/-- C8 (amended): on the native backend, for a negative delay `d` and a
positive duration `L`, the effect options carry no delay and the animation is
immediately seeked to `(-d) mod L` on construction whenever that value is
non-zero; when `(-d)` is an exact multiple of `L` the seek position is `0`
(falsy) and the seek is skipped.  A positive delay is instead passed through
as the native pre-start delay option. -/
theorem webApi_delay_seek (d L : ℚ) (hd : d < 0) (hL : 0 < L) :
    webApiPositiveDelay (some d) = none
    ∧ webApiSeekPosition (some d) (some L) = some (jsRem (-d) L)
    ∧ (jsRem (-d) L ≠ 0 → webApiInitialSeek (some d) (some L) = some (jsRem (-d) L))
    ∧ (jsRem (-d) L = 0 → webApiInitialSeek (some d) (some L) = none)
    ∧ (∀ d' : ℚ, 0 < d' → webApiPositiveDelay (some d') = some d') := by
  have hdz : d ≠ 0 := hd.ne
  have hLz : L ≠ 0 := hL.ne'
  have hseek : webApiSeekPosition (some d) (some L) = some (jsRem (-d) L) := by
    simp [webApiSeekPosition, hdz, hd, hLz]
  refine ⟨?_, hseek, ?_, ?_, ?_⟩
  · simp [webApiPositiveDelay, hd.not_lt]
  · intro h
    simp [webApiInitialSeek, hseek, h]
  · intro h
    simp [webApiInitialSeek, hseek, h]
  · intro d' hd'
    simp [webApiPositiveDelay, hd', hd'.ne']

/-- Witness for `webApi_delay_seek`: delay `-500` with duration `1000` yields
an initial running time of `500` ms and no native delay option. -/
theorem webApi_delay_seek_witness :
    webApiInitialSeek (some (-500)) (some 1000) = some 500
    ∧ webApiPositiveDelay (some (-500)) = none := by
  have h := webApi_delay_seek (-500) 1000 (by norm_num) (by norm_num)
  have hrem : jsRem (-(-500) : ℚ) 1000 = 500 := by
    norm_num [jsRem]
  refine ⟨?_, h.1⟩
  have := h.2.2.1 (by rw [hrem]; norm_num)
  rw [hrem] at this
  exact this

/-! ## Keyframes and value interpolation (`PxDefinitions.ts`, `PxAnimatorUtil.ts`)

Keyframe values are modelled structurally: numbers, number vectors (used by
`translate`/`scale`/`stroke-dasharray` and by normalized colors), and bezier
path sets (`{ paths: [...] }` or a raw array of path objects).  String-encoded
paths (`"path(...)"`, parsed by `parseSvgPathToBezier`) and string-encoded
colors (parsed by `parseHex`/`parseRgba`) are outside the modelled universe:
for already-structured values — the normalized interchange form — the source's
`normalizePathValue` and `parseColor` act exactly as modelled below.  Operand
combinations whose JS evaluation produces `NaN` (e.g. arithmetic on a path
object) are likewise outside the rational model and are noted per definition.
-/

/-- A cubic-bezier easing 4-tuple `[x1, y1, x2, y2]`. -/
structure CubicBez where
  p1x : ℚ
  p1y : ℚ
  p2x : ℚ
  p2y : ℚ
deriving DecidableEq, Repr

/-- `PxEasingOrRef`: a named reference into `defs.easings` or an inline
cubic-bezier array. -/
inductive PxEasingOrRef where
  | ref (name : String)
  | bez (b : CubicBez)
deriving DecidableEq, Repr

/-- `PxBezierPath`: absolute vertices with optional in/out handle arrays and
an optional closed flag. -/
structure PxBezierPath where
  v : List (List ℚ)
  i : Option (List (List ℚ)) := none
  o : Option (List (List ℚ)) := none
  c : Option Bool := none
deriving DecidableEq, Repr

/-- A structured keyframe value (see the section comment for the modelled
universe).  `paths ps` is the `{ paths: [...] }` object form; `pathArr ps` a
raw array of path objects. -/
inductive PxVal where
  | num (q : ℚ)
  | vec (xs : List ℚ)
  | paths (ps : List PxBezierPath)
  | pathArr (ps : List PxBezierPath)
deriving DecidableEq, Repr

/-- `PxKeyframe` with long/short alias fields (`time`/`t`, `value`/`v`,
`easing`/`e`), each optional. -/
structure PxKeyframe where
  time : Option ℚ := none
  t : Option ℚ := none
  value : Option PxVal := none
  v : Option PxVal := none
  easing : Option PxEasingOrRef := none
  e : Option PxEasingOrRef := none
deriving DecidableEq, Repr

/-- `PxPropertyAnimation`: `{ keyframes?, kfs? }`. -/
structure PxPropertyAnimation where
  keyframes : Option (List PxKeyframe) := none
  kfs : Option (List PxKeyframe) := none
deriving DecidableEq, Repr

/-- The comparator key of the normalization sort and of `getKeyframesPair`:
`kf.t ?? 0`. -/
def keyT (kf : PxKeyframe) : ℚ := kf.t.getD 0

/-- `COLOUR_ATTR_NAMES` from `PxAnimatorUtil.ts`. -/
def COLOUR_ATTR_NAMES : List String :=
  ["color", "fill", "flood-color", "lighting-color", "stop-color", "stroke"]

/-- `resolveEasing(easing, defs)`: `undefined`/empty-string easing resolves to
`undefined`; an inline array resolves to itself; a name is looked up in
`defs.easings` (unknown names warn and resolve to `undefined`). -/
def resolveEasing (easing : Option PxEasingOrRef)
    (easings : List (String × CubicBez)) : Option CubicBez :=
  match easing with
  | none => none
  | some (.bez b) => some b
  | some (.ref n) =>
      if n = "" then none
      else match easings.lookup n with
        | some b => some b
        | none => none

/-- `normalizePathValue` on the modelled universe: a `{ paths: [...] }` value
whose entries are already path objects is returned as-is (the source's
"already in correct format" branch); a raw array of path objects is wrapped
into `{ paths: ... }`; other modelled values pass through unchanged.
(The source's path-string parsing branches cannot arise for structured
values.) -/
def normalizePathValue : Option PxVal → Option PxVal
  | some (.paths ps) => some (.paths ps)
  | some (.pathArr ps) => some (.paths ps)
  | v => v

/-- `parseColor` on the modelled universe: arrays are returned as-is
(`if (Array.isArray(s)) return s`); everything else modelled (absent values,
numbers, plain objects) is falsy or non-string and parses to `undefined`. -/
def parseColor : Option PxVal → Option PxVal
  | some (.vec xs) => some (.vec xs)
  | some (.pathArr ps) => some (.pathArr ps)
  | _ => none

/-- The per-keyframe normalization step of `normalizeKeyframes`: resolve
aliases (`time ?? t ?? 0`, `value ?? v`, `easing ?? e`), normalize `d` path
values and color values, resolve easing references; the result uses the short
field names. -/
def normalizeKf (propName : String) (easings : List (String × CubicBez))
    (kf : PxKeyframe) : PxKeyframe :=
  let timePct := (kf.time.orElse fun _ => kf.t).getD 0
  let value0 := kf.value.orElse fun _ => kf.v
  let easing := kf.easing.orElse fun _ => kf.e
  let value1 := if propName = "d" then normalizePathValue value0 else value0
  let value2 := if COLOUR_ATTR_NAMES.contains propName then
      (parseColor value1).orElse fun _ => value1
    else value1
  { t := some timePct
    v := value2
    e := (resolveEasing easing easings).map PxEasingOrRef.bez }

/-- `normalizeKeyframes(propName, propAnim, duration, defs)`: reads
`propAnim.keyframes || propAnim.kfs || []`, normalizes each keyframe, then
sorts ascending by `t` with a stable sort (`normalized.sort((a, b) =>
(a.t ?? 0) - (b.t ?? 0))`; JS `Array.prototype.sort` is stable, modelled by
`List.mergeSort`).  The `duration` parameter is unused by the source body. -/
def normalizeKeyframes (propName : String) (propAnim : PxPropertyAnimation)
    (duration : ℚ) (easings : List (String × CubicBez)) : List PxKeyframe :=
  let _ := duration
  let keyframes := (propAnim.keyframes.orElse fun _ => propAnim.kfs).getD []
  let normalized := keyframes.map (normalizeKf propName easings)
  normalized.mergeSort (fun a b => decide (keyT a ≤ keyT b))

/-- The scan of `getKeyframesPair`: the first adjacent pair `(a, b)` with
`a.t ?? 0 ≤ progress ≤ b.t ?? 0`. -/
def scanPairs (progress : ℚ) : List PxKeyframe → Option (PxKeyframe × PxKeyframe)
  | a :: b :: rest =>
      if keyT a ≤ progress ∧ progress ≤ keyT b then some (a, b)
      else scanPairs progress (b :: rest)
  | _ => none

/-- `getKeyframesPair(keyframes, progress)`: the matching adjacent pair, or
`(keyframes[0], keyframes[keyframes.length - 1])` when no pair matches. -/
def getKeyframesPair (keyframes : List PxKeyframe) (progress : ℚ) :
    PxKeyframe × PxKeyframe :=
  match scanPairs progress keyframes with
  | some p => p
  | none => (keyframes.headD {}, keyframes.getLastD {})

/-! ### `cubicBezier` (`PxAnimatorUtil.ts`) -/

/-- `sampleCurveX` with the precomputed coefficients
`cx = 3 p1x`, `bx = 3 (p2x - p1x) - cx`, `ax = 1 - cx - bx`. -/
def sampleCurveX (e : CubicBez) (t : ℚ) : ℚ :=
  let cx := 3 * e.p1x
  let bx := 3 * (e.p2x - e.p1x) - cx
  let ax := 1 - cx - bx
  ((ax * t + bx) * t + cx) * t

/-- `sampleCurveY`, analogous to `sampleCurveX`. -/
def sampleCurveY (e : CubicBez) (t : ℚ) : ℚ :=
  let cy := 3 * e.p1y
  let by_ := 3 * (e.p2y - e.p1y) - cy
  let ay := 1 - cy - by_
  ((ay * t + by_) * t + cy) * t

/-- `sampleCurveDerivativeX`. -/
def sampleCurveDerivativeX (e : CubicBez) (t : ℚ) : ℚ :=
  let cx := 3 * e.p1x
  let bx := 3 * (e.p2x - e.p1x) - cx
  let ax := 1 - cx - bx
  (3 * ax * t + 2 * bx) * t + cx

/-- The epsilon `1e-6` of `solveCurveX` (exact decimal in the rational
model). -/
def bezEps : ℚ := 1 / 1000000

/-- The Newton-Raphson loop of `solveCurveX` (at most 8 iterations in the
source); returns the solved parameter, or `none` when the iteration budget is
exhausted or the derivative is too small (`break` to bisection). -/
def newtonIter (e : CubicBez) (x : ℚ) : ℕ → ℚ → Option ℚ
  | 0, _ => none
  | n + 1, t2 =>
      let x2 := sampleCurveX e t2 - x
      if |x2| < bezEps then some t2
      else
        let d2 := sampleCurveDerivativeX e t2
        if |d2| < bezEps then none
        else newtonIter e x n (t2 - x2 / d2)

/-- The bisection fallback loop of `solveCurveX`.  The source's
`while (t0 < t1)` loop terminates through floating-point precision; over
exact rationals it is given an explicit iteration budget, after which the
current midpoint is returned (the claims checked here never enter this
loop — `solveCurveX` is only evaluated at its `x ≤ 0` / `x ≥ 1` early
returns). -/
def bisectIter (e : CubicBez) (x : ℚ) : ℕ → ℚ → ℚ → ℚ → ℚ
  | 0, _, _, t2 => t2
  | n + 1, t0, t1, t2 =>
      if t0 < t1 then
        let x2 := sampleCurveX e t2
        if |x2 - x| < bezEps then t2
        else
          let t0' := if x > x2 then t2 else t0
          let t1' := if x > x2 then t1 else t2
          bisectIter e x n t0' t1' ((t1' + t0') / 2)
      else t2

/-- `solveCurveX(x)`: `0` for `x ≤ 0`, `1` for `x ≥ 1`, otherwise
Newton-Raphson from `t2 = x` with bisection on `[0, 1]` as fallback. -/
def solveCurveX (e : CubicBez) (x : ℚ) : ℚ :=
  if x ≤ 0 then 0
  else if x ≥ 1 then 1
  else
    match newtonIter e x 8 x with
    | some t => t
    | none => bisectIter e x 64 0 1 x

/-- `cubicBezier(easing)(x) = sampleCurveY(solveCurveX(x))`. -/
def cubicBezier (e : CubicBez) (x : ℚ) : ℚ :=
  sampleCurveY e (solveCurveX e x)

/-! ### Interpolators (`PxAnimatorUtil.ts`) -/

/-- `interpolateVec(a, b, t)`: element-wise over `max(a.length, b.length)`
entries, each side read as `a[i] || 0` (which, for rational entries, is the
0-defaulted index). -/
def interpolateVec (a b : List ℚ) (t : ℚ) : List ℚ :=
  (List.range (max a.length b.length)).map
    (fun idx => interpolateNum ((a.get? idx).getD 0) ((b.get? idx).getD 0) t)

/-- `interpolateColor(a, b, t)`: always four components; the first three read
as `a[i] || 0`, the alpha as `a[3] === undefined ? 1 : a[3]`. -/
def interpolateColor (a b : List ℚ) (t : ℚ) : List ℚ :=
  [ interpolateNum ((a.get? 0).getD 0) ((b.get? 0).getD 0) t,
    interpolateNum ((a.get? 1).getD 0) ((b.get? 1).getD 0) t,
    interpolateNum ((a.get? 2).getD 0) ((b.get? 2).getD 0) t,
    interpolateNum ((a.get? 3).getD 1) ((b.get? 3).getD 1) t ]

/-- `interpolateBezier(path1, path2, progress)`: missing side passes the
other through (`path1 || path2 || { v: [] }`); otherwise per-vertex
interpolation over `min` vertex counts with handles defaulting to the vertex
(`path1.i?.[idx] ?? v1`), progress clamped to `[0, 1]`, the handle arrays
dropped when empty, and `c = path1.c ?? path2.c`. -/
def interpolateBezier (p1 p2 : Option PxBezierPath) (progress : ℚ) : PxBezierPath :=
  match p1, p2 with
  | none, none => { v := [] }
  | some p, none => p
  | none, some p => p
  | some path1, some path2 =>
      let t := min (max progress 0) 1
      let len := min path1.v.length path2.v.length
      let vs := (List.range len).map (fun idx =>
        interpolateVec ((path1.v.get? idx).getD []) ((path2.v.get? idx).getD []) t)
      let is_ := (List.range len).map (fun idx =>
        let v1 := (path1.v.get? idx).getD []
        let v2 := (path2.v.get? idx).getD []
        let i1 := ((path1.i.bind fun arr => arr.get? idx).getD v1)
        let i2 := ((path2.i.bind fun arr => arr.get? idx).getD v2)
        interpolateVec i1 i2 t)
      let os := (List.range len).map (fun idx =>
        let v1 := (path1.v.get? idx).getD []
        let v2 := (path2.v.get? idx).getD []
        let o1 := ((path1.o.bind fun arr => arr.get? idx).getD v1)
        let o2 := ((path2.o.bind fun arr => arr.get? idx).getD v2)
        interpolateVec o1 o2 t)
      { v := vs
        i := if is_.length ≠ 0 then some is_ else none
        o := if os.length ≠ 0 then some os else none
        c := path1.c.orElse fun _ => path2.c }

/-- `interpolateBeziers(paths1, paths2, progress)`: index-wise over
`max` path counts. -/
def interpolateBeziers (paths1 paths2 : List PxBezierPath) (progress : ℚ) :
    List PxBezierPath :=
  (List.range (max paths1.length paths2.length)).map
    (fun idx => interpolateBezier (paths1.get? idx) (paths2.get? idx) progress)

/-! ### Attribute-name helpers (`PxAnimatorUtil.ts`) -/

/-- Adjacent lowercase-then-uppercase pair, the `/[a-z][A-Z]/` test. -/
def hasLowerUpperPair : List Char → Bool
  | a :: b :: rest =>
      (('a' ≤ a && a ≤ 'z') && ('A' ≤ b && b ≤ 'Z')) || hasLowerUpperPair (b :: rest)
  | _ => false

/-- `isCamelCaseWord(word)`: no hyphen and some `[a-z][A-Z]` pair. -/
def isCamelCaseWord (word : String) : Bool :=
  !word.data.contains '-' && hasLowerUpperPair word.data

/-- `SVG_CAMEL_CASE_ATTRS` (attributes kept camel-cased). -/
def SVG_CAMEL_CASE_ATTRS : List String :=
  ["viewBox", "preserveAspectRatio",
   "gradientUnits", "gradientTransform", "spreadMethod",
   "patternUnits", "patternContentUnits", "patternTransform",
   "clipPathUnits", "maskUnits", "maskContentUnits",
   "textLength", "lengthAdjust", "startOffset",
   "filterUnits", "primitiveUnits", "stdDeviation", "baseFrequency",
   "numOctaves", "surfaceScale", "diffuseConstant", "specularConstant",
   "specularExponent", "kernelMatrix", "kernelUnitLength", "edgeMode",
   "preserveAlpha", "targetX", "targetY",
   "attributeName", "attributeType", "calcMode", "keyTimes", "keySplines",
   "repeatCount", "repeatDur",
   "clipPath", "fillOpacity", "strokeOpacity", "strokeWidth",
   "strokeLinecap", "strokeLinejoin", "strokeMiterlimit", "strokeDasharray",
   "strokeDashoffset", "fontFamily", "fontSize", "fontStyle", "fontVariant",
   "fontWeight", "textAnchor", "textDecoration"]

/-- The `/([a-z0-9])([A-Z])/g` → `'$1-$2'` replacement (the regex consumes
both characters of a match, so scanning resumes after the uppercase). -/
def kebabScan : List Char → List Char
  | a :: b :: rest =>
      if (a.isDigit || ('a' ≤ a && a ≤ 'z')) && ('A' ≤ b && b ≤ 'Z') then
        a :: '-' :: b :: kebabScan rest
      else a :: kebabScan (b :: rest)
  | rest => rest

/-- `camelCaseToKebabWordIfNeeded(camel)`: identity on `SVG_CAMEL_CASE_ATTRS`,
otherwise hyphenate lower/digit-to-upper boundaries and lowercase. -/
def camelCaseToKebabWordIfNeeded (camel : String) : String :=
  if SVG_CAMEL_CASE_ATTRS.contains camel then camel
  else String.mk ((kebabScan camel.data).map Char.toLower)

/-! ### `calcPropertyValue` (`PxDefinitions.ts`)

The computed CSS value, up to final string serialization: each branch of the
source produces a string by a fixed injective rendering of the structured
data below (`toRGBA` for colors, `join(' ')` for dash arrays,
`'translate(...)'`/`'rotate(...)'`/`'scale(...)'` wrappers,
`bezierToSvgPath` concatenation for paths, decimal printing plus `'%'` for
percent-based numeric attributes).  The structured result determines the
rendered string, so value claims are settled on this representation. -/
inductive CssOut where
  | num (q : ℚ)
  | nan
  | rgba (c : List ℚ)
  | dash (xs : List ℚ)
  | translate (xs : List ℚ)
  | rotate (q : ℚ)
  | scale (xs : List ℚ)
  | pathD (ps : List PxBezierPath)
  | pct (q : ℚ)
deriving DecidableEq, Repr

/-- `PCT_BASED_ATTR_NAMES`. -/
def PCT_BASED_ATTR_NAMES : List String := ["offset-distance", "offsetDistance"]

/-- The kebab-normalized attribute name computed at the top of
`calcPropertyValue`:
`isCamelCaseWord(propName) ? camelCaseToKebabWordIfNeeded(propName) : propName`. -/
def cssAttrNameOf (propName : String) : String :=
  if isCamelCaseWord propName then camelCaseToKebabWordIfNeeded propName
  else propName

/-- The `d`-branch operand:
`prevV?.paths ?? (Array.isArray(prevV) ? prevV : [])`.
(A `vec` value — a raw array of numbers — would pass through as malformed
"paths" whose element accesses all yield `undefined` in JS; it is outside the
modelled `d` universe and mapped to `[]`.) -/
def pathsOperand : Option PxVal → List PxBezierPath
  | some (.paths ps) => ps
  | some (.pathArr ps) => ps
  | _ => []

/-- A vector-branch operand `value || dflt` as consumed by `interpolateVec`:
`some` rational entries, or `none` when the JS value is truthy but has no
numeric `length`/entries (a number or a plain object), which makes
`Math.max(a.length, …)` `NaN` and the interpolation loop produce `[]`.
(A non-empty `pathArr` has a length but object entries, whose interpolation
is `NaN` — outside the rational model.) -/
def vecOperand (dflt : List ℚ) : Option PxVal → Option (List ℚ)
  | none => some dflt
  | some (.num q) => if q = 0 then some dflt else none
  | some (.vec xs) => some xs
  | some (.paths _) => none
  | some (.pathArr ps) => if ps.isEmpty then some [] else none

/-- `interpolateVec` applied to JS operands: `[]` when either side has no
numeric length. -/
def interpolateVecJS (a b : Option (List ℚ)) (t : ℚ) : List ℚ :=
  match a, b with
  | some a, some b => interpolateVec a b t
  | _, _ => []

/-- The colour-branch operand `value || [0, 0, 0, 1]` as consumed by
`interpolateColor` (which reads indices 0-3): a truthy non-array value
(non-zero number, plain object) has only `undefined` at those indices and
behaves as `[]`; a non-empty `pathArr` would give `NaN` components — outside
the modelled universe, mapped to `[]`. -/
def colorOperand : Option PxVal → List ℚ
  | none => [0, 0, 0, 1]
  | some (.num q) => if q = 0 then [0, 0, 0, 1] else []
  | some (.vec xs) => xs
  | some (.paths _) => []
  | some (.pathArr _) => []

/-- The numeric-branch operand `+(value || 0)`: `none` encodes `NaN`
(multi-entry arrays, plain objects). -/
def numOperand : Option PxVal → Option ℚ
  | none => some 0
  | some (.num q) => some q
  | some (.vec []) => some 0
  | some (.vec [q]) => some q
  | some (.vec _) => none
  | some (.paths _) => none
  | some (.pathArr []) => some 0
  | some (.pathArr _) => none

/-- `interpolateNum` over JS numeric operands (`NaN` absorbing). -/
def interpolateNumJS (a b : Option ℚ) (t : ℚ) : CssOut :=
  match a, b with
  | some a, some b => .num (interpolateNum a b t)
  | _, _ => .nan

/-- The value-dispatch of `calcPropertyValue`: branch on the kebab-normalized
attribute name to the type-appropriate interpolation of the two keyframe
values at the eased local progress, then render percent-based numeric
attributes as percentages. -/
def dispatchValue (propName : String) (prevV nextV : Option PxVal)
    (localProgress : ℚ) : String × CssOut :=
  let cssAttrName := cssAttrNameOf propName
  let res : String × CssOut :=
    if cssAttrName = "d" then
      (cssAttrName,
       .pathD (interpolateBeziers (pathsOperand prevV) (pathsOperand nextV)
         localProgress))
    else if COLOUR_ATTR_NAMES.contains cssAttrName then
      (propName, .rgba (interpolateColor (colorOperand prevV) (colorOperand nextV)
         localProgress))
    else if cssAttrName = "stroke-dasharray" then
      (propName, .dash (interpolateVecJS (vecOperand [] prevV) (vecOperand [] nextV)
         localProgress))
    else if cssAttrName = "translate" then
      ("transform", .translate (interpolateVecJS (vecOperand [0, 0] prevV)
         (vecOperand [0, 0] nextV) localProgress))
    else if cssAttrName = "rotate" then
      ("transform", match interpolateNumJS (numOperand prevV) (numOperand nextV)
          localProgress with
        | .num q => .rotate q
        | r => r)
    else if cssAttrName = "scale" then
      ("transform", .scale (interpolateVecJS (vecOperand [1, 1] prevV)
         (vecOperand [1, 1] nextV) localProgress))
    else
      (cssAttrName, interpolateNumJS (numOperand prevV) (numOperand nextV)
         localProgress)
  if PCT_BASED_ATTR_NAMES.contains res.1 then
    match res.2 with
    | .num q => (res.1, .pct q)
    | r => (res.1, r)
  else res

/-- The keyframe value read by `calcPropertyValue`: `kf.v ?? kf.value`. -/
def kfVal (kf : PxKeyframe) : Option PxVal := kf.v.orElse fun _ => kf.value

/-- The local-progress computation of `calcPropertyValue` for a selected
keyframe pair: 0 when the two keyframes coincide, otherwise `progress`
remapped between their times, clamped to `[0, 1]`, then eased through the
previous keyframe's cubic-bezier easing when that is an array
(`prevKf.e ?? prevKf.easing`; a named reference is skipped by the
`Array.isArray` test).  The reference identity `prevKf === nextKf` holds
exactly for a single-keyframe list, where the modelled value equality also
holds; a value-equal pair arising elsewhere forces `prevKf.t = nextKf.t`,
where `remap` returns its `outMin = 0` just as the reference-equality branch
does, so the model is extensionally faithful. -/
def localProgressOf (pair : PxKeyframe × PxKeyframe) (progress : ℚ) : ℚ :=
  let local0 : ℚ :=
    if pair.1 = pair.2 then 0
    else remap progress (pair.1.t.getD 0) (pair.2.t.getD 0) 0 1
  let local1 := clamp local0 0 1
  match pair.1.e.orElse fun _ => pair.1.easing with
  | some (.bez b) => cubicBezier b local1
  | _ => local1

/-- `calcPropertyValue(propName, propAnim, progress)`: `null` on an empty
keyframe list (`propAnim.kfs || propAnim.keyframes || []`), otherwise find
the bounding keyframe pair, compute the eased local progress, and dispatch to
the type-appropriate interpolation of `prevKf.v ?? prevKf.value` and
`nextKf.v ?? nextKf.value`. -/
def calcPropertyValue (propName : String) (propAnim : PxPropertyAnimation)
    (progress : ℚ) : Option (String × CssOut) :=
  let keyframes := (propAnim.kfs.orElse fun _ => propAnim.keyframes).getD []
  if keyframes.length = 0 then none
  else
    let pair := getKeyframesPair keyframes progress
    some (dispatchValue propName (kfVal pair.1) (kfVal pair.2)
      (localProgressOf pair progress))

/-! ### Endpoint lemmas for the easing and interpolation functions -/

/-- `sampleCurveY` at 0. -/
theorem sampleCurveY_zero (e : CubicBez) : sampleCurveY e 0 = 0 := by
  simp [sampleCurveY]

/-- `sampleCurveY` at 1 (the coefficients sum to 1 identically). -/
theorem sampleCurveY_one (e : CubicBez) : sampleCurveY e 1 = 1 := by
  simp only [sampleCurveY]
  ring

/-- `solveCurveX` early return at `x ≤ 0`. -/
theorem solveCurveX_nonpos (e : CubicBez) (x : ℚ) (h : x ≤ 0) :
    solveCurveX e x = 0 := by
  simp [solveCurveX, h]

/-- `solveCurveX` early return at `x ≥ 1`. -/
theorem solveCurveX_ge_one (e : CubicBez) (x : ℚ) (h : 1 ≤ x) :
    solveCurveX e x = 1 := by
  have hx : ¬ x ≤ 0 := by linarith
  simp [solveCurveX, hx, h, ge_iff_le]

/-- The cubic-bezier easing maps 0 to 0 exactly. -/
theorem cubicBezier_zero (e : CubicBez) : cubicBezier e 0 = 0 := by
  rw [cubicBezier, solveCurveX_nonpos e 0 le_rfl, sampleCurveY_zero]

/-- The cubic-bezier easing maps 1 to 1 exactly. -/
theorem cubicBezier_one (e : CubicBez) : cubicBezier e 1 = 1 := by
  rw [cubicBezier, solveCurveX_ge_one e 1 le_rfl, sampleCurveY_one]

/-- The optional easing application of `calcPropertyValue` fixes 0. -/
theorem easeOpt_zero (easing : Option PxEasingOrRef) :
    (match easing with
      | some (.bez b) => cubicBezier b 0
      | _ => (0 : ℚ)) = 0 := by
  match easing with
  | none => rfl
  | some (.ref _) => rfl
  | some (.bez b) => exact cubicBezier_zero b

/-- The optional easing application of `calcPropertyValue` fixes 1. -/
theorem easeOpt_one (easing : Option PxEasingOrRef) :
    (match easing with
      | some (.bez b) => cubicBezier b 1
      | _ => (1 : ℚ)) = 1 := by
  match easing with
  | none => rfl
  | some (.ref _) => rfl
  | some (.bez b) => exact cubicBezier_one b

/-- `interpolateNum` at 0. -/
theorem interpolateNum_zero (a b : ℚ) : interpolateNum a b 0 = a := by
  simp [interpolateNum]

/-- `interpolateNum` at 1. -/
theorem interpolateNum_one (a b : ℚ) : interpolateNum a b 1 = b := by
  simp [interpolateNum]

/-- Reading a list back through its 0-defaulted indices. -/
theorem range_map_getD (a : List ℚ) :
    (List.range a.length).map (fun idx => (a.get? idx).getD 0) = a := by
  induction a with
  | nil => rfl
  | cons x xs ih =>
    rw [List.length_cons, List.range_succ_eq_map, List.map_cons, List.map_map]
    simp only [List.get?_cons_zero, Option.getD_some]
    congr 1

/-- `interpolateVec` at 0 returns its first operand when it is at least as
long as the second. -/
theorem interpolateVec_zero (a b : List ℚ) (h : b.length ≤ a.length) :
    interpolateVec a b 0 = a := by
  rw [interpolateVec]
  rw [max_eq_left h]
  calc (List.range a.length).map
        (fun idx => interpolateNum ((a.get? idx).getD 0) ((b.get? idx).getD 0) 0)
      = (List.range a.length).map (fun idx => (a.get? idx).getD 0) := by
        apply List.map_congr_left
        intro idx _
        exact interpolateNum_zero _ _
    _ = a := range_map_getD a

/-- `interpolateVec` at 1 returns its second operand when it is at least as
long as the first. -/
theorem interpolateVec_one (a b : List ℚ) (h : a.length ≤ b.length) :
    interpolateVec a b 1 = b := by
  rw [interpolateVec]
  rw [max_eq_right h]
  calc (List.range b.length).map
        (fun idx => interpolateNum ((a.get? idx).getD 0) ((b.get? idx).getD 0) 1)
      = (List.range b.length).map (fun idx => (b.get? idx).getD 0) := by
        apply List.map_congr_left
        intro idx _
        exact interpolateNum_one _ _
    _ = b := range_map_getD b

/-- `interpolateColor` at 0 depends only on its first operand. -/
theorem interpolateColor_zero (a b b' : List ℚ) :
    interpolateColor a b 0 = interpolateColor a b' 0 := by
  simp [interpolateColor, interpolateNum_zero]

/-- `interpolateColor` at 1 depends only on its second operand. -/
theorem interpolateColor_one (a a' b : List ℚ) :
    interpolateColor a b 1 = interpolateColor a' b 1 := by
  simp [interpolateColor, interpolateNum_one]

/-! ### Pair-selection lemmas for `getKeyframesPair` -/

/-- When the progress lies strictly before every keyframe time, no adjacent
pair matches. -/
theorem scanPairs_none_of_lt (p : ℚ) (kfs : List PxKeyframe)
    (h : ∀ kf ∈ kfs, p < keyT kf) : scanPairs p kfs = none := by
  induction kfs with
  | nil => rfl
  | cons a rest ih =>
    cases rest with
    | nil => rfl
    | cons b rest' =>
      rw [scanPairs, if_neg]
      · exact ih (fun kf hk => h kf (List.mem_cons_of_mem a hk))
      · rintro ⟨h1, _⟩
        exact absurd h1 (not_le.mpr (h a (List.mem_cons_self a _)))

/-- When the progress lies strictly after every keyframe time, no adjacent
pair matches. -/
theorem scanPairs_none_of_gt (p : ℚ) (kfs : List PxKeyframe)
    (h : ∀ kf ∈ kfs, keyT kf < p) : scanPairs p kfs = none := by
  induction kfs with
  | nil => rfl
  | cons a rest ih =>
    cases rest with
    | nil => rfl
    | cons b rest' =>
      rw [scanPairs, if_neg]
      · exact ih (fun kf hk => h kf (List.mem_cons_of_mem a hk))
      · rintro ⟨_, h2⟩
        exact absurd h2
          (not_le.mpr (h b (List.mem_cons_of_mem a (List.mem_cons_self b _))))

/-- The last two keyframes of a list (when it has at least two). -/
def lastTwo : List PxKeyframe → Option (PxKeyframe × PxKeyframe)
  | [a, b] => some (a, b)
  | _ :: b :: rest => lastTwo (b :: rest)
  | _ => none

/-- `lastTwo` returns the penultimate element paired with the last one. -/
theorem lastTwo_snd_getLast (kfs : List PxKeyframe) (a b : PxKeyframe)
    (h : lastTwo kfs = some (a, b)) : kfs.getLastD {} = b := by
  induction kfs with
  | nil => cases h
  | cons x rest ih =>
    cases rest with
    | nil => cases h
    | cons y rest' =>
      cases rest' with
      | nil =>
        have h' := Option.some.inj h
        have hy2 : y = b := congrArg Prod.snd h'
        simp [hy2]
      | cons z rest'' =>
        rw [show lastTwo (x :: y :: z :: rest'') = lastTwo (y :: z :: rest'') from rfl]
          at h
        rw [List.getLastD_cons]
        exact ih h

/-- When the progress equals the last keyframe's time and every earlier time
is strictly smaller, `scanPairs` selects the pair formed by the last two
keyframes. -/
theorem scanPairs_to_last (p : ℚ) (kfs : List PxKeyframe) (a b : PxKeyframe)
    (hlt : lastTwo kfs = some (a, b))
    (hkb : keyT b = p)
    (hpre : ∀ x ∈ kfs.dropLast, keyT x < p) :
    scanPairs p kfs = some (a, b) := by
  induction kfs with
  | nil => cases hlt
  | cons x rest ih =>
    cases rest with
    | nil => cases hlt
    | cons y rest' =>
      cases rest' with
      | nil =>
        have h' := Option.some.inj hlt
        have hx : x = a := congrArg Prod.fst h'
        have hy2 : y = b := congrArg Prod.snd h'
        subst hx
        subst hy2
        rw [scanPairs, if_pos]
        constructor
        · exact le_of_lt (hpre x (by simp))
        · exact le_of_eq hkb.symm
      | cons z rest'' =>
        rw [show lastTwo (x :: y :: z :: rest'') = lastTwo (y :: z :: rest'') from rfl]
          at hlt
        rw [scanPairs, if_neg]
        · refine ih hlt (fun t ht => hpre t ?_)
          rw [List.dropLast_cons₂]
          exact List.mem_cons_of_mem x ht
        · rintro ⟨_, h2⟩
          have hy : keyT y < p := by
            refine hpre y ?_
            rw [List.dropLast_cons₂, List.dropLast_cons₂]
            exact List.mem_cons_of_mem x (List.mem_cons_self y _)
          exact absurd h2 (not_le.mpr hy)

/-! ### Dimensional well-formedness of keyframe values

Ragged dimensions change endpoint behaviour (e.g. `interpolateVec` pads its
result to the longer operand even at progress 0, and `interpolateBeziers`
passes extra paths of the other side through), so endpoint claims are proved
for dimensionally uniform values. -/

/-- All points of a path (vertices and any handle entries) are 2D. -/
def PathWF (path : PxBezierPath) : Prop :=
  (∀ pt ∈ path.v, pt.length = 2)
  ∧ (∀ arr, path.i = some arr → ∀ pt ∈ arr, pt.length = 2)
  ∧ (∀ arr, path.o = some arr → ∀ pt ∈ arr, pt.length = 2)

/-- Two path sets with matching path counts, vertex counts and closed flags. -/
def PathsCompat (ps qs : List PxBezierPath) : Prop :=
  ps.length = qs.length
  ∧ ∀ pq ∈ ps.zip qs, pq.1.v.length = pq.2.v.length ∧ pq.1.c = pq.2.c

/-- A handle entry (`path.i?.[idx] ?? v`) of a well-formed path is 2D. -/
theorem optHandle_len2 (opt : Option (List (List ℚ))) (idx : ℕ)
    (fallback : List ℚ)
    (hopt : ∀ arr, opt = some arr → ∀ pt ∈ arr, pt.length = 2)
    (hfb : fallback.length = 2) :
    ((opt.bind fun arr => arr.get? idx).getD fallback).length = 2 := by
  cases opt with
  | none => exact hfb
  | some arr =>
    show ((arr.get? idx).getD fallback).length = 2
    cases harr : arr.get? idx with
    | none => rw [Option.getD_none]; exact hfb
    | some pt =>
      rw [Option.getD_some]
      exact hopt arr rfl pt (List.get?_mem harr)

/-- `interpolateBezier` of a compatible pair at progress 0 equals the
degenerate interpolation of its first path with itself. -/
theorem interpolateBezier_endpoint_zero (p1 p2 : PxBezierPath)
    (hv : p1.v.length = p2.v.length) (hc : p1.c = p2.c)
    (h1 : PathWF p1) (h2 : PathWF p2) :
    interpolateBezier (some p1) (some p2) 0 = interpolateBezier (some p1) (some p1) 0 := by
  obtain ⟨h1v, h1i, h1o⟩ := h1
  obtain ⟨h2v, h2i, h2o⟩ := h2
  have hget : ∀ (path : PxBezierPath) (idx : ℕ), idx < path.v.length →
      (∀ pt ∈ path.v, pt.length = 2) → ((path.v.get? idx).getD []).length = 2 := by
    intro path idx hidx hall
    cases hg : path.v.get? idx with
    | none => exact absurd (List.get?_eq_none.mp hg) (not_le.mpr hidx)
    | some pt => simpa [hg] using hall pt (List.get?_mem hg)
  simp only [interpolateBezier]
  have ht0 : min (max (0:ℚ) 0) 1 = 0 := by norm_num
  rw [ht0, ← hv, min_self]
  have hvs : ∀ idx ∈ List.range p1.v.length,
      interpolateVec ((p1.v.get? idx).getD []) ((p2.v.get? idx).getD []) 0
        = interpolateVec ((p1.v.get? idx).getD []) ((p1.v.get? idx).getD []) 0 := by
    intro idx hidx
    rw [List.mem_range] at hidx
    rw [interpolateVec_zero _ _ (by
        rw [hget p1 idx hidx h1v, hget p2 idx (hv ▸ hidx) h2v]),
      interpolateVec_zero _ _ le_rfl]
  have his : ∀ idx ∈ List.range p1.v.length,
      interpolateVec (((p1.i.bind fun arr => arr.get? idx).getD
          ((p1.v.get? idx).getD [])))
        (((p2.i.bind fun arr => arr.get? idx).getD ((p2.v.get? idx).getD []))) 0
        = interpolateVec (((p1.i.bind fun arr => arr.get? idx).getD
            ((p1.v.get? idx).getD [])))
          (((p1.i.bind fun arr => arr.get? idx).getD ((p1.v.get? idx).getD []))) 0 := by
    intro idx hidx
    rw [List.mem_range] at hidx
    rw [interpolateVec_zero _ _ (by
        rw [optHandle_len2 p1.i idx _ h1i (hget p1 idx hidx h1v),
          optHandle_len2 p2.i idx _ h2i (hget p2 idx (hv ▸ hidx) h2v)]),
      interpolateVec_zero _ _ le_rfl]
  have hos : ∀ idx ∈ List.range p1.v.length,
      interpolateVec (((p1.o.bind fun arr => arr.get? idx).getD
          ((p1.v.get? idx).getD [])))
        (((p2.o.bind fun arr => arr.get? idx).getD ((p2.v.get? idx).getD []))) 0
        = interpolateVec (((p1.o.bind fun arr => arr.get? idx).getD
            ((p1.v.get? idx).getD [])))
          (((p1.o.bind fun arr => arr.get? idx).getD ((p1.v.get? idx).getD []))) 0 := by
    intro idx hidx
    rw [List.mem_range] at hidx
    rw [interpolateVec_zero _ _ (by
        rw [optHandle_len2 p1.o idx _ h1o (hget p1 idx hidx h1v),
          optHandle_len2 p2.o idx _ h2o (hget p2 idx (hv ▸ hidx) h2v)]),
      interpolateVec_zero _ _ le_rfl]
  rw [List.map_congr_left hvs, List.map_congr_left his, List.map_congr_left hos,
    hc]

/-- `interpolateBezier` of a compatible pair at progress 1 equals the
degenerate interpolation of its second path with itself at 0. -/
theorem interpolateBezier_endpoint_one (p1 p2 : PxBezierPath)
    (hv : p1.v.length = p2.v.length) (hc : p1.c = p2.c)
    (h1 : PathWF p1) (h2 : PathWF p2) :
    interpolateBezier (some p1) (some p2) 1 = interpolateBezier (some p2) (some p2) 0 := by
  obtain ⟨h1v, h1i, h1o⟩ := h1
  obtain ⟨h2v, h2i, h2o⟩ := h2
  have hget : ∀ (path : PxBezierPath) (idx : ℕ), idx < path.v.length →
      (∀ pt ∈ path.v, pt.length = 2) → ((path.v.get? idx).getD []).length = 2 := by
    intro path idx hidx hall
    cases hg : path.v.get? idx with
    | none => exact absurd (List.get?_eq_none.mp hg) (not_le.mpr hidx)
    | some pt => simpa [hg] using hall pt (List.get?_mem hg)
  simp only [interpolateBezier]
  have ht1 : min (max (1:ℚ) 0) 1 = 1 := by norm_num
  have ht0 : min (max (0:ℚ) 0) 1 = 0 := by norm_num
  rw [ht1, ht0, hv, min_self]
  have hvs : ∀ idx ∈ List.range p2.v.length,
      interpolateVec ((p1.v.get? idx).getD []) ((p2.v.get? idx).getD []) 1
        = interpolateVec ((p2.v.get? idx).getD []) ((p2.v.get? idx).getD []) 0 := by
    intro idx hidx
    rw [List.mem_range] at hidx
    rw [interpolateVec_one _ _ (by
        rw [hget p1 idx (hv ▸ hidx) h1v, hget p2 idx hidx h2v]),
      interpolateVec_zero _ _ le_rfl]
  have his : ∀ idx ∈ List.range p2.v.length,
      interpolateVec (((p1.i.bind fun arr => arr.get? idx).getD
          ((p1.v.get? idx).getD [])))
        (((p2.i.bind fun arr => arr.get? idx).getD ((p2.v.get? idx).getD []))) 1
        = interpolateVec (((p2.i.bind fun arr => arr.get? idx).getD
            ((p2.v.get? idx).getD [])))
          (((p2.i.bind fun arr => arr.get? idx).getD ((p2.v.get? idx).getD []))) 0 := by
    intro idx hidx
    rw [List.mem_range] at hidx
    rw [interpolateVec_one _ _ (by
        rw [optHandle_len2 p1.i idx _ h1i (hget p1 idx (hv ▸ hidx) h1v),
          optHandle_len2 p2.i idx _ h2i (hget p2 idx hidx h2v)]),
      interpolateVec_zero _ _ le_rfl]
  have hos : ∀ idx ∈ List.range p2.v.length,
      interpolateVec (((p1.o.bind fun arr => arr.get? idx).getD
          ((p1.v.get? idx).getD [])))
        (((p2.o.bind fun arr => arr.get? idx).getD ((p2.v.get? idx).getD []))) 1
        = interpolateVec (((p2.o.bind fun arr => arr.get? idx).getD
            ((p2.v.get? idx).getD [])))
          (((p2.o.bind fun arr => arr.get? idx).getD ((p2.v.get? idx).getD []))) 0 := by
    intro idx hidx
    rw [List.mem_range] at hidx
    rw [interpolateVec_one _ _ (by
        rw [optHandle_len2 p1.o idx _ h1o (hget p1 idx (hv ▸ hidx) h1v),
          optHandle_len2 p2.o idx _ h2o (hget p2 idx hidx h2v)]),
      interpolateVec_zero _ _ le_rfl]
  rw [List.map_congr_left hvs, List.map_congr_left his, List.map_congr_left hos]
  have hcc : (p1.c.orElse fun _ => p2.c) = (p2.c.orElse fun _ => p2.c) := by
    rw [hc]
  rw [hcc]

/-- Same-index elements of two lists are a member of their zip. -/
theorem mem_zip_of_get? {α β : Type} :
    ∀ (ps : List α) (qs : List β) (idx : ℕ) (p : α) (q : β),
      ps.get? idx = some p → qs.get? idx = some q → (p, q) ∈ ps.zip qs := by
  intro ps
  induction ps with
  | nil => intro qs idx p q hp; cases hp
  | cons x ps ih =>
    intro qs idx p q hp hq
    cases qs with
    | nil => cases hq
    | cons y qs =>
      cases idx with
      | zero =>
        cases hp
        cases hq
        exact List.mem_cons_self _ _
      | succ n =>
        exact List.mem_cons_of_mem _ (ih qs n p q hp hq)

/-- `interpolateBeziers` of compatible path sets at progress 0. -/
theorem interpolateBeziers_endpoint_zero (ps qs : List PxBezierPath)
    (hcompat : PathsCompat ps qs)
    (hwp : ∀ path ∈ ps, PathWF path) (hwq : ∀ path ∈ qs, PathWF path) :
    interpolateBeziers ps qs 0 = interpolateBeziers ps ps 0 := by
  obtain ⟨hlen, hpair⟩ := hcompat
  simp only [interpolateBeziers]
  rw [← hlen, max_self]
  apply List.map_congr_left
  intro idx hidx
  rw [List.mem_range] at hidx
  obtain ⟨p, hp⟩ : ∃ p, ps.get? idx = some p := ⟨_, List.get?_eq_get hidx⟩
  obtain ⟨q, hq⟩ : ∃ q, qs.get? idx = some q := ⟨_, List.get?_eq_get (hlen ▸ hidx)⟩
  rw [hp, hq]
  have hm := hpair (p, q) (mem_zip_of_get? ps qs idx p q hp hq)
  exact interpolateBezier_endpoint_zero p q hm.1 hm.2
    (hwp p (List.get?_mem hp)) (hwq q (List.get?_mem hq))

/-- `interpolateBeziers` of compatible path sets at progress 1. -/
theorem interpolateBeziers_endpoint_one (ps qs : List PxBezierPath)
    (hcompat : PathsCompat ps qs)
    (hwp : ∀ path ∈ ps, PathWF path) (hwq : ∀ path ∈ qs, PathWF path) :
    interpolateBeziers ps qs 1 = interpolateBeziers qs qs 0 := by
  obtain ⟨hlen, hpair⟩ := hcompat
  simp only [interpolateBeziers]
  rw [hlen, max_self]
  apply List.map_congr_left
  intro idx hidx
  rw [List.mem_range] at hidx
  obtain ⟨p, hp⟩ : ∃ p, ps.get? idx = some p := ⟨_, List.get?_eq_get (hlen ▸ hidx)⟩
  obtain ⟨q, hq⟩ : ∃ q, qs.get? idx = some q := ⟨_, List.get?_eq_get hidx⟩
  rw [hp, hq]
  have hm := hpair (p, q) (mem_zip_of_get? ps qs idx p q hp hq)
  exact interpolateBezier_endpoint_one p q hm.1 hm.2
    (hwp p (List.get?_mem hp)) (hwq q (List.get?_mem hq))

/-- Dispatching compatible operands at local progress 0 yields the previous
keyframe's value (the degenerate self-interpolation of the first operand). -/
theorem dispatchValue_zero (propName : String) (a b : Option PxVal)
    (hd : cssAttrNameOf propName = "d" →
      PathsCompat (pathsOperand a) (pathsOperand b)
      ∧ (∀ path ∈ pathsOperand a, PathWF path)
      ∧ (∀ path ∈ pathsOperand b, PathWF path))
    (hvec : (cssAttrNameOf propName = "stroke-dasharray"
        ∨ cssAttrNameOf propName = "translate"
        ∨ cssAttrNameOf propName = "scale") →
      ∃ xs ys, a = some (.vec xs) ∧ b = some (.vec ys) ∧ xs.length = ys.length)
    (hnum : (cssAttrNameOf propName ≠ "d"
        ∧ ¬ COLOUR_ATTR_NAMES.contains (cssAttrNameOf propName)
        ∧ cssAttrNameOf propName ≠ "stroke-dasharray"
        ∧ cssAttrNameOf propName ≠ "translate"
        ∧ cssAttrNameOf propName ≠ "scale") →
      (∃ qa, numOperand a = some qa) ∧ (∃ qb, numOperand b = some qb)) :
    dispatchValue propName a b 0 = dispatchValue propName a a 0 := by
  by_cases h1 : cssAttrNameOf propName = "d"
  · obtain ⟨hcompat, hwa, hwb⟩ := hd h1
    simp only [dispatchValue, if_pos h1,
      interpolateBeziers_endpoint_zero _ _ hcompat hwa hwb]
  · by_cases h2 : COLOUR_ATTR_NAMES.contains (cssAttrNameOf propName)
    · simp only [dispatchValue, if_neg h1, if_pos h2,
        interpolateColor_zero (colorOperand a) (colorOperand b) (colorOperand a)]
    · by_cases h3 : cssAttrNameOf propName = "stroke-dasharray"
      · obtain ⟨xs, ys, ha, hb, hxy⟩ := hvec (Or.inl h3)
        subst ha
        subst hb
        simp only [dispatchValue, if_neg h1, if_neg h2, if_pos h3, vecOperand,
          interpolateVecJS, interpolateVec_zero xs ys hxy.ge,
          interpolateVec_zero xs xs le_rfl]
      · by_cases h4 : cssAttrNameOf propName = "translate"
        · obtain ⟨xs, ys, ha, hb, hxy⟩ := hvec (Or.inr (Or.inl h4))
          subst ha
          subst hb
          simp only [dispatchValue, if_neg h1, if_neg h2, if_neg h3, if_pos h4,
            vecOperand, interpolateVecJS, interpolateVec_zero xs ys hxy.ge,
            interpolateVec_zero xs xs le_rfl]
        · by_cases h5 : cssAttrNameOf propName = "rotate"
          · obtain ⟨⟨qa, hqa⟩, ⟨qb, hqb⟩⟩ :=
              hnum ⟨h1, h2, h3, h4, by rw [h5]; decide⟩
            simp only [dispatchValue, if_neg h1, if_neg h2, if_neg h3, if_neg h4,
              if_pos h5, hqa, hqb, interpolateNumJS, interpolateNum_zero]
          · by_cases h6 : cssAttrNameOf propName = "scale"
            · obtain ⟨xs, ys, ha, hb, hxy⟩ := hvec (Or.inr (Or.inr h6))
              subst ha
              subst hb
              simp only [dispatchValue, if_neg h1, if_neg h2, if_neg h3, if_neg h4,
                if_neg h5, if_pos h6, vecOperand, interpolateVecJS,
                interpolateVec_zero xs ys hxy.ge, interpolateVec_zero xs xs le_rfl]
            · obtain ⟨⟨qa, hqa⟩, ⟨qb, hqb⟩⟩ := hnum ⟨h1, h2, h3, h4, h6⟩
              simp only [dispatchValue, if_neg h1, if_neg h2, if_neg h3, if_neg h4,
                if_neg h5, if_neg h6, hqa, hqb, interpolateNumJS,
                interpolateNum_zero]

/-- Dispatching compatible operands at local progress 1 yields the next
keyframe's value (the degenerate self-interpolation of the second operand at
local progress 0). -/
theorem dispatchValue_one (propName : String) (a b : Option PxVal)
    (hd : cssAttrNameOf propName = "d" →
      PathsCompat (pathsOperand a) (pathsOperand b)
      ∧ (∀ path ∈ pathsOperand a, PathWF path)
      ∧ (∀ path ∈ pathsOperand b, PathWF path))
    (hvec : (cssAttrNameOf propName = "stroke-dasharray"
        ∨ cssAttrNameOf propName = "translate"
        ∨ cssAttrNameOf propName = "scale") →
      ∃ xs ys, a = some (.vec xs) ∧ b = some (.vec ys) ∧ xs.length = ys.length)
    (hnum : (cssAttrNameOf propName ≠ "d"
        ∧ ¬ COLOUR_ATTR_NAMES.contains (cssAttrNameOf propName)
        ∧ cssAttrNameOf propName ≠ "stroke-dasharray"
        ∧ cssAttrNameOf propName ≠ "translate"
        ∧ cssAttrNameOf propName ≠ "scale") →
      (∃ qa, numOperand a = some qa) ∧ (∃ qb, numOperand b = some qb)) :
    dispatchValue propName a b 1 = dispatchValue propName b b 0 := by
  have hcol1 : ∀ x y : List ℚ, interpolateColor x y 1 = interpolateColor y y 0 := by
    intro x y
    simp [interpolateColor, interpolateNum_zero, interpolateNum_one]
  have hnum1 : ∀ x y : ℚ, interpolateNum x y 1 = interpolateNum y y 0 := by
    intro x y
    rw [interpolateNum_zero, interpolateNum_one]
  by_cases h1 : cssAttrNameOf propName = "d"
  · obtain ⟨hcompat, hwa, hwb⟩ := hd h1
    simp only [dispatchValue, if_pos h1,
      interpolateBeziers_endpoint_one _ _ hcompat hwa hwb]
  · by_cases h2 : COLOUR_ATTR_NAMES.contains (cssAttrNameOf propName)
    · simp only [dispatchValue, if_neg h1, if_pos h2,
        hcol1 (colorOperand a) (colorOperand b)]
    · by_cases h3 : cssAttrNameOf propName = "stroke-dasharray"
      · obtain ⟨xs, ys, ha, hb, hxy⟩ := hvec (Or.inl h3)
        subst ha
        subst hb
        simp only [dispatchValue, if_neg h1, if_neg h2, if_pos h3, vecOperand,
          interpolateVecJS, interpolateVec_one xs ys hxy.le,
          interpolateVec_zero ys ys le_rfl]
      · by_cases h4 : cssAttrNameOf propName = "translate"
        · obtain ⟨xs, ys, ha, hb, hxy⟩ := hvec (Or.inr (Or.inl h4))
          subst ha
          subst hb
          simp only [dispatchValue, if_neg h1, if_neg h2, if_neg h3, if_pos h4,
            vecOperand, interpolateVecJS, interpolateVec_one xs ys hxy.le,
            interpolateVec_zero ys ys le_rfl]
        · by_cases h5 : cssAttrNameOf propName = "rotate"
          · obtain ⟨⟨qa, hqa⟩, ⟨qb, hqb⟩⟩ :=
              hnum ⟨h1, h2, h3, h4, by rw [h5]; decide⟩
            simp only [dispatchValue, if_neg h1, if_neg h2, if_neg h3, if_neg h4,
              if_pos h5, hqa, hqb, interpolateNumJS, hnum1]
          · by_cases h6 : cssAttrNameOf propName = "scale"
            · obtain ⟨xs, ys, ha, hb, hxy⟩ := hvec (Or.inr (Or.inr h6))
              subst ha
              subst hb
              simp only [dispatchValue, if_neg h1, if_neg h2, if_neg h3, if_neg h4,
                if_neg h5, if_pos h6, vecOperand, interpolateVecJS,
                interpolateVec_one xs ys hxy.le, interpolateVec_zero ys ys le_rfl]
            · obtain ⟨⟨qa, hqa⟩, ⟨qb, hqb⟩⟩ := hnum ⟨h1, h2, h3, h4, h6⟩
              simp only [dispatchValue, if_neg h1, if_neg h2, if_neg h3, if_neg h4,
                if_neg h5, if_neg h6, hqa, hqb, interpolateNumJS, hnum1]

/-- `localProgressOf` of a degenerate (single-keyframe) pair is 0. -/
theorem localProgressOf_self (k : PxKeyframe) (p : ℚ) :
    localProgressOf (k, k) p = 0 := by
  simp only [localProgressOf]
  norm_num [clamp]
  cases he : k.e.orElse fun x => k.easing with
  | none => rfl
  | some eref =>
    cases eref with
    | ref n => rfl
    | bez b => exact cubicBezier_zero b

/-- `localProgressOf` of a proper pair whose remapped progress is ≤ 0. -/
theorem localProgressOf_pair_zero (a b : PxKeyframe) (p : ℚ)
    (hne : a ≠ b) (hr : remap p (a.t.getD 0) (b.t.getD 0) 0 1 ≤ 0) :
    localProgressOf (a, b) p = 0 := by
  simp only [localProgressOf]
  rw [if_neg (hne : ¬ (a, b).1 = (a, b).2)]
  have hc : clamp (remap p (a.t.getD 0) (b.t.getD 0) 0 1) 0 1 = 0 := by
    unfold clamp
    rw [min_eq_left (le_trans hr (by norm_num)), max_eq_left hr]
  rw [hc]
  cases he : (a, b).1.e.orElse fun x => (a, b).1.easing with
  | none => rfl
  | some eref =>
    cases eref with
    | ref n => rfl
    | bez bz => exact cubicBezier_zero bz

/-- `localProgressOf` of a proper pair whose remapped progress is ≥ 1. -/
theorem localProgressOf_pair_one (a b : PxKeyframe) (p : ℚ)
    (hne : a ≠ b) (hr : 1 ≤ remap p (a.t.getD 0) (b.t.getD 0) 0 1) :
    localProgressOf (a, b) p = 1 := by
  simp only [localProgressOf]
  rw [if_neg (hne : ¬ (a, b).1 = (a, b).2)]
  have hc : clamp (remap p (a.t.getD 0) (b.t.getD 0) 0 1) 0 1 = 1 := by
    unfold clamp
    rw [min_eq_right hr, max_eq_right (by norm_num : (0:ℚ) ≤ 1)]
  rw [hc]
  cases he : (a, b).1.e.orElse fun x => (a, b).1.easing with
  | none => rfl
  | some eref =>
    cases eref with
    | ref n => rfl
    | bez bz => exact cubicBezier_one bz

/-- Unfolding `calcPropertyValue` on a non-empty keyframe list. -/
theorem calcPropertyValue_of_ne_nil (propName : String) (kfs : List PxKeyframe)
    (hne : kfs ≠ []) (p : ℚ) :
    calcPropertyValue propName { kfs := some kfs } p
      = some (dispatchValue propName (kfVal (getKeyframesPair kfs p).1)
          (kfVal (getKeyframesPair kfs p).2)
          (localProgressOf (getKeyframesPair kfs p) p)) := by
  have h0 : ¬ kfs.length = 0 := fun h => hne (List.length_eq_zero.mp h)
  show (if kfs.length = 0 then none
    else some (dispatchValue propName (kfVal (getKeyframesPair kfs p).1)
      (kfVal (getKeyframesPair kfs p).2)
      (localProgressOf (getKeyframesPair kfs p) p))) = _
  rw [if_neg h0]

/-- `calcPropertyValue` on a single keyframe: the degenerate pair dispatches
its value at local progress 0. -/
theorem calcPropertyValue_singleton (propName : String) (k : PxKeyframe) (p : ℚ) :
    calcPropertyValue propName { kfs := some [k] } p
      = some (dispatchValue propName (kfVal k) (kfVal k) 0) := by
  rw [calcPropertyValue_of_ne_nil propName [k] (by simp) p]
  have hpair : getKeyframesPair [k] p = (k, k) := rfl
  rw [hpair, localProgressOf_self]

/-- The last element (with default) of a non-empty list is a member. -/
theorem getLastD_mem (kfs : List PxKeyframe) (hne : kfs ≠ []) :
    kfs.getLastD {} ∈ kfs := by
  induction kfs with
  | nil => exact absurd rfl hne
  | cons x rest ih =>
    cases rest with
    | nil => simp
    | cons y rest' =>
      rw [List.getLastD_cons]
      exact List.mem_cons_of_mem x (ih (by simp))

/-- In a strictly time-sorted list, every keyframe before the last has a
strictly smaller time. -/
theorem sorted_dropLast_lt_last (kfs : List PxKeyframe) (hne : kfs ≠ [])
    (hs : List.Pairwise (fun a b => keyT a < keyT b) kfs) :
    ∀ x ∈ kfs.dropLast, keyT x < keyT (kfs.getLastD {}) := by
  induction kfs with
  | nil => exact absurd rfl hne
  | cons a rest ih =>
    cases rest with
    | nil => simp
    | cons b rest' =>
      intro x hx
      rw [List.dropLast_cons₂] at hx
      rw [List.getLastD_cons]
      rcases List.mem_cons.mp hx with rfl | hx'
      · exact (List.pairwise_cons.mp hs).1 _
          (getLastD_mem (b :: rest') (by simp))
      · exact ih (by simp) (List.pairwise_cons.mp hs).2 x hx'

/-- `lastTwo` of a two-or-more-element list: it exists, its first component
lies in `dropLast`, and its second is the last element. -/
theorem lastTwo_spec (x y : PxKeyframe) :
    ∀ rest : List PxKeyframe, ∃ a b, lastTwo (x :: y :: rest) = some (a, b)
      ∧ a ∈ (x :: y :: rest).dropLast
      ∧ b = (x :: y :: rest).getLastD {} := by
  intro rest
  induction rest generalizing x y with
  | nil => exact ⟨x, y, rfl, by simp, by simp⟩
  | cons z rest' ih =>
    obtain ⟨a, b, h1, h2, h3⟩ := ih y z
    refine ⟨a, b, h1, ?_, ?_⟩
    · rw [List.dropLast_cons₂]
      exact List.mem_cons_of_mem x h2
    · rw [List.getLastD_cons]
      rw [List.getLastD_cons] at h3
      exact h3

/-- Dimensional uniformity of a property animation's keyframe values, per
the value branch `calcPropertyValue` selects for `propName`: path values with
2D points, path counts/vertex counts/closed flags matching across keyframes;
vector values of a common length; numeric operands that coerce to a number.
Colour values need no condition (the normalized interpolation of each side is
independent of the other's length). -/
def ValuesUniform (propName : String) (kfs : List PxKeyframe) : Prop :=
  (cssAttrNameOf propName = "d" →
    (∀ kf ∈ kfs, ∀ path ∈ pathsOperand (kfVal kf), PathWF path)
    ∧ ∀ kf ∈ kfs, ∀ kf' ∈ kfs,
        PathsCompat (pathsOperand (kfVal kf)) (pathsOperand (kfVal kf')))
  ∧ ((cssAttrNameOf propName = "stroke-dasharray"
      ∨ cssAttrNameOf propName = "translate"
      ∨ cssAttrNameOf propName = "scale") →
    ∃ n, ∀ kf ∈ kfs, ∃ xs, kfVal kf = some (.vec xs) ∧ xs.length = n)
  ∧ ((cssAttrNameOf propName ≠ "d"
      ∧ ¬ COLOUR_ATTR_NAMES.contains (cssAttrNameOf propName)
      ∧ cssAttrNameOf propName ≠ "stroke-dasharray"
      ∧ cssAttrNameOf propName ≠ "translate"
      ∧ cssAttrNameOf propName ≠ "scale") →
    ∀ kf ∈ kfs, ∃ q, numOperand (kfVal kf) = some q)

/-- C10 (amended): for a non-empty, strictly time-sorted keyframe list with
dimensionally uniform values, the computed property value at any progress
`p ≤ t₀` equals the value computed from the first keyframe alone, and at any
`p ≥ t_last` equals the value computed from the last keyframe alone — the
local progress is clamped to `[0, 1]` and the cubic-bezier easing maps 0 to 0
and 1 to 1 exactly (`solveCurveX` returns 0 for `x ≤ 0` and 1 for `x ≥ 1`).
-/
theorem calcPropertyValue_endpoint_clamp
    (propName : String) (kfs : List PxKeyframe) (p : ℚ)
    (hne : kfs ≠ [])
    (hsorted : List.Pairwise (fun a b => keyT a < keyT b) kfs)
    (hU : ValuesUniform propName kfs) :
    (p ≤ keyT (kfs.headD {}) →
      calcPropertyValue propName { kfs := some kfs } p
        = calcPropertyValue propName { kfs := some [kfs.headD {}] } p)
    ∧ (keyT (kfs.getLastD {}) ≤ p →
      calcPropertyValue propName { kfs := some kfs } p
        = calcPropertyValue propName { kfs := some [kfs.getLastD {}] } p)
    ∧ (∀ (e : CubicBez) (x : ℚ),
        (x ≤ 0 → solveCurveX e x = 0) ∧ (1 ≤ x → solveCurveX e x = 1)) := by
  obtain ⟨hUd, hUvec, hUnum⟩ := hU
  -- dispatch hypotheses for any member pair
  have hDisp : ∀ u ∈ kfs, ∀ w ∈ kfs,
      (cssAttrNameOf propName = "d" →
        PathsCompat (pathsOperand (kfVal u)) (pathsOperand (kfVal w))
        ∧ (∀ path ∈ pathsOperand (kfVal u), PathWF path)
        ∧ (∀ path ∈ pathsOperand (kfVal w), PathWF path))
      ∧ ((cssAttrNameOf propName = "stroke-dasharray"
          ∨ cssAttrNameOf propName = "translate"
          ∨ cssAttrNameOf propName = "scale") →
        ∃ xs ys, kfVal u = some (.vec xs) ∧ kfVal w = some (.vec ys)
          ∧ xs.length = ys.length)
      ∧ ((cssAttrNameOf propName ≠ "d"
          ∧ ¬ COLOUR_ATTR_NAMES.contains (cssAttrNameOf propName)
          ∧ cssAttrNameOf propName ≠ "stroke-dasharray"
          ∧ cssAttrNameOf propName ≠ "translate"
          ∧ cssAttrNameOf propName ≠ "scale") →
        (∃ qa, numOperand (kfVal u) = some qa)
        ∧ (∃ qb, numOperand (kfVal w) = some qb)) := by
    intro u hu w hw
    refine ⟨fun h => ⟨(hUd h).2 u hu w hw, (hUd h).1 u hu, (hUd h).1 w hw⟩,
      fun h => ?_, fun h => ⟨hUnum h u hu, hUnum h w hw⟩⟩
    obtain ⟨n, hn⟩ := hUvec h
    obtain ⟨xs, hxs, hxl⟩ := hn u hu
    obtain ⟨ys, hys, hyl⟩ := hn w hw
    exact ⟨xs, ys, hxs, hys, by rw [hxl, hyl]⟩
  have hsolve : ∀ (e : CubicBez) (x : ℚ),
      (x ≤ 0 → solveCurveX e x = 0) ∧ (1 ≤ x → solveCurveX e x = 1) :=
    fun e x => ⟨solveCurveX_nonpos e x, solveCurveX_ge_one e x⟩
  obtain ⟨k0, rest, rfl⟩ : ∃ k0 rest, kfs = k0 :: rest := by
    cases kfs with
    | nil => exact absurd rfl hne
    | cons a l => exact ⟨a, l, rfl⟩
  cases rest with
  | nil => exact ⟨fun _ => rfl, fun _ => rfl, hsolve⟩
  | cons k1 rest' =>
    set kfs := k0 :: k1 :: rest' with hkfs
    have hmem0 : k0 ∈ kfs := List.mem_cons_self _ _
    have hlast_mem : kfs.getLastD {} ∈ kfs := getLastD_mem kfs (by simp [hkfs])
    have hhead : kfs.headD {} = k0 := rfl
    have hdll : ∀ x ∈ kfs.dropLast, keyT x < keyT (kfs.getLastD {}) :=
      sorted_dropLast_lt_last kfs (by simp [hkfs]) hsorted
    have h0dl : k0 ∈ kfs.dropLast := by
      rw [hkfs, List.dropLast_cons₂]
      exact List.mem_cons_self _ _
    have h0last : keyT k0 < keyT (kfs.getLastD {}) := hdll k0 h0dl
    have h0ne_last : k0 ≠ kfs.getLastD {} := fun h => absurd (h ▸ h0last) (lt_irrefl _)
    refine ⟨?_, ?_, hsolve⟩
    · -- p ≤ keyT k0
      intro hp
      rw [hhead] at hp
      rw [calcPropertyValue_singleton]
      rcases eq_or_lt_of_le hp with heq | hlt
      · -- p = keyT k0: the head pair (k0, k1) matches
        have h01 : keyT k0 < keyT k1 :=
          (List.pairwise_cons.mp hsorted).1 k1 (List.mem_cons_self _ _)
        have hpair : getKeyframesPair kfs p = (k0, k1) := by
          rw [getKeyframesPair, hkfs, scanPairs,
            if_pos ⟨le_of_eq heq.symm, le_of_lt (heq ▸ h01)⟩]
        have hne01 : k0 ≠ k1 := by
          intro h
          rw [h] at h01
          exact absurd h01 (lt_irrefl _)
        have hr : remap p (k0.t.getD 0) (k1.t.getD 0) 0 1 ≤ 0 := by
          have ht : ¬ (k1.t.getD 0 : ℚ) = k0.t.getD 0 := by
            intro h
            simp only [keyT] at h01
            rw [h] at h01
            exact absurd h01 (lt_irrefl _)
          have hpk : p = k0.t.getD 0 := by simpa only [keyT] using heq
          rw [remap, if_neg ht, hpk]
          simp
        rw [calcPropertyValue_of_ne_nil propName kfs (by simp [hkfs]) p, hpair,
          localProgressOf_pair_zero k0 k1 p hne01 hr]
        obtain ⟨hd, hvec, hnum⟩ := hDisp k0 hmem0 k1 (by
          rw [hkfs]
          exact List.mem_cons_of_mem _ (List.mem_cons_self _ _))
        rw [dispatchValue_zero propName (kfVal k0) (kfVal k1) hd hvec hnum]
        rfl
      · -- p < keyT k0: no pair matches, default pair (k0, last)
        have hall : ∀ kf ∈ kfs, p < keyT kf := by
          intro kf hkf
          rcases List.mem_cons.mp (hkfs ▸ hkf) with rfl | hkf'
          · exact hlt
          · exact lt_trans hlt ((List.pairwise_cons.mp hsorted).1 kf hkf')
        have hpair : getKeyframesPair kfs p = (k0, kfs.getLastD {}) := by
          rw [getKeyframesPair, scanPairs_none_of_lt p kfs hall]
          rfl
        have hr : remap p (k0.t.getD 0) ((kfs.getLastD {}).t.getD 0) 0 1 ≤ 0 := by
          have ht : ¬ ((kfs.getLastD {}).t.getD 0 : ℚ) = k0.t.getD 0 := by
            intro h
            rw [keyT, keyT, h] at h0last
            exact absurd h0last (lt_irrefl _)
          rw [remap, if_neg ht]
          rw [keyT, keyT] at h0last
          have hnum : p - k0.t.getD 0 ≤ 0 := by
            rw [keyT] at hlt
            linarith
          have hden : (0:ℚ) ≤ (kfs.getLastD {}).t.getD 0 - k0.t.getD 0 := by
            linarith
          have := div_nonpos_of_nonpos_of_nonneg hnum hden
          nlinarith [this]
        rw [calcPropertyValue_of_ne_nil propName kfs (by simp [hkfs]) p, hpair,
          localProgressOf_pair_zero k0 (kfs.getLastD {}) p h0ne_last hr]
        obtain ⟨hd, hvec, hnum⟩ := hDisp k0 hmem0 (kfs.getLastD {}) hlast_mem
        rw [dispatchValue_zero propName (kfVal k0) (kfVal (kfs.getLastD {})) hd hvec hnum]
        rfl
    · -- keyT last ≤ p
      intro hp
      rw [calcPropertyValue_singleton]
      rcases eq_or_lt_of_le hp with heq | hlt
      · -- p = keyT last: pair (penultimate, last)
        obtain ⟨a, b, hlt2, hadl, hbl⟩ := lastTwo_spec k0 k1 rest'
        have hbl' : b = kfs.getLastD {} := hbl
        have hamem : a ∈ kfs := List.dropLast_subset kfs (hkfs ▸ hadl)
        have hka : keyT a < keyT b := hbl' ▸ hdll a (hkfs ▸ hadl)
        have hane : a ≠ b := fun h => absurd (h ▸ hka) (lt_irrefl _)
        have hpair : getKeyframesPair kfs p = (a, b) := by
          rw [getKeyframesPair, scanPairs_to_last p kfs a b (hkfs ▸ hlt2)
            (by rw [hbl', ← heq]) (fun x hx => heq ▸ hdll x hx)]
        have hr : 1 ≤ remap p (a.t.getD 0) (b.t.getD 0) 0 1 := by
          have ht : ¬ (b.t.getD 0 : ℚ) = a.t.getD 0 := by
            intro h
            rw [keyT, keyT, h] at hka
            exact absurd hka (lt_irrefl _)
          rw [remap, if_neg ht]
          have hpb : p = b.t.getD 0 := by
            rw [← hbl'] at heq
            simpa only [keyT] using heq.symm
          rw [hpb]
          rw [div_self (by
            intro h
            exact ht (by linarith [sub_eq_zero.mp h]))]
          norm_num
        rw [calcPropertyValue_of_ne_nil propName kfs (by simp [hkfs]) p, hpair,
          localProgressOf_pair_one a b p hane hr]
        obtain ⟨hd, hvec, hnum⟩ := hDisp a hamem b (hbl' ▸ hlast_mem)
        rw [dispatchValue_one propName (kfVal a) (kfVal b) hd hvec hnum, hbl']
      · -- p > keyT last: default pair (k0, last)
        have hall : ∀ kf ∈ kfs, keyT kf < p := by
          intro kf hkf
          have hdecomp := List.dropLast_append_getLast
            (show kfs ≠ [] by simp [hkfs])
          rcases List.mem_append.mp (by
              rw [hdecomp]
              exact hkf) with hdl | hl
          · refine lt_trans (lt_of_lt_of_le (hdll kf hdl) ?_) hlt
            rfl
          · have : kf = kfs.getLast (by simp [hkfs]) := List.mem_singleton.mp hl
            rw [this]
            have hgl : kfs.getLast (show kfs ≠ [] by simp [hkfs]) = kfs.getLastD {} := by
              rw [List.getLastD_eq_getLast?, List.getLast?_eq_getLast kfs (by simp [hkfs])]
              rfl
            rw [hgl]
            exact hlt
        have hpair : getKeyframesPair kfs p = (k0, kfs.getLastD {}) := by
          rw [getKeyframesPair, scanPairs_none_of_gt p kfs hall]
          rfl
        have hr : 1 ≤ remap p (k0.t.getD 0) ((kfs.getLastD {}).t.getD 0) 0 1 := by
          have hlt0 : (k0.t.getD 0 : ℚ) < (kfs.getLastD {}).t.getD 0 := by
            rw [keyT, keyT] at h0last
            exact h0last
          have ht : ¬ ((kfs.getLastD {}).t.getD 0 : ℚ) = k0.t.getD 0 :=
            fun h => absurd (h ▸ hlt0) (lt_irrefl _)
          rw [remap, if_neg ht]
          have hplast : (kfs.getLastD {}).t.getD 0 < p := by
            rw [keyT] at hlt
            exact hlt
          have hfrac : 1 ≤ (p - k0.t.getD 0) / ((kfs.getLastD {}).t.getD 0 - k0.t.getD 0) :=
            (one_le_div (by linarith)).mpr (by linarith)
          nlinarith [hfrac]
        rw [calcPropertyValue_of_ne_nil propName kfs (by simp [hkfs]) p, hpair,
          localProgressOf_pair_one k0 (kfs.getLastD {}) p h0ne_last hr]
        obtain ⟨hd, hvec, hnum⟩ := hDisp k0 hmem0 (kfs.getLastD {}) hlast_mem
        rw [dispatchValue_one propName (kfVal k0) (kfVal (kfs.getLastD {})) hd hvec hnum]

/-- Extracting the `dispatchValue` endpoint hypotheses for a pair of members
of a dimensionally uniform keyframe list. -/
theorem valuesUniform_pair (propName : String) (kfs : List PxKeyframe)
    (hU : ValuesUniform propName kfs) (u : PxKeyframe) (hu : u ∈ kfs)
    (w : PxKeyframe) (hw : w ∈ kfs) :
    (cssAttrNameOf propName = "d" →
      PathsCompat (pathsOperand (kfVal u)) (pathsOperand (kfVal w))
      ∧ (∀ path ∈ pathsOperand (kfVal u), PathWF path)
      ∧ (∀ path ∈ pathsOperand (kfVal w), PathWF path))
    ∧ ((cssAttrNameOf propName = "stroke-dasharray"
        ∨ cssAttrNameOf propName = "translate"
        ∨ cssAttrNameOf propName = "scale") →
      ∃ xs ys, kfVal u = some (.vec xs) ∧ kfVal w = some (.vec ys)
        ∧ xs.length = ys.length)
    ∧ ((cssAttrNameOf propName ≠ "d"
        ∧ ¬ COLOUR_ATTR_NAMES.contains (cssAttrNameOf propName)
        ∧ cssAttrNameOf propName ≠ "stroke-dasharray"
        ∧ cssAttrNameOf propName ≠ "translate"
        ∧ cssAttrNameOf propName ≠ "scale") →
      (∃ qa, numOperand (kfVal u) = some qa)
      ∧ (∃ qb, numOperand (kfVal w) = some qb)) := by
  obtain ⟨hUd, hUvec, hUnum⟩ := hU
  refine ⟨fun h => ⟨(hUd h).2 u hu w hw, (hUd h).1 u hu, (hUd h).1 w hw⟩,
    fun h => ?_, fun h => ⟨hUnum h u hu, hUnum h w hw⟩⟩
  obtain ⟨n, hn⟩ := hUvec h
  obtain ⟨xs, hxs, hxl⟩ := hn u hu
  obtain ⟨ys, hys, hyl⟩ := hn w hw
  exact ⟨xs, ys, hxs, hys, by rw [hxl, hyl]⟩

/-- `scanPairs` skips a prefix of strictly-earlier keyframes and selects the
first pair that brackets the progress. -/
theorem scanPairs_append_match (p : ℚ) (a b : PxKeyframe)
    (post : List PxKeyframe) (ha : keyT a < p) (hb : p ≤ keyT b) :
    ∀ pre : List PxKeyframe, (∀ x ∈ pre, keyT x < p) →
      scanPairs p (pre ++ a :: b :: post) = some (a, b) := by
  intro pre
  induction pre with
  | nil =>
    intro _
    rw [List.nil_append, scanPairs, if_pos ⟨ha.le, hb⟩]
  | cons c pre' ih =>
    intro hpre
    have htail : ∀ x ∈ pre', keyT x < p :=
      fun x hx => hpre x (List.mem_cons_of_mem c hx)
    rw [List.cons_append]
    cases hsplit : pre' ++ a :: b :: post with
    | nil => exact absurd hsplit (by simp)
    | cons d rest2 =>
      have hd : keyT d < p := by
        cases pre' with
        | nil =>
          rw [List.nil_append] at hsplit
          injection hsplit with h1 h2
          exact h1 ▸ ha
        | cons e pre'' =>
          rw [List.cons_append] at hsplit
          injection hsplit with h1 h2
          exact h1 ▸ htail e (List.mem_cons_self e pre'')
      show (if keyT c ≤ p ∧ p ≤ keyT d then some (c, d)
        else scanPairs p (d :: rest2)) = some (a, b)
      rw [if_neg (fun hcon => absurd hcon.2 (not_le.mpr hd)), ← hsplit]
      exact ih htail

/-- `dispatchValue` for the plain numeric attribute `opacity`. -/
theorem dispatchValue_opacity (a b : Option PxVal) (lp : ℚ) :
    dispatchValue "opacity" a b lp
      = ("opacity", interpolateNumJS (numOperand a) (numOperand b) lp) := rfl

/-- At the shared time of two adjacent equal-time keyframes (every earlier
keyframe strictly before that time), `calcPropertyValue` produces the value
of the *first* of the two: with an empty prefix the scan selects the pair
`(a, b)` whose equal times send `remap` to its divide-by-zero guard value 0,
and with a non-empty prefix it selects `(c, a)` at local progress 1 — either
way the interpolation lands on `a`'s value. -/
theorem calcPropertyValue_first_dup_wins (propName : String)
    (pre post : List PxKeyframe) (a b : PxKeyframe)
    (hpre : ∀ x ∈ pre, keyT x < keyT a) (hab : keyT a = keyT b)
    (hU : ValuesUniform propName (pre ++ a :: b :: post)) :
    calcPropertyValue propName { kfs := some (pre ++ a :: b :: post) } (keyT a)
      = calcPropertyValue propName { kfs := some [a] } (keyT a) := by
  have hmem_a : a ∈ pre ++ a :: b :: post := by simp
  have hmem_b : b ∈ pre ++ a :: b :: post := by simp
  have hne_nil : pre ++ a :: b :: post ≠ [] := by simp
  rw [calcPropertyValue_of_ne_nil propName _ hne_nil (keyT a),
    calcPropertyValue_singleton]
  rcases pre.eq_nil_or_concat with hnil | ⟨pre', c, hcat⟩
  · subst hnil
    have hpair : getKeyframesPair ([] ++ a :: b :: post) (keyT a) = (a, b) := by
      rw [List.nil_append, getKeyframesPair, scanPairs,
        if_pos ⟨le_refl _, le_of_eq hab⟩]
    rw [hpair]
    have hlp : localProgressOf (a, b) (keyT a) = 0 := by
      by_cases hab' : a = b
      · subst hab'
        exact localProgressOf_self a (keyT a)
      · refine localProgressOf_pair_zero a b (keyT a) hab' ?_
        rw [remap, if_pos (show (b.t.getD 0 : ℚ) = a.t.getD 0 from hab.symm)]
    rw [hlp]
    obtain ⟨hd, hvec, hnum⟩ :=
      valuesUniform_pair propName _ hU a hmem_a b hmem_b
    rw [dispatchValue_zero propName (kfVal a) (kfVal b) hd hvec hnum]
  · rw [List.concat_eq_append] at hcat
    subst hcat
    have hc : keyT c < keyT a := hpre c (by simp)
    have hassoc : (pre' ++ [c]) ++ a :: b :: post = pre' ++ c :: a :: b :: post := by
      simp
    have hscan : scanPairs (keyT a) (pre' ++ c :: a :: b :: post) = some (c, a) :=
      scanPairs_append_match (keyT a) c a (b :: post) hc (le_refl _) pre'
        (fun x hx => hpre x (List.mem_append_left [c] hx))
    have hpair : getKeyframesPair ((pre' ++ [c]) ++ a :: b :: post) (keyT a)
        = (c, a) := by
      rw [getKeyframesPair, hassoc, hscan]
    rw [hpair]
    have hc' : (c.t.getD 0 : ℚ) < a.t.getD 0 := hc
    have hlp : localProgressOf (c, a) (keyT a) = 1 := by
      refine localProgressOf_pair_one c a (keyT a)
        (fun h => absurd (h ▸ hc) (lt_irrefl _)) ?_
      have ht : ¬ (a.t.getD 0 : ℚ) = c.t.getD 0 := fun h => by
        rw [h] at hc'
        exact lt_irrefl _ hc'
      rw [remap, if_neg ht]
      rw [show (keyT a : ℚ) = a.t.getD 0 from rfl,
        div_self (sub_ne_zero.mpr hc'.ne')]
      norm_num
    rw [hlp]
    have hmem_c : c ∈ (pre' ++ [c]) ++ a :: b :: post := by simp
    obtain ⟨hd, hvec, hnum⟩ :=
      valuesUniform_pair propName _ hU c hmem_c a hmem_a
    rw [dispatchValue_one propName (kfVal c) (kfVal a) hd hvec hnum]

/-- C4 (amended): `normalizeKeyframes` sorts the normalized keyframes
ascending by `t` with a stable sort (each equal-time group keeps its original
order: filtering the output by any time value gives exactly the filtered
pre-sort normalized list); consequently, when two keyframes share the same
`t`, the *first* occurrence in the original order — not the last — is the one
that determines the property's value at that time. -/
theorem normalizeKeyframes_stable_sort_first_occurrence_wins
    (propName : String) (propAnim : PxPropertyAnimation) (duration : ℚ)
    (easings : List (String × CubicBez)) :
    List.Pairwise (fun u w => keyT u ≤ keyT w)
      (normalizeKeyframes propName propAnim duration easings)
    ∧ (∀ q : ℚ,
        (normalizeKeyframes propName propAnim duration easings).filter
            (fun kf => decide (keyT kf = q))
          = (((propAnim.keyframes.orElse fun _ => propAnim.kfs).getD []).map
              (normalizeKf propName easings)).filter
              (fun kf => decide (keyT kf = q)))
    ∧ (∀ (pre post : List PxKeyframe) (a b : PxKeyframe),
        (∀ x ∈ pre, keyT x < keyT a) → keyT a = keyT b →
        ValuesUniform propName (pre ++ a :: b :: post) →
        calcPropertyValue propName { kfs := some (pre ++ a :: b :: post) }
            (keyT a)
          = calcPropertyValue propName { kfs := some [a] } (keyT a)) := by
  have htrans : ∀ a b c : PxKeyframe,
      (fun u w : PxKeyframe => decide (keyT u ≤ keyT w)) a b = true →
      (fun u w : PxKeyframe => decide (keyT u ≤ keyT w)) b c = true →
      (fun u w : PxKeyframe => decide (keyT u ≤ keyT w)) a c = true := by
    intro a b c h1 h2
    exact decide_eq_true
      (le_trans (of_decide_eq_true h1) (of_decide_eq_true h2))
  have htotal : ∀ a b : PxKeyframe,
      ((fun u w : PxKeyframe => decide (keyT u ≤ keyT w)) a b
        || (fun u w : PxKeyframe => decide (keyT u ≤ keyT w)) b a) = true := by
    intro a b
    show (decide (keyT a ≤ keyT b) || decide (keyT b ≤ keyT a)) = true
    rcases le_total (keyT a) (keyT b) with h | h
    · rw [decide_eq_true h]
      rfl
    · rw [decide_eq_true h]
      simp
  refine ⟨?_, ?_, fun pre post a b hpre hab hU =>
    calcPropertyValue_first_dup_wins propName pre post a b hpre hab hU⟩
  · exact (List.sorted_mergeSort htrans htotal
      (((propAnim.keyframes.orElse fun _ => propAnim.kfs).getD []).map
        (normalizeKf propName easings))).imp of_decide_eq_true
  · intro q
    have hfil_pair : List.Pairwise
        (fun u w : PxKeyframe =>
          (fun x y : PxKeyframe => decide (keyT x ≤ keyT y)) u w = true)
        ((((propAnim.keyframes.orElse fun _ => propAnim.kfs).getD []).map
          (normalizeKf propName easings)).filter
            (fun kf => decide (keyT kf = q))) := by
      refine List.pairwise_of_forall_mem_list ?_
      intro x hx y hy
      have hxq : keyT x = q := of_decide_eq_true (List.mem_filter.mp hx).2
      have hyq : keyT y = q := of_decide_eq_true (List.mem_filter.mp hy).2
      exact decide_eq_true (le_of_eq (hxq.trans hyq.symm))
    have hsub := List.Sublist.filter (fun kf => decide (keyT kf = q))
      (List.sublist_mergeSort htrans htotal hfil_pair
        (List.filter_sublist
          (((propAnim.keyframes.orElse fun _ => propAnim.kfs).getD []).map
            (normalizeKf propName easings))))
    have hff : ∀ l : List PxKeyframe,
        (l.filter (fun kf => decide (keyT kf = q))).filter
            (fun kf => decide (keyT kf = q))
          = l.filter (fun kf => decide (keyT kf = q)) := by
      intro l
      rw [List.filter_filter]
      simp only [Bool.and_self]
    rw [hff] at hsub
    have hlen := (List.Perm.filter (fun kf => decide (keyT kf = q))
      (List.mergeSort_perm
        (((propAnim.keyframes.orElse fun _ => propAnim.kfs).getD []).map
          (normalizeKf propName easings))
        (fun u w => decide (keyT u ≤ keyT w)))).length_eq
    exact (hsub.eq_of_length hlen.symm).symm

/-- First keyframe of the C4 duplicate-time counterexample: `t = 1`,
value 1. -/
def kfC4a : PxKeyframe := { t := some 1, v := some (.num 1) }

/-- Second keyframe of the C4 duplicate-time counterexample: `t = 1`,
value 2. -/
def kfC4b : PxKeyframe := { t := some 1, v := some (.num 2) }

/-- C4 counterexample: two `opacity` keyframes share `t = 1` with values 1
(first) and 2 (last).  Normalization keeps them in original order (the sort
is stable), and the computed value at `t = 1` is the *first* occurrence's
value 1, not the last occurrence's value 2 as the spec claims. -/
theorem normalizeKeyframes_duplicate_time_last_does_not_win :
    normalizeKeyframes "opacity" { keyframes := some [kfC4a, kfC4b] } 1 []
      = [kfC4a, kfC4b]
    ∧ calcPropertyValue "opacity" { kfs := some [kfC4a, kfC4b] } 1
        = some ("opacity", CssOut.num 1)
    ∧ kfVal kfC4b = some (PxVal.num 2)
    ∧ CssOut.num 1 ≠ CssOut.num 2 := by
  refine ⟨?_, ?_, rfl, by decide⟩
  · have hmap : normalizeKeyframes "opacity" { keyframes := some [kfC4a, kfC4b] } 1 []
        = List.mergeSort [kfC4a, kfC4b]
            (fun a b => decide (keyT a ≤ keyT b)) := rfl
    rw [hmap]
    simp [List.mergeSort, List.merge, keyT, kfC4a, kfC4b]
  · rw [calcPropertyValue_of_ne_nil "opacity" [kfC4a, kfC4b] (by simp) 1]
    have hpair : getKeyframesPair [kfC4a, kfC4b] 1 = (kfC4a, kfC4b) := rfl
    rw [hpair]
    have hlp : localProgressOf (kfC4a, kfC4b) 1 = 0 := rfl
    rw [hlp, dispatchValue_opacity]
    have hnum : interpolateNumJS (numOperand (kfVal kfC4a))
        (numOperand (kfVal kfC4b)) 0 = CssOut.num 1 := by
      show interpolateNumJS (some 1) (some 2) 0 = CssOut.num 1
      norm_num [interpolateNumJS, interpolateNum]
    rw [hnum]

/-- First keyframe of the C4 witness data: `t = 1`, value 3. -/
def kfW4a : PxKeyframe := { t := some 1, v := some (.num 3) }

/-- Second keyframe of the C4 witness data: `t = 1`, value 7. -/
def kfW4b : PxKeyframe := { t := some 1, v := some (.num 7) }

/-- Witness instantiating the duplicate-time clause of the C4 theorem at a
concrete two-keyframe animation. -/
theorem normalizeKeyframes_stable_sort_first_occurrence_wins_witness :
    (∀ x ∈ ([] : List PxKeyframe), keyT x < keyT kfW4a)
    ∧ keyT kfW4a = keyT kfW4b
    ∧ ValuesUniform "opacity" ([] ++ kfW4a :: kfW4b :: [])
    ∧ calcPropertyValue "opacity" { kfs := some ([] ++ kfW4a :: kfW4b :: []) }
        (keyT kfW4a)
      = calcPropertyValue "opacity" { kfs := some [kfW4a] } (keyT kfW4a) := by
  have h1 : ∀ x ∈ ([] : List PxKeyframe), keyT x < keyT kfW4a := by simp
  have h2 : keyT kfW4a = keyT kfW4b := rfl
  have h3 : ValuesUniform "opacity" ([] ++ kfW4a :: kfW4b :: []) := by
    refine ⟨fun h => absurd h (by decide), fun h => absurd h (by decide),
      fun _ kf hkf => ?_⟩
    simp only [List.nil_append, List.mem_cons, List.not_mem_nil,
      or_false] at hkf
    rcases hkf with rfl | rfl
    · exact ⟨3, rfl⟩
    · exact ⟨7, rfl⟩
  exact ⟨h1, h2, h3,
    (normalizeKeyframes_stable_sort_first_occurrence_wins "opacity" {} 1
      []).2.2 [] [] kfW4a kfW4b h1 h2 h3⟩

/-- First keyframe of the C10 counterexample: `t = 0`, value 5. -/
def kfC10a : PxKeyframe := { t := some 0, v := some (.num 5) }

/-- Second keyframe of the C10 counterexample: `t = 1`, value 1. -/
def kfC10b : PxKeyframe := { t := some 1, v := some (.num 1) }

/-- Third keyframe of the C10 counterexample: `t = 1`, value 2 (duplicate
of the last time). -/
def kfC10c : PxKeyframe := { t := some 1, v := some (.num 2) }

/-- C10 counterexample: with keyframes at times 0, 1, 1 (values 5, 1, 2) the
progress 1 is at (and hence ≥) the last keyframe's time, but the computed
value is the *second* keyframe's value 1 — the matching scan stops at the
pair `(t=0, t=1)` — not the last keyframe's value 2 as the unqualified claim
requires. -/
theorem calcPropertyValue_duplicate_last_time_not_last_value :
    calcPropertyValue "opacity" { kfs := some [kfC10a, kfC10b, kfC10c] } 1
      = some ("opacity", CssOut.num 1)
    ∧ keyT ([kfC10a, kfC10b, kfC10c].getLastD {}) ≤ 1
    ∧ kfVal ([kfC10a, kfC10b, kfC10c].getLastD {}) = some (PxVal.num 2)
    ∧ CssOut.num 1 ≠ CssOut.num 2 := by
  refine ⟨?_, by decide, rfl, by decide⟩
  rw [calcPropertyValue_of_ne_nil "opacity" [kfC10a, kfC10b, kfC10c]
    (by simp) 1]
  have hpair : getKeyframesPair [kfC10a, kfC10b, kfC10c] 1
      = (kfC10a, kfC10b) := rfl
  rw [hpair]
  have hlp : localProgressOf (kfC10a, kfC10b) 1 = 1 := by
    refine localProgressOf_pair_one kfC10a kfC10b 1 (by decide) ?_
    rw [remap, if_neg (by decide)]
    norm_num [kfC10a, kfC10b]
  rw [hlp, dispatchValue_opacity]
  have hnum : interpolateNumJS (numOperand (kfVal kfC10a))
      (numOperand (kfVal kfC10b)) 1 = CssOut.num 1 := by
    show interpolateNumJS (some 5) (some 1) 1 = CssOut.num 1
    norm_num [interpolateNumJS, interpolateNum]
  rw [hnum]

/-- First keyframe of the C10 witness data: `t = 0`, value 1. -/
def kfW10a : PxKeyframe := { t := some 0, v := some (.num 1) }

/-- Second keyframe of the C10 witness data: `t = 1`, value 0. -/
def kfW10b : PxKeyframe := { t := some 1, v := some (.num 0) }

/-- Witness instantiating the C10 endpoint-clamp theorem at a concrete
strictly-sorted two-keyframe `opacity` animation, evaluated past the last
keyframe. -/
theorem calcPropertyValue_endpoint_clamp_witness :
    ([kfW10a, kfW10b] ≠ ([] : List PxKeyframe))
    ∧ List.Pairwise (fun u w => keyT u < keyT w) [kfW10a, kfW10b]
    ∧ ValuesUniform "opacity" [kfW10a, kfW10b]
    ∧ (keyT ([kfW10a, kfW10b].getLastD {}) ≤ 2 →
        calcPropertyValue "opacity" { kfs := some [kfW10a, kfW10b] } 2
          = calcPropertyValue "opacity"
              { kfs := some [[kfW10a, kfW10b].getLastD {}] } 2) := by
  have hne : [kfW10a, kfW10b] ≠ ([] : List PxKeyframe) := by simp
  have hs : List.Pairwise (fun u w => keyT u < keyT w) [kfW10a, kfW10b] := by
    refine List.Pairwise.cons (fun w hw => ?_)
      (List.pairwise_singleton _ _)
    rw [List.mem_singleton] at hw
    rw [hw]
    decide
  have hU : ValuesUniform "opacity" [kfW10a, kfW10b] := by
    refine ⟨fun h => absurd h (by decide), fun h => absurd h (by decide),
      fun _ kf hkf => ?_⟩
    simp only [List.mem_cons, List.not_mem_nil, or_false] at hkf
    rcases hkf with rfl | rfl
    · exact ⟨1, rfl⟩
    · exact ⟨0, rfl⟩
  exact ⟨hne, hs, hU,
    (calcPropertyValue_endpoint_clamp "opacity" [kfW10a, kfW10b] 2
      hne hs hU).2.1⟩

/-! ### `generateUniqueId` (`part_003`)

`'_px_' + Date.now().toString(36) + (++_idCounter).toString(36) +
Math.random().toString(36).substring(2, 6)`.  The two timestamps are the
`Date.now()` value and the post-increment counter value of the call; `rand`
is the base-36 fraction-digit list of `Math.random().toString(36)` (the
characters after `0.`), of which `substring(2, 6)` keeps at most four. -/

/-- The base-36 digit character for `d`: `0`–`9` then `a`–`z`
(`Number.prototype.toString(36)`). -/
def base36Digit (d : ℕ) : Char :=
  if d < 10 then Char.ofNat (48 + d) else Char.ofNat (87 + d)

/-- Fuelled most-significant-first base-36 digit extraction. -/
def toBase36Go : ℕ → ℕ → List ℕ
  | 0, _ => []
  | fuel + 1, n => if n = 0 then [] else toBase36Go fuel (n / 36) ++ [n % 36]

/-- The base-36 digits of `n` (empty for 0; `n` itself is enough fuel since
the argument shrinks by a factor of 36 each step). -/
def toBase36Digits (n : ℕ) : List ℕ := toBase36Go n n

/-- `n.toString(36)` for a natural number. -/
def toBase36 (n : ℕ) : String :=
  if n = 0 then "0" else String.mk ((toBase36Digits n).map base36Digit)

/-- `generateUniqueId()` as a function of the effect results it consumes:
the `Date.now()` value, the incremented counter, and the random fraction
digits. -/
def generateUniqueId (ts counter : ℕ) (rand : List Char) : String :=
  "_px_" ++ toBase36 ts ++ toBase36 counter ++ String.mk (rand.take 4)

/-- The value of a most-significant-first base-36 digit list. -/
def ofBase36Digits (l : List ℕ) : ℕ := l.foldl (fun a d => a * 36 + d) 0

/-- Appending a digit multiplies the value by 36 and adds the digit. -/
theorem ofBase36Digits_append (l : List ℕ) (d : ℕ) :
    ofBase36Digits (l ++ [d]) = ofBase36Digits l * 36 + d := by
  simp [ofBase36Digits]

/-- The digit extraction is correct once the fuel covers the input. -/
theorem toBase36Go_correct : ∀ fuel n, n ≤ fuel →
    ofBase36Digits (toBase36Go fuel n) = n := by
  intro fuel
  induction fuel with
  | zero =>
    intro n hn
    rw [Nat.le_zero.mp hn]
    rfl
  | succ f ih =>
    intro n hn
    by_cases h0 : n = 0
    · rw [h0]
      rfl
    · rw [toBase36Go, if_neg h0, ofBase36Digits_append,
        ih (n / 36) (Nat.le_of_lt_succ (lt_of_lt_of_le
          (Nat.div_lt_self (Nat.pos_of_ne_zero h0) (by norm_num)) hn))]
      have := Nat.div_add_mod n 36
      omega

/-- Every extracted digit is below 36. -/
theorem toBase36Go_lt : ∀ fuel n d, d ∈ toBase36Go fuel n → d < 36 := by
  intro fuel
  induction fuel with
  | zero =>
    intro n d hd
    cases hd
  | succ f ih =>
    intro n d hd
    by_cases h0 : n = 0
    · rw [h0] at hd
      cases hd
    · rw [toBase36Go, if_neg h0] at hd
      rcases List.mem_append.mp hd with h | h
      · exact ih (n / 36) d h
      · rw [List.mem_singleton.mp h]
        exact Nat.mod_lt _ (by norm_num)

/-- `base36Digit` is injective on digits. -/
theorem base36Digit_inj :
    ∀ d < 36, ∀ e < 36, base36Digit d = base36Digit e → d = e := by decide

/-- Mapping `base36Digit` over digit lists is injective. -/
theorem map_base36Digit_inj : ∀ l₁ l₂ : List ℕ, (∀ d ∈ l₁, d < 36) →
    (∀ d ∈ l₂, d < 36) → l₁.map base36Digit = l₂.map base36Digit →
    l₁ = l₂ := by
  intro l₁
  induction l₁ with
  | nil =>
    intro l₂ _ _ h
    cases l₂ with
    | nil => rfl
    | cons e l₂' => cases h
  | cons d l₁' ih =>
    intro l₂ h₁ h₂ h
    cases l₂ with
    | nil => cases h
    | cons e l₂' =>
      simp only [List.map_cons, List.cons.injEq] at h
      rw [base36Digit_inj d (h₁ d (List.mem_cons_self d l₁')) e
          (h₂ e (List.mem_cons_self e l₂')) h.1,
        ih l₂' (fun x hx => h₁ x (List.mem_cons_of_mem d hx))
          (fun x hx => h₂ x (List.mem_cons_of_mem e hx)) h.2]

/-- For a positive number the digit list is non-empty. -/
theorem toBase36Digits_ne_nil (n : ℕ) (hn : n ≠ 0) :
    toBase36Digits n ≠ [] := by
  obtain ⟨m, rfl⟩ := Nat.exists_eq_succ_of_ne_zero hn
  rw [toBase36Digits, toBase36Go, if_neg hn]
  simp

/-- `Number.prototype.toString(36)` is injective on natural numbers. -/
theorem toBase36_inj (m n : ℕ) (h : toBase36 m = toBase36 n) : m = n := by
  have hdig : ∀ k, k ≠ 0 → toBase36 k = String.mk ((toBase36Digits k).map base36Digit) := by
    intro k hk
    rw [toBase36, if_neg hk]
  by_cases hm : m = 0
  · by_cases hn : n = 0
    · rw [hm, hn]
    · exfalso
      rw [hm] at h
      rw [hdig n hn] at h
      have hdata : ['0'] = (toBase36Digits n).map base36Digit :=
        congrArg String.data h
      cases hds : toBase36Digits n with
      | nil => rw [hds] at hdata; cases hdata
      | cons d rest =>
        rw [hds] at hdata
        simp only [List.map_cons, List.cons.injEq] at hdata
        have hrest : rest = [] := by
          cases rest with
          | nil => rfl
          | cons x r => cases hdata.2
        have hd0 : d = 0 := by
          refine base36Digit_inj d ?_ 0 (by norm_num) ?_
          · exact toBase36Go_lt n n d (by rw [← toBase36Digits, hds]; simp)
          · rw [← hdata.1]
            decide
        have := toBase36Go_correct n n le_rfl
        rw [← toBase36Digits, hds, hrest, hd0] at this
        exact hn this.symm
  · by_cases hn : n = 0
    · exfalso
      rw [hn] at h
      rw [hdig m hm] at h
      have hdata : (toBase36Digits m).map base36Digit = ['0'] :=
        congrArg String.data h
      cases hds : toBase36Digits m with
      | nil => rw [hds] at hdata; cases hdata
      | cons d rest =>
        rw [hds] at hdata
        simp only [List.map_cons, List.cons.injEq] at hdata
        have hrest : rest = [] := by
          cases rest with
          | nil => rfl
          | cons x r => cases hdata.2
        have hd0 : d = 0 := by
          refine base36Digit_inj d ?_ 0 (by norm_num) ?_
          · exact toBase36Go_lt m m d (by rw [← toBase36Digits, hds]; simp)
          · rw [hdata.1]
            decide
        have := toBase36Go_correct m m le_rfl
        rw [← toBase36Digits, hds, hrest, hd0] at this
        exact hm this.symm
    · rw [hdig m hm, hdig n hn] at h
      have hdata : (toBase36Digits m).map base36Digit
          = (toBase36Digits n).map base36Digit := congrArg String.data h
      have hds := map_base36Digit_inj (toBase36Digits m) (toBase36Digits n)
        (fun d hd => toBase36Go_lt m m d hd) (fun d hd => toBase36Go_lt n n d hd)
        hdata
      have hm' := toBase36Go_correct m m le_rfl
      have hn' := toBase36Go_correct n n le_rfl
      rw [← toBase36Digits] at hm' hn'
      rw [← hm', ← hn', hds]

/-- C9 counterexample: the concatenation `'_px_' + ts36 + counter36 + random`
is ambiguous — the call with `Date.now() = 10` (`'a'`), counter 1 (`'1'`) and
random digits `bcde` and the call with `Date.now() = 361` (`'a1'`), counter
11 (`'b'`) and random digits `cde` (a random fraction with only three base-36
digits) return the *same* string `_px_a1bcde`, although every input of the
two calls differs.  The claim that any two calls to the id generator return
distinct strings is false. -/
theorem generateUniqueId_collision :
    generateUniqueId 10 1 ['b', 'c', 'd', 'e']
      = generateUniqueId 361 11 ['c', 'd', 'e']
    ∧ (10 : ℕ) ≠ 361 ∧ (1 : ℕ) ≠ 11
    ∧ ['b', 'c', 'd', 'e'] ≠ ['c', 'd', 'e'] := by
  refine ⟨by decide, by decide, by decide, by decide⟩

/-! ### `generateNewIds` (`part_003`)

The animated SVG document is a JSON-like value; `generateNewIds` deep-clones
it, walks the `children` tree regenerating every truthy string `id`
(recording old → new in a map), then walks every object entry rewriting
hash references, `url(#…)` references and direct id references.  The id
generator's effect results are supplied as a stream `ids : ℕ → String` of
the successive `generateUniqueId()` return values. -/

/-- A JSON-like value (`deepClone`'s domain: objects, arrays, primitives). -/
inductive JVal where
  | null
  | bool (b : Bool)
  | num (q : ℚ)
  | str (s : String)
  | arr (items : List JVal)
  | obj (fields : List (String × JVal))
deriving Repr

mutual
/-- `deepClone(value)`: primitives as-is, arrays and objects rebuilt
entry-by-entry. -/
def deepClone : JVal → JVal
  | .null => .null
  | .bool b => .bool b
  | .num q => .num q
  | .str s => .str s
  | .arr items => .arr (deepCloneList items)
  | .obj fields => .obj (deepCloneFields fields)

/-- `deepClone` over an array's items. -/
def deepCloneList : List JVal → List JVal
  | [] => []
  | v :: rest => deepClone v :: deepCloneList rest

/-- `deepClone` over an object's entries. -/
def deepCloneFields : List (String × JVal) → List (String × JVal)
  | [] => []
  | (k, v) :: rest => (k, deepClone v) :: deepCloneFields rest
end

/-- Property read on a JS object (field lists have unique keys). -/
def objGet : List (String × JVal) → String → Option JVal
  | [], _ => none
  | (k, v) :: rest, key => if k = key then some v else objGet rest key

/-- `Map.get` on the id map.  `Map.set` is modelled by consing the new entry
in front (a later `set` of the same key shadows the earlier entry, exactly
the overwrite semantics). -/
def mapGet : List (String × String) → String → Option String
  | [], _ => none
  | (k, v) :: rest, key => if k = key then some v else mapGet rest key

/-- `hashRefAttrs`. -/
def hashRefAttrs : List String := ["href", "xlink:href"]

/-- `urlRefAttrs`. -/
def urlRefAttrs : List String :=
  ["fill", "stroke", "clip-path", "clipPath", "mask",
   "marker", "marker-start", "marker-mid", "marker-end",
   "filter", "flood-color", "lighting-color"]

/-- `directIdRefAttrs`. -/
def directIdRefAttrs : List String := ["baseId", "targetId", "boundElementId"]

/-- `value.startsWith('#')`. -/
def startsWithHash (s : String) : Bool :=
  match s.data with
  | '#' :: _ => true
  | _ => false

/-- The characters of the literal `url(#`. -/
def urlOpen : List Char := ['u', 'r', 'l', '(', '#']

/-- `value.includes('url(#')`. -/
def containsUrlOpen : List Char → Bool
  | [] => false
  | c :: rest => urlOpen.isPrefixOf (c :: rest) || containsUrlOpen rest

/-- One attempted match of `/url\(#([^)]+)\)/` at the head of `l`: on
success, the replacement text for the match (the mapped id if present and
truthy, otherwise the match itself) together with the input after the
match. -/
def tryUrlAt (m : List (String × String)) (l : List Char) :
    Option (List Char × List Char) :=
  if urlOpen.isPrefixOf l then
    let after5 := l.drop 5
    let body := after5.takeWhile (fun ch => ch != ')')
    if body.isEmpty then none
    else if (after5.drop body.length).take 1 = [')'] then
      let tail := (after5.drop body.length).drop 1
      match mapGet m (String.mk body) with
      | some newId =>
          if newId = "" then some (urlOpen ++ body ++ [')'], tail)
          else some (urlOpen ++ newId.data ++ [')'], tail)
      | none => some (urlOpen ++ body ++ [')'], tail)
    else none
  else none

/-- The global-regex scan of `replaceUrlRefs`: at each position, emit the
(possibly replaced) match and resume after it, or move one character on.
The fuel is an upper bound on the input length, which each step shrinks. -/
def replaceUrlRefsGo (m : List (String × String)) : ℕ → List Char → List Char
  | 0, l => l
  | _ + 1, [] => []
  | fuel + 1, c :: rest =>
    match tryUrlAt m (c :: rest) with
    | some (rep, tail) => rep ++ replaceUrlRefsGo m fuel tail
    | none => c :: replaceUrlRefsGo m fuel rest

/-- `replaceUrlRefs(value, idMap)`. -/
def replaceUrlRefs (s : String) (m : List (String × String)) : String :=
  String.mk (replaceUrlRefsGo m s.data.length s.data)

/-- The per-entry string rewrite of `updateRefs`: hash references on
`href`/`xlink:href`, `url(#…)` rewrites on the url-bearing presentation
attributes, direct id references on `baseId`/`targetId`/`boundElementId`,
and a catch-all `url(#…)` rewrite for any other string containing one
(style strings).  A falsy (`''`) mapped id leaves the value unchanged, as
the source's truthiness guards do. -/
def updateStrField (m : List (String × String)) (key : String) (s : String) :
    String :=
  if hashRefAttrs.contains key && startsWithHash s then
    match mapGet m (String.mk (s.data.drop 1)) with
    | some newId => if newId = "" then s else "#" ++ newId
    | none => s
  else if urlRefAttrs.contains key then
    replaceUrlRefs s m
  else if directIdRefAttrs.contains key then
    match mapGet m s with
    | some newId => if newId = "" then s else newId
    | none => s
  else if containsUrlOpen s.data then
    replaceUrlRefs s m
  else s

mutual
/-- Phase 1, `collectIds(node)`: regenerate a truthy string `id` (consuming
the next generator output and recording old → new), then recurse into the
`children` array.  Returns the rewritten node, the id-map entries (newest
first) and the next generator index. -/
def collectIds (ids : ℕ → String) (k : ℕ) :
    JVal → JVal × List (String × String) × ℕ
  | .obj fields =>
    match objGet fields "id" with
    | some (.str oldId) =>
      if oldId = "" then
        let r := collectFields ids none k fields
        (.obj r.1, r.2.1, r.2.2)
      else
        let r := collectFields ids (some (ids k)) (k + 1) fields
        (.obj r.1, r.2.1 ++ [(oldId, ids k)], r.2.2)
    | _ =>
      let r := collectFields ids none k fields
      (.obj r.1, r.2.1, r.2.2)
  | v => (v, [], k)

/-- The entry walk of phase 1: replace the `id` entry when a new id was
assigned, recurse into `children` arrays, leave everything else alone. -/
def collectFields (ids : ℕ → String) (nid : Option String) (k : ℕ) :
    List (String × JVal) →
      List (String × JVal) × List (String × String) × ℕ
  | [] => ([], [], k)
  | (key, value) :: rest =>
    if key = "id" then
      let v' := match nid with
        | some s => JVal.str s
        | none => value
      let r := collectFields ids nid k rest
      ((key, v') :: r.1, r.2.1, r.2.2)
    else if key = "children" then
      match value with
      | .arr items =>
        let ri := collectIdsList ids k items
        let r := collectFields ids nid ri.2.2 rest
        ((key, .arr ri.1) :: r.1, r.2.1 ++ ri.2.1, r.2.2)
      | v =>
        let r := collectFields ids nid k rest
        ((key, v) :: r.1, r.2.1, r.2.2)
    else
      let r := collectFields ids nid k rest
      ((key, value) :: r.1, r.2.1, r.2.2)

/-- Phase 1 over a `children` array. -/
def collectIdsList (ids : ℕ → String) (k : ℕ) :
    List JVal → List JVal × List (String × String) × ℕ
  | [] => ([], [], k)
  | v :: rest =>
    let rv := collectIds ids k v
    let rr := collectIdsList ids rv.2.2 rest
    (rv.1 :: rr.1, rr.2.1 ++ rv.2.1, rr.2.2)
end

/-- The shallow string rewrite applied to `style` entry values. -/
def replaceIfStr (m : List (String × String)) : JVal → JVal
  | .str s => .str (replaceUrlRefs s m)
  | v => v

/-- `style` object entries: string values get `replaceUrlRefs`. -/
def updateStyleFields (m : List (String × String))
    (fields : List (String × JVal)) : List (String × JVal) :=
  fields.map (fun kv => (kv.1, replaceIfStr m kv.2))

/-- `style` array entries (`Object.entries` of an array). -/
def updateStyleItems (m : List (String × String)) (items : List JVal) :
    List JVal :=
  items.map (replaceIfStr m)

mutual
/-- Phase 2, `updateRefs(node)`: walk every object (or array) entry. -/
def updateNode (m : List (String × String)) : JVal → JVal
  | .obj fields => .obj (updateFields m fields)
  | .arr items => .arr (updateItems m 0 items)
  | v => v

/-- Phase 2 over an object's entries. -/
def updateFields (m : List (String × String)) :
    List (String × JVal) → List (String × JVal)
  | [] => []
  | (key, value) :: rest =>
    (key, updateEntry m key value) :: updateFields m rest

/-- Phase 2 over an array's entries (`Object.entries` keys are the decimal
indices, which never hit the keyed branches). -/
def updateItems (m : List (String × String)) : ℕ → List JVal → List JVal
  | _, [] => []
  | i, v :: rest => updateEntry m (Nat.repr i) v :: updateItems m (i + 1) rest

/-- The `children` recursion of phase 2 (`updateRefs` on each child). -/
def updateChildren (m : List (String × String)) : List JVal → List JVal
  | [] => []
  | v :: rest =>
    (match v with
     | .obj fields => JVal.obj (updateFields m fields)
     | .arr items => JVal.arr (updateItems m 0 items)
     | v => v) :: updateChildren m rest

/-- One `(key, value)` entry of phase 2, mirroring the source's branch
order: `children` recursion, string rewriting, shallow `style` handling,
generic object recursion with the `animate` subtree skipped. -/
def updateEntry (m : List (String × String)) (key : String) (value : JVal) :
    JVal :=
  if key = "children" then
    match value with
    | .arr items => .arr (updateChildren m items)
    | v => v
  else
    match value with
    | .str s => .str (updateStrField m key s)
    | .obj sfields =>
      if key = "style" then .obj (updateStyleFields m sfields)
      else if key = "animate" then .obj sfields
      else .obj (updateFields m sfields)
    | .arr items =>
      if key = "style" then .arr (updateStyleItems m items)
      else if key = "animate" then .arr items
      else .arr (updateItems m 0 items)
    | v => v
end

mutual
/-- The truthy string ids of the `children` tree, in the traversal order of
`collectIds` (node id first, then the children arrays in entry order). -/
def idsOf : JVal → List String
  | .obj fields =>
    (match objGet fields "id" with
     | some (.str s) => if s = "" then [] else [s]
     | _ => []) ++ idsOfChildrenOf fields
  | _ => []

/-- Ids contributed by the `children` entries of a field list. -/
def idsOfChildrenOf : List (String × JVal) → List String
  | [] => []
  | (key, value) :: rest =>
    (if key = "children" then
      match value with
      | .arr items => idsOfList items
      | _ => []
     else []) ++ idsOfChildrenOf rest

/-- Ids of a `children` array. -/
def idsOfList : List JVal → List String
  | [] => []
  | v :: rest => idsOf v ++ idsOfList rest
end

/-- `generateNewIds(doc)`: deep clone, regenerate ids, rewrite references. -/
def generateNewIds (ids : ℕ → String) (doc : JVal) : JVal :=
  let cloned := deepClone doc
  let r := collectIds ids 0 cloned
  updateNode r.2.1 r.1

mutual
/-- `deepClone` is value-identity: the clone equals the input as a value
(while being a freshly built tree, so the result shares no mutable node
with the input). -/
theorem deepClone_id : ∀ v, deepClone v = v
  | .null => rfl
  | .bool _ => rfl
  | .num _ => rfl
  | .str _ => rfl
  | .arr items => by rw [deepClone, deepCloneList_id items]
  | .obj fields => by rw [deepClone, deepCloneFields_id fields]

/-- `deepCloneList` is value-identity. -/
theorem deepCloneList_id : ∀ l, deepCloneList l = l
  | [] => rfl
  | v :: rest => by rw [deepCloneList, deepClone_id v, deepCloneList_id rest]

/-- `deepCloneFields` is value-identity. -/
theorem deepCloneFields_id : ∀ l, deepCloneFields l = l
  | [] => rfl
  | (k, v) :: rest => by
      rw [deepCloneFields, deepClone_id v, deepCloneFields_id rest]
end

/-- Two `generateUniqueId` calls within the same millisecond (equal
`Date.now()` strings) with distinct counters and full-length 4-character
random suffixes always return distinct strings: with the random lengths
pinned, the counter segments either differ in their first character or make
the total lengths differ. -/
theorem generateUniqueId_same_ts_ne (ts c₁ c₂ : ℕ) (r₁ r₂ : List Char)
    (hc : c₁ ≠ c₂) (h₁ : (r₁.take 4).length = 4)
    (h₂ : (r₂.take 4).length = 4) :
    generateUniqueId ts c₁ r₁ ≠ generateUniqueId ts c₂ r₂ := by
  intro h
  have hdata := congrArg String.data h
  simp only [generateUniqueId, String.data_append, List.append_assoc] at hdata
  have h1 := List.append_cancel_left hdata
  have h2 := List.append_cancel_left h1
  have h3 := List.append_inj' h2 (h₁.trans h₂.symm)
  exact hc (toBase36_inj c₁ c₂ (String.ext h3.1))

/-- Concatenating adjacent index ranges. -/
theorem range'_add (k a b : ℕ) :
    List.range' k a ++ List.range' (k + a) b = List.range' k (a + b) := by
  have h := List.range'_append k a b 1
  rw [one_mul] at h
  rw [Nat.add_comm b a] at h
  exact h

/-- The literal keys `id` and `children` differ. -/
theorem id_ne_children : ¬ ("id" : String) = "children" := by decide

/-- The literal keys `children` and `id` differ. -/
theorem children_ne_id : ¬ ("children" : String) = "id" := by decide

/-- Object lookup finds a heading entry with the looked-up key. -/
theorem objGet_cons_self (key : String) (value : JVal)
    (rest : List (String × JVal)) :
    objGet ((key, value) :: rest) key = some value := by
  simp only [objGet, if_true]

/-- Object lookup skips an entry with a different key. -/
theorem objGet_cons_ne (key key' : String) (value : JVal)
    (rest : List (String × JVal)) (h : ¬ key = key') :
    objGet ((key, value) :: rest) key' = objGet rest key' := by
  simp only [objGet]
  rw [if_neg h]

/-- `collectFields` on an `id` entry: the value is replaced by the assigned
id (when one exists) and the rest continues unchanged. -/
theorem collectFields_cons_id (ids : ℕ → String) (nid : Option String)
    (k : ℕ) (value : JVal) (rest : List (String × JVal)) :
    collectFields ids nid k (("id", value) :: rest)
      = (("id", match nid with | some s => JVal.str s | none => value)
          :: (collectFields ids nid k rest).1,
         (collectFields ids nid k rest).2.1,
         (collectFields ids nid k rest).2.2) := by
  simp only [collectFields, if_true]

/-- `collectFields` on a `children` array entry recurses into the items and
threads the generator index into the remaining entries. -/
theorem collectFields_cons_children_arr (ids : ℕ → String)
    (nid : Option String) (k : ℕ) (items : List JVal)
    (rest : List (String × JVal)) :
    collectFields ids nid k (("children", JVal.arr items) :: rest)
      = (("children", JVal.arr (collectIdsList ids k items).1)
          :: (collectFields ids nid (collectIdsList ids k items).2.2 rest).1,
         (collectFields ids nid (collectIdsList ids k items).2.2 rest).2.1
           ++ (collectIdsList ids k items).2.1,
         (collectFields ids nid (collectIdsList ids k items).2.2 rest).2.2) := by
  simp only [collectFields, if_true]
  rw [if_neg children_ne_id]

/-- `collectFields` on a non-array `children` entry leaves it unchanged. -/
theorem collectFields_cons_children_nonarr (ids : ℕ → String)
    (nid : Option String) (k : ℕ) (value : JVal)
    (rest : List (String × JVal)) (hv : ∀ items, value ≠ JVal.arr items) :
    collectFields ids nid k (("children", value) :: rest)
      = (("children", value) :: (collectFields ids nid k rest).1,
         (collectFields ids nid k rest).2.1,
         (collectFields ids nid k rest).2.2) := by
  cases value with
  | arr items => exact absurd rfl (hv items)
  | null =>
    simp only [collectFields, if_true]
    rw [if_neg children_ne_id]
  | bool b =>
    simp only [collectFields, if_true]
    rw [if_neg children_ne_id]
  | num q =>
    simp only [collectFields, if_true]
    rw [if_neg children_ne_id]
  | str s =>
    simp only [collectFields, if_true]
    rw [if_neg children_ne_id]
  | obj f =>
    simp only [collectFields, if_true]
    rw [if_neg children_ne_id]

/-- `collectFields` on any other entry leaves it unchanged. -/
theorem collectFields_cons_other (ids : ℕ → String) (nid : Option String)
    (k : ℕ) (key : String) (value : JVal) (rest : List (String × JVal))
    (hkey : ¬ key = "id") (hch : ¬ key = "children") :
    collectFields ids nid k ((key, value) :: rest)
      = ((key, value) :: (collectFields ids nid k rest).1,
         (collectFields ids nid k rest).2.1,
         (collectFields ids nid k rest).2.2) := by
  rw [collectFields.eq_def]
  dsimp only
  rw [if_neg hkey, if_neg hch]

/-- `idsOfChildrenOf` on a `children` array entry. -/
theorem idsOfChildrenOf_cons_children_arr (items : List JVal)
    (rest : List (String × JVal)) :
    idsOfChildrenOf (("children", JVal.arr items) :: rest)
      = idsOfList items ++ idsOfChildrenOf rest := by
  simp only [idsOfChildrenOf, if_true]

/-- `idsOfChildrenOf` on a non-array `children` entry. -/
theorem idsOfChildrenOf_cons_children_nonarr (value : JVal)
    (rest : List (String × JVal)) (hv : ∀ items, value ≠ JVal.arr items) :
    idsOfChildrenOf (("children", value) :: rest) = idsOfChildrenOf rest := by
  cases value with
  | arr items => exact absurd rfl (hv items)
  | null => simp only [idsOfChildrenOf, if_true, List.nil_append]
  | bool b => simp only [idsOfChildrenOf, if_true, List.nil_append]
  | num q => simp only [idsOfChildrenOf, if_true, List.nil_append]
  | str s => simp only [idsOfChildrenOf, if_true, List.nil_append]
  | obj f => simp only [idsOfChildrenOf, if_true, List.nil_append]

/-- `idsOfChildrenOf` skips entries with other keys. -/
theorem idsOfChildrenOf_cons_ne (key : String) (value : JVal)
    (rest : List (String × JVal)) (hch : ¬ key = "children") :
    idsOfChildrenOf ((key, value) :: rest) = idsOfChildrenOf rest := by
  rw [idsOfChildrenOf.eq_def]
  dsimp only
  rw [if_neg hch]
  exact List.nil_append _

/-- `idsOf` of an object with a truthy string id. -/
theorem idsOf_obj_fresh (fields : List (String × JVal)) (oldId : String)
    (hid : objGet fields "id" = some (JVal.str oldId)) (h0 : ¬ oldId = "") :
    idsOf (JVal.obj fields) = oldId :: idsOfChildrenOf fields := by
  simp only [idsOf, hid]
  rw [if_neg h0]
  rfl

/-- `idsOf` of an object whose id is the empty string. -/
theorem idsOf_obj_empty (fields : List (String × JVal))
    (hid : objGet fields "id" = some (JVal.str "")) :
    idsOf (JVal.obj fields) = idsOfChildrenOf fields := by
  simp only [idsOf, hid, if_true, List.nil_append]

/-- `collectIds` on an object with a truthy string id: assign the next
generated id, record the mapping (as the oldest entry), continue. -/
theorem collectIds_obj_fresh (ids : ℕ → String) (k : ℕ)
    (fields : List (String × JVal)) (oldId : String)
    (hid : objGet fields "id" = some (JVal.str oldId)) (h0 : ¬ oldId = "") :
    collectIds ids k (JVal.obj fields)
      = (JVal.obj (collectFields ids (some (ids k)) (k + 1) fields).1,
         (collectFields ids (some (ids k)) (k + 1) fields).2.1
           ++ [(oldId, ids k)],
         (collectFields ids (some (ids k)) (k + 1) fields).2.2) := by
  simp only [collectIds, hid]
  rw [if_neg h0]

/-- `collectIds` on an object whose id is the (falsy) empty string. -/
theorem collectIds_obj_empty (ids : ℕ → String) (k : ℕ)
    (fields : List (String × JVal))
    (hid : objGet fields "id" = some (JVal.str "")) :
    collectIds ids k (JVal.obj fields)
      = (JVal.obj (collectFields ids none k fields).1,
         (collectFields ids none k fields).2.1,
         (collectFields ids none k fields).2.2) := by
  simp only [collectIds, hid, if_true]

mutual
/-- Phase 1 produces, for every node, the next `(idsOf v).length` generator
outputs as the new ids (in traversal order), advances the generator index by
that count, and returns the id map pairing each old id with its replacement
(newest entry first). -/
theorem collectIds_spec (ids : ℕ → String) (hids : ∀ n, ids n ≠ "") :
    ∀ v k,
      idsOf (collectIds ids k v).1
          = List.map ids (List.range' k (idsOf v).length)
        ∧ (collectIds ids k v).2.2 = k + (idsOf v).length
        ∧ (collectIds ids k v).2.1
          = ((idsOf v).zip
              (List.map ids (List.range' k (idsOf v).length))).reverse
  | .null, k => by simp [collectIds, idsOf]
  | .bool b, k => by simp [collectIds, idsOf]
  | .num q, k => by simp [collectIds, idsOf]
  | .str s, k => by simp [collectIds, idsOf]
  | .arr items, k => by simp [collectIds, idsOf]
  | .obj fields, k => by
    cases hid : objGet fields "id" with
    | none =>
      obtain ⟨ih1, ih2, ih3, ih4⟩ := collectFields_spec ids hids fields none k
      simp only [collectIds, hid, idsOf, ih4, List.nil_append]
      exact ⟨ih1, ih2, ih3⟩
    | some w =>
      cases w with
      | str oldId =>
        by_cases h0 : oldId = ""
        · subst h0
          obtain ⟨ih1, ih2, ih3, ih4⟩ := collectFields_spec ids hids fields none k
          have hid2 : objGet (collectFields ids none k fields).1 "id"
              = some (JVal.str "") := by
            rw [ih4]
            exact hid
          rw [collectIds_obj_empty ids k fields hid]
          dsimp only
          rw [idsOf_obj_empty fields hid, idsOf_obj_empty _ hid2]
          exact ⟨ih1, ih2, ih3⟩
        · obtain ⟨ih1, ih2, ih3, ih4⟩ :=
            collectFields_spec ids hids fields (some (ids k)) (k + 1)
          have hid2 : objGet
                (collectFields ids (some (ids k)) (k + 1) fields).1 "id"
              = some (JVal.str (ids k)) := by
            simp only [ih4, hid, Option.map_some']
          rw [collectIds_obj_fresh ids k fields oldId hid h0]
          dsimp only
          rw [idsOf_obj_fresh fields oldId hid h0,
            idsOf_obj_fresh _ (ids k) hid2 (hids k)]
          refine ⟨?_, ?_, ?_⟩
          · rw [ih1]
            simp only [List.length_cons, List.range'_succ, List.map_cons]
          · rw [ih2, List.length_cons]
            omega
          · rw [ih3]
            simp only [List.length_cons, List.range'_succ, List.map_cons,
              List.zip_cons_cons, List.reverse_cons]
      | null =>
        obtain ⟨ih1, ih2, ih3, ih4⟩ := collectFields_spec ids hids fields none k
        simp only [collectIds, hid, idsOf, ih4, List.nil_append]
        exact ⟨ih1, ih2, ih3⟩
      | bool b =>
        obtain ⟨ih1, ih2, ih3, ih4⟩ := collectFields_spec ids hids fields none k
        simp only [collectIds, hid, idsOf, ih4, List.nil_append]
        exact ⟨ih1, ih2, ih3⟩
      | num q =>
        obtain ⟨ih1, ih2, ih3, ih4⟩ := collectFields_spec ids hids fields none k
        simp only [collectIds, hid, idsOf, ih4, List.nil_append]
        exact ⟨ih1, ih2, ih3⟩
      | arr items =>
        obtain ⟨ih1, ih2, ih3, ih4⟩ := collectFields_spec ids hids fields none k
        simp only [collectIds, hid, idsOf, ih4, List.nil_append]
        exact ⟨ih1, ih2, ih3⟩
      | obj f =>
        obtain ⟨ih1, ih2, ih3, ih4⟩ := collectFields_spec ids hids fields none k
        simp only [collectIds, hid, idsOf, ih4, List.nil_append]
        exact ⟨ih1, ih2, ih3⟩
termination_by v k => sizeOf v

/-- The entry walk of phase 1: children ids are renumbered consecutively,
the map collects their old/new pairs, and the `id` entry is exactly replaced
by the assigned id (if any). -/
theorem collectFields_spec (ids : ℕ → String) (hids : ∀ n, ids n ≠ "") :
    ∀ fields nid k,
      idsOfChildrenOf (collectFields ids nid k fields).1
          = List.map ids (List.range' k (idsOfChildrenOf fields).length)
        ∧ (collectFields ids nid k fields).2.2
          = k + (idsOfChildrenOf fields).length
        ∧ (collectFields ids nid k fields).2.1
          = ((idsOfChildrenOf fields).zip
              (List.map ids
                (List.range' k (idsOfChildrenOf fields).length))).reverse
        ∧ objGet (collectFields ids nid k fields).1 "id"
          = (match nid with
             | some s => (objGet fields "id").map fun _ => JVal.str s
             | none => objGet fields "id")
  | [], nid, k => by
    cases nid with
    | some s => simp [collectFields, idsOfChildrenOf, objGet]
    | none => simp [collectFields, idsOfChildrenOf, objGet]
  | (key, value) :: rest, nid, k => by
    by_cases hkey : key = "id"
    · subst hkey
      obtain ⟨ih1, ih2, ih3, ih4⟩ := collectFields_spec ids hids rest nid k
      rw [collectFields_cons_id ids nid k value rest]
      dsimp only
      rw [idsOfChildrenOf_cons_ne "id" _ _ id_ne_children,
        idsOfChildrenOf_cons_ne "id" value rest id_ne_children]
      refine ⟨ih1, ih2, ih3, ?_⟩
      cases nid with
      | some s => simp only [objGet_cons_self, Option.map_some']
      | none => simp only [objGet_cons_self]
    · by_cases hch : key = "children"
      · subst hch
        cases value with
        | arr items =>
          obtain ⟨jh1, jh2, jh3⟩ := collectIdsList_spec ids hids items k
          obtain ⟨ih1, ih2, ih3, ih4⟩ := collectFields_spec ids hids rest nid
            (collectIdsList ids k items).2.2
          rw [jh2] at ih1 ih2 ih3 ih4
          rw [collectFields_cons_children_arr ids nid k items rest]
          dsimp only
          rw [jh2]
          rw [idsOfChildrenOf_cons_children_arr (collectIdsList ids k items).1 _,
            idsOfChildrenOf_cons_children_arr items rest]
          refine ⟨?_, ?_, ?_, ?_⟩
          · rw [ih1, jh1, List.length_append, ← List.map_append, range'_add]
          · rw [ih2, List.length_append]
            omega
          · rw [ih3, jh3, List.length_append, ← range'_add, List.map_append,
              List.zip_append (by simp), List.reverse_append]
          · rw [objGet_cons_ne "children" "id" _ _ children_ne_id,
              objGet_cons_ne "children" "id" _ _ children_ne_id]
            exact ih4
        | null =>
          obtain ⟨ih1, ih2, ih3, ih4⟩ := collectFields_spec ids hids rest nid k
          rw [collectFields_cons_children_nonarr ids nid k _ rest
            (fun its h => by cases h)]
          dsimp only
          rw [idsOfChildrenOf_cons_children_nonarr _ _ (fun its h => by cases h),
            idsOfChildrenOf_cons_children_nonarr _ rest (fun its h => by cases h)]
          refine ⟨ih1, ih2, ih3, ?_⟩
          rw [objGet_cons_ne "children" "id" _ _ children_ne_id,
            objGet_cons_ne "children" "id" _ _ children_ne_id]
          exact ih4
        | bool b =>
          obtain ⟨ih1, ih2, ih3, ih4⟩ := collectFields_spec ids hids rest nid k
          rw [collectFields_cons_children_nonarr ids nid k _ rest
            (fun its h => by cases h)]
          dsimp only
          rw [idsOfChildrenOf_cons_children_nonarr _ _ (fun its h => by cases h),
            idsOfChildrenOf_cons_children_nonarr _ rest (fun its h => by cases h)]
          refine ⟨ih1, ih2, ih3, ?_⟩
          rw [objGet_cons_ne "children" "id" _ _ children_ne_id,
            objGet_cons_ne "children" "id" _ _ children_ne_id]
          exact ih4
        | num q =>
          obtain ⟨ih1, ih2, ih3, ih4⟩ := collectFields_spec ids hids rest nid k
          rw [collectFields_cons_children_nonarr ids nid k _ rest
            (fun its h => by cases h)]
          dsimp only
          rw [idsOfChildrenOf_cons_children_nonarr _ _ (fun its h => by cases h),
            idsOfChildrenOf_cons_children_nonarr _ rest (fun its h => by cases h)]
          refine ⟨ih1, ih2, ih3, ?_⟩
          rw [objGet_cons_ne "children" "id" _ _ children_ne_id,
            objGet_cons_ne "children" "id" _ _ children_ne_id]
          exact ih4
        | str s =>
          obtain ⟨ih1, ih2, ih3, ih4⟩ := collectFields_spec ids hids rest nid k
          rw [collectFields_cons_children_nonarr ids nid k _ rest
            (fun its h => by cases h)]
          dsimp only
          rw [idsOfChildrenOf_cons_children_nonarr _ _ (fun its h => by cases h),
            idsOfChildrenOf_cons_children_nonarr _ rest (fun its h => by cases h)]
          refine ⟨ih1, ih2, ih3, ?_⟩
          rw [objGet_cons_ne "children" "id" _ _ children_ne_id,
            objGet_cons_ne "children" "id" _ _ children_ne_id]
          exact ih4
        | obj f =>
          obtain ⟨ih1, ih2, ih3, ih4⟩ := collectFields_spec ids hids rest nid k
          rw [collectFields_cons_children_nonarr ids nid k _ rest
            (fun its h => by cases h)]
          dsimp only
          rw [idsOfChildrenOf_cons_children_nonarr _ _ (fun its h => by cases h),
            idsOfChildrenOf_cons_children_nonarr _ rest (fun its h => by cases h)]
          refine ⟨ih1, ih2, ih3, ?_⟩
          rw [objGet_cons_ne "children" "id" _ _ children_ne_id,
            objGet_cons_ne "children" "id" _ _ children_ne_id]
          exact ih4
      · obtain ⟨ih1, ih2, ih3, ih4⟩ := collectFields_spec ids hids rest nid k
        rw [collectFields_cons_other ids nid k key value rest hkey hch]
        dsimp only
        rw [idsOfChildrenOf_cons_ne key value _ hch,
          idsOfChildrenOf_cons_ne key value rest hch]
        refine ⟨ih1, ih2, ih3, ?_⟩
        rw [objGet_cons_ne key "id" value _ hkey,
          objGet_cons_ne key "id" value rest hkey]
        exact ih4
termination_by fields nid k => sizeOf fields

/-- Phase 1 over a `children` array. -/
theorem collectIdsList_spec (ids : ℕ → String) (hids : ∀ n, ids n ≠ "") :
    ∀ items k,
      idsOfList (collectIdsList ids k items).1
          = List.map ids (List.range' k (idsOfList items).length)
        ∧ (collectIdsList ids k items).2.2 = k + (idsOfList items).length
        ∧ (collectIdsList ids k items).2.1
          = ((idsOfList items).zip
              (List.map ids
                (List.range' k (idsOfList items).length))).reverse
  | [], k => by simp [collectIdsList, idsOfList]
  | v :: rest, k => by
    obtain ⟨jh1, jh2, jh3⟩ := collectIds_spec ids hids v k
    obtain ⟨ih1, ih2, ih3⟩ :=
      collectIdsList_spec ids hids rest (collectIds ids k v).2.2
    rw [jh2] at ih1 ih2 ih3
    simp only [collectIdsList, idsOfList]
    rw [jh2]
    refine ⟨?_, ?_, ?_⟩
    · rw [ih1, jh1, List.length_append, ← List.map_append, range'_add]
    · rw [ih2, List.length_append]
      omega
    · rw [ih3, jh3, List.length_append, ← range'_add, List.map_append,
        List.zip_append (by simp), List.reverse_append]
termination_by items k => sizeOf items
end

/-- A list is a prefix of itself followed by anything. -/
theorem isPrefixOf_append_self (p l : List Char) :
    p.isPrefixOf (p ++ l) = true := by
  induction p with
  | nil => simp [List.isPrefixOf]
  | cons c cs ih => simp [List.isPrefixOf, ih]

/-- `takeWhile` collects exactly the body of a `url(#…)` reference. -/
theorem takeWhile_body (old post : List Char) (h : ∀ c ∈ old, ¬ c = ')') :
    (old ++ ')' :: post).takeWhile (fun ch => ch != ')') = old := by
  induction old with
  | nil => simp [List.takeWhile_cons]
  | cons c cs ih =>
    have hc : (c != ')') = true := by
      simpa using h c (List.mem_cons_self c cs)
    simp only [List.cons_append, List.takeWhile_cons, hc, if_true]
    rw [ih (fun x hx => h x (List.mem_cons_of_mem c hx))]

/-- A successful, mapped match of `/url\(#([^)]+)\)/` at the head of the
input: the body is replaced by the mapped id and scanning resumes after the
closing parenthesis. -/
theorem tryUrlAt_match (m : List (String × String)) (old post : List Char)
    (new : String) (hne : old ≠ []) (hnp : ∀ c ∈ old, ¬ c = ')')
    (hm : mapGet m (String.mk old) = some new) (hnew : ¬ new = "") :
    tryUrlAt m (urlOpen ++ (old ++ ')' :: post))
      = some (urlOpen ++ new.data ++ [')'], post) := by
  obtain ⟨a, old', rfl⟩ : ∃ a old', old = a :: old' := by
    cases old with
    | nil => exact absurd rfl hne
    | cons a t => exact ⟨a, t, rfl⟩
  simp only [tryUrlAt, isPrefixOf_append_self, if_true]
  rw [show (5 : ℕ) = urlOpen.length from rfl, List.drop_left,
    takeWhile_body (a :: old') post hnp, List.drop_left]
  simp only [List.isEmpty_cons, Bool.false_eq_true, if_false,
    List.take_succ_cons, List.take_zero, List.drop_succ_cons,
    List.drop_zero, eq_self_iff_true, if_true]
  simp only [hm]
  rw [if_neg hnew]

/-- No match attempt succeeds where `url(#` is not a prefix. -/
theorem tryUrlAt_none (m : List (String × String)) (l : List Char)
    (h : ¬ urlOpen.isPrefixOf l = true) : tryUrlAt m l = none := by
  simp only [tryUrlAt]
  rw [if_neg h]

/-- The scan step on a successful match. -/
theorem go_cons_some (m : List (String × String)) (fuel : ℕ) (c : Char)
    (rest rep tail : List Char)
    (h : tryUrlAt m (c :: rest) = some (rep, tail)) :
    replaceUrlRefsGo m (fuel + 1) (c :: rest)
      = rep ++ replaceUrlRefsGo m fuel tail := by
  simp only [replaceUrlRefsGo, h]

/-- The scan step when no match starts here. -/
theorem go_cons_none (m : List (String × String)) (fuel : ℕ) (c : Char)
    (rest : List Char) (h : tryUrlAt m (c :: rest) = none) :
    replaceUrlRefsGo m (fuel + 1) (c :: rest)
      = c :: replaceUrlRefsGo m fuel rest := by
  simp only [replaceUrlRefsGo, h]

/-- A match consumes at least one character: the remainder is shorter. -/
theorem tryUrlAt_tail_length (m : List (String × String)) (l rep tail : List Char)
    (h : tryUrlAt m l = some (rep, tail)) : tail.length < l.length := by
  simp only [tryUrlAt] at h
  split_ifs at h with hpf hemp hpar
  · have h5 : 5 ≤ l.length := by
      have := (List.isPrefixOf_iff_prefix.mp hpf).length_le
      simpa [urlOpen] using this
    have htail : tail
        = ((l.drop 5).drop
            ((l.drop 5).takeWhile (fun ch => ch != ')')).length).drop 1 := by
      split at h
      · split_ifs at h
        · exact (congrArg Prod.snd (Option.some.inj h)).symm
        · exact (congrArg Prod.snd (Option.some.inj h)).symm
      · exact (congrArg Prod.snd (Option.some.inj h)).symm
    rw [htail]
    simp only [List.length_drop]
    omega

/-- The scan result does not depend on the fuel once it covers the input
length. -/
theorem go_fuel (m : List (String × String)) :
    ∀ f₁, ∀ l : List Char, ∀ f₂, l.length ≤ f₁ → l.length ≤ f₂ →
      replaceUrlRefsGo m f₁ l = replaceUrlRefsGo m f₂ l := by
  intro f₁
  induction f₁ with
  | zero =>
    intro l f₂ h1 _
    rw [List.length_eq_zero.mp (Nat.le_zero.mp h1)]
    cases f₂ with
    | zero => rfl
    | succ g => rfl
  | succ f ih =>
    intro l f₂ h1 h2
    cases l with
    | nil =>
      cases f₂ with
      | zero => rfl
      | succ g => rfl
    | cons c rest =>
      cases f₂ with
      | zero => exact absurd h2 (by simp)
      | succ g =>
        cases htry : tryUrlAt m (c :: rest) with
        | some pr =>
          obtain ⟨rep, tail⟩ := pr
          rw [go_cons_some m f c rest rep tail htry,
            go_cons_some m g c rest rep tail htry]
          have hlt := tryUrlAt_tail_length m (c :: rest) rep tail htry
          simp only [List.length_cons] at hlt h1 h2
          rw [ih tail g (by omega) (by omega)]
        | none =>
          rw [go_cons_none m f c rest htry, go_cons_none m g c rest htry]
          simp only [List.length_cons] at h1 h2
          rw [ih rest g (by omega) (by omega)]

/-- A suffix beginning with `url(#` makes `containsUrlOpen` true. -/
theorem containsUrlOpen_of_suffix (t pre : List Char) (hs : t <:+ pre)
    (hp : urlOpen.isPrefixOf t = true) : containsUrlOpen pre = true := by
  induction pre with
  | nil =>
    rw [List.suffix_nil.mp hs] at hp
    exact absurd hp (by decide)
  | cons c rest ih =>
    rcases List.suffix_cons_iff.mp hs with heq | hsuf
    · subst heq
      simp only [containsUrlOpen, hp, Bool.true_or]
    · simp only [containsUrlOpen, ih hsuf, Bool.or_true]

/-- `url(#` has no proper period: a non-empty tail of scanned text cannot
begin a `url(#` match that overlaps the next occurrence. -/
theorem no_cross_match (pre rest : List Char)
    (h : containsUrlOpen pre = false) :
    ∀ t, t <:+ pre → t ≠ [] →
      urlOpen.isPrefixOf (t ++ urlOpen ++ rest) = false := by
  intro t hs hne
  by_contra hcon
  rw [Bool.not_eq_false] at hcon
  have hpre : urlOpen <+: (t ++ urlOpen) ++ rest :=
    List.isPrefixOf_iff_prefix.mp hcon
  have htake : urlOpen = ((t ++ urlOpen) ++ rest).take 5 :=
    List.prefix_iff_eq_take.mp hpre
  by_cases h5 : 5 ≤ t.length
  · have htk : ((t ++ urlOpen) ++ rest).take 5 = t.take 5 := by
      rw [List.take_append_eq_append_take, List.take_append_eq_append_take]
      have hl1 : (5 : ℕ) - t.length = 0 := by omega
      have hl2 : (5 : ℕ) - (t ++ urlOpen).length = 0 := by
        simp only [List.length_append]
        omega
      rw [hl1, hl2]
      simp
    have hpt : urlOpen.isPrefixOf t = true := by
      rw [List.isPrefixOf_iff_prefix]
      rw [htake, htk]
      exact List.take_prefix 5 t
    rw [containsUrlOpen_of_suffix t pre hs hpt] at h
    cases h
  · have h1 : 1 ≤ t.length := List.length_pos.mpr hne
    have htk : ((t ++ urlOpen) ++ rest).take 5
        = t ++ urlOpen.take (5 - t.length) := by
      rw [List.take_append_eq_append_take, List.take_append_eq_append_take]
      have hle : t.length ≤ 5 := by omega
      have h50 : (5 : ℕ) - (t ++ urlOpen).length = 0 := by
        simp only [List.length_append]
        have : urlOpen.length = 5 := rfl
        omega
      rw [h50]
      simp only [List.take_zero, List.append_nil]
      rw [List.take_of_length_le hle]
    rw [htk] at htake
    have happ : t ++ urlOpen.take (5 - t.length)
        = urlOpen.take t.length ++ urlOpen.drop t.length := by
      rw [List.take_append_drop]
      exact htake.symm
    have hlen4 : t.length < 5 := by omega
    have hsplit := List.append_inj happ (by
      rw [List.length_take]
      have h55 : urlOpen.length = 5 := rfl
      rw [h55]
      omega)
    interval_cases ht : t.length
    · exact absurd hsplit.2 (by decide)
    · exact absurd hsplit.2 (by decide)
    · exact absurd hsplit.2 (by decide)
    · exact absurd hsplit.2 (by decide)

/-- The global scan rewrites the first `url(#…)` occurrence (the text before
it containing no `url(#`) to the mapped id and continues scanning after it. -/
theorem go_sees_first (m : List (String × String)) :
    ∀ pre : List Char, ∀ (fuel : ℕ) (old post : List Char) (new : String),
      containsUrlOpen pre = false →
      (pre ++ urlOpen ++ (old ++ ')' :: post)).length ≤ fuel →
      old ≠ [] → (∀ c ∈ old, ¬ c = ')') →
      mapGet m (String.mk old) = some new → ¬ new = "" →
      replaceUrlRefsGo m fuel (pre ++ urlOpen ++ (old ++ ')' :: post))
        = pre ++ urlOpen ++ new.data ++ ')'
            :: replaceUrlRefsGo m post.length post := by
  intro pre
  induction pre with
  | nil =>
    intro fuel old post new _ hfuel hne hnp hm hnew
    simp only [List.nil_append] at hfuel ⊢
    have hlen : (urlOpen ++ (old ++ ')' :: post)).length
        = 5 + (old.length + (post.length + 1)) := by
      simp [urlOpen, List.length_append]
      omega
    cases fuel with
    | zero =>
      rw [hlen] at hfuel
      omega
    | succ f =>
      have htry : tryUrlAt m
          ('u' :: 'r' :: 'l' :: '(' :: '#' :: (old ++ ')' :: post))
          = some (urlOpen ++ new.data ++ [')'], post) :=
        tryUrlAt_match m old post new hne hnp hm hnew
      have hstep := go_cons_some m f 'u'
        ('r' :: 'l' :: '(' :: '#' :: (old ++ ')' :: post))
        (urlOpen ++ new.data ++ [')']) post htry
      have hgoal : replaceUrlRefsGo m (f + 1)
          (urlOpen ++ (old ++ ')' :: post))
          = (urlOpen ++ new.data ++ [')']) ++ replaceUrlRefsGo m f post :=
        hstep
      rw [hgoal]
      rw [go_fuel m f post post.length
        (by rw [hlen] at hfuel; omega) le_rfl]
      simp [List.append_assoc]
  | cons c pre' ih =>
    intro fuel old post new hpre hfuel hne hnp hm hnew
    have hpre' : containsUrlOpen pre' = false := by
      have := hpre
      rw [containsUrlOpen] at this
      exact (Bool.or_eq_false_iff.mp this).2
    cases fuel with
    | zero =>
      simp only [List.cons_append, List.length_cons] at hfuel
      omega
    | succ f =>
      have hnomatch : urlOpen.isPrefixOf
          (((c :: pre') ++ urlOpen) ++ (old ++ ')' :: post)) = false :=
        no_cross_match (c :: pre') (old ++ ')' :: post) hpre (c :: pre')
          (List.suffix_refl _) (by simp)
      have htry : tryUrlAt m
          (c :: (pre' ++ urlOpen ++ (old ++ ')' :: post))) = none := by
        refine tryUrlAt_none m _ ?_
        intro hcon
        have : urlOpen.isPrefixOf
            (((c :: pre') ++ urlOpen) ++ (old ++ ')' :: post)) = true := hcon
        rw [hnomatch] at this
        cases this
      have hstep := go_cons_none m f c
        (pre' ++ urlOpen ++ (old ++ ')' :: post)) htry
      have hgoal : replaceUrlRefsGo m (f + 1)
          ((c :: pre') ++ urlOpen ++ (old ++ ')' :: post))
          = c :: replaceUrlRefsGo m f (pre' ++ urlOpen ++ (old ++ ')' :: post)) :=
        hstep
      rw [hgoal]
      rw [ih f old post new hpre' (by
        simp only [List.cons_append, List.length_cons] at hfuel
        simpa using Nat.le_of_succ_le_succ hfuel) hne hnp hm hnew]
      simp [List.cons_append]

/-- C9 support: `replaceUrlRefs` rewrites each `url(#oldId)` occurrence whose
`oldId` is non-empty, contains no `)`, and is mapped to a non-empty new id —
the leading text holding no `url(#` — and continues with the global scan of
the remaining text. -/
theorem replaceUrlRefs_rewrites (m : List (String × String))
    (pre old post : List Char) (new : String)
    (hpre : containsUrlOpen pre = false)
    (hne : old ≠ []) (hnp : ∀ c ∈ old, ¬ c = ')')
    (hm : mapGet m (String.mk old) = some new) (hnew : ¬ new = "") :
    replaceUrlRefs (String.mk (pre ++ urlOpen ++ (old ++ ')' :: post))) m
      = String.mk (pre ++ urlOpen ++ new.data ++ ')'
          :: replaceUrlRefsGo m post.length post) := by
  show String.mk (replaceUrlRefsGo m
      (pre ++ urlOpen ++ (old ++ ')' :: post)).length
      (pre ++ urlOpen ++ (old ++ ')' :: post))) = _
  rw [go_sees_first m pre _ old post new hpre le_rfl hne hnp hm hnew]

/-- The url-bearing attributes are not hash-reference attributes. -/
theorem url_not_hash (key : String) (h : urlRefAttrs.contains key = true) :
    hashRefAttrs.contains key = false := by
  have hmem : key ∈ urlRefAttrs := by simpa using h
  fin_cases hmem <;> decide

/-- The direct-id attributes are not hash-reference attributes. -/
theorem direct_not_hash (key : String)
    (h : directIdRefAttrs.contains key = true) :
    hashRefAttrs.contains key = false := by
  have hmem : key ∈ directIdRefAttrs := by simpa using h
  fin_cases hmem <;> decide

/-- The direct-id attributes are not url-bearing attributes. -/
theorem direct_not_url (key : String)
    (h : directIdRefAttrs.contains key = true) :
    urlRefAttrs.contains key = false := by
  have hmem : key ∈ directIdRefAttrs := by simpa using h
  fin_cases hmem <;> decide

/-- C9 support: a mapped hash reference `#oldId` on `href`/`xlink:href` is
rewritten to `#newId` (for a truthy new id). -/
theorem updateStrField_hash (m : List (String × String)) (key : String)
    (old new : String) (hkey : hashRefAttrs.contains key = true)
    (hm : mapGet m old = some new) (hnew : ¬ new = "") :
    updateStrField m key ("#" ++ old) = "#" ++ new := by
  have hd : ("#" ++ old).data = '#' :: old.data := by
    rw [String.data_append]
    rfl
  have h1 : startsWithHash ("#" ++ old) = true := by
    simp only [startsWithHash, hd]
  have h2 : String.mk (("#" ++ old).data.drop 1) = old := by
    rw [hd, List.drop_succ_cons, List.drop_zero]
  simp only [updateStrField, hkey, h1, Bool.and_self, if_true, h2, hm]
  rw [if_neg hnew]

/-- C9 support: url-bearing attribute values go through `replaceUrlRefs`. -/
theorem updateStrField_url (m : List (String × String)) (key : String)
    (s : String) (hkey : urlRefAttrs.contains key = true) :
    updateStrField m key s = replaceUrlRefs s m := by
  simp only [updateStrField, url_not_hash key hkey, Bool.false_and,
    Bool.false_eq_true, if_false, hkey, eq_self_iff_true, if_true]

/-- C9 support: a mapped direct id reference on
`baseId`/`targetId`/`boundElementId` is rewritten to the new id. -/
theorem updateStrField_direct (m : List (String × String)) (key : String)
    (s new : String) (hkey : directIdRefAttrs.contains key = true)
    (hm : mapGet m s = some new) (hnew : ¬ new = "") :
    updateStrField m key s = new := by
  simp only [updateStrField, direct_not_hash key hkey, Bool.false_and,
    Bool.false_eq_true, if_false, direct_not_url key hkey, hkey,
    eq_self_iff_true, if_true, hm]
  rw [if_neg hnew]

/-- A string at a non-reference key without `url(#` is left unchanged. -/
theorem updateStrField_plain (m : List (String × String)) (key : String)
    (s : String) (h1 : hashRefAttrs.contains key = false)
    (h2 : urlRefAttrs.contains key = false)
    (h3 : directIdRefAttrs.contains key = false)
    (h4 : containsUrlOpen s.data = false) :
    updateStrField m key s = s := by
  simp only [updateStrField, h1, Bool.false_and, Bool.false_eq_true,
    if_false, h2, h3, h4]

/-- Phase 2 applies the entry transformation to every object entry. -/
theorem updateFields_eq_map (m : List (String × String)) :
    ∀ fields, updateFields m fields
      = fields.map (fun kv => (kv.1, updateEntry m kv.1 kv.2))
  | [] => by simp [updateFields]
  | (key, value) :: rest => by
    simp only [updateFields, List.map_cons]
    rw [updateFields_eq_map m rest]

/-- Phase 2 applies `updateRefs` to every child. -/
theorem updateChildren_cons (m : List (String × String)) (v : JVal)
    (rest : List JVal) :
    updateChildren m (v :: rest) = updateNode m v :: updateChildren m rest := by
  cases v with
  | null => simp [updateChildren, updateNode]
  | bool b => simp [updateChildren, updateNode]
  | num q => simp [updateChildren, updateNode]
  | str s => simp [updateChildren, updateNode]
  | arr items => simp [updateChildren, updateNode]
  | obj fields => simp [updateChildren, updateNode]

/-- `updateEntry` on a `children` array recurses into the children. -/
theorem updateEntry_children_arr (m : List (String × String))
    (items : List JVal) :
    updateEntry m "children" (JVal.arr items)
      = JVal.arr (updateChildren m items) := by
  simp only [updateEntry, eq_self_iff_true, if_true]

/-- `updateEntry` on a string value rewrites it with `updateStrField`. -/
theorem updateEntry_str (m : List (String × String)) (key : String)
    (s : String) (hk : ¬ key = "children") :
    updateEntry m key (JVal.str s) = JVal.str (updateStrField m key s) := by
  simp only [updateEntry]
  rw [if_neg hk]

/-- `updateEntry` recurses into a generic (non-`style`, non-`animate`)
object value. -/
theorem updateEntry_obj (m : List (String × String)) (key : String)
    (f : List (String × JVal)) (hk : ¬ key = "children")
    (hs : ¬ key = "style") (ha : ¬ key = "animate") :
    updateEntry m key (JVal.obj f) = JVal.obj (updateFields m f) := by
  simp only [updateEntry]
  rw [if_neg hk]
  rw [if_neg hs, if_neg ha]

/-- `updateEntry` recurses into a generic array value. -/
theorem updateEntry_arr (m : List (String × String)) (key : String)
    (items : List JVal) (hk : ¬ key = "children")
    (hs : ¬ key = "style") (ha : ¬ key = "animate") :
    updateEntry m key (JVal.arr items)
      = JVal.arr (updateItems m 0 items) := by
  simp only [updateEntry]
  rw [if_neg hk]
  rw [if_neg hs, if_neg ha]

/-- `updateEntry` leaves `null` unchanged. -/
theorem updateEntry_null (m : List (String × String)) (key : String)
    (hk : ¬ key = "children") : updateEntry m key JVal.null = JVal.null := by
  simp only [updateEntry]
  rw [if_neg hk]

/-- `updateEntry` leaves booleans unchanged. -/
theorem updateEntry_bool (m : List (String × String)) (key : String)
    (b : Bool) (hk : ¬ key = "children") :
    updateEntry m key (JVal.bool b) = JVal.bool b := by
  simp only [updateEntry]
  rw [if_neg hk]

/-- `updateEntry` leaves numbers unchanged. -/
theorem updateEntry_num (m : List (String × String)) (key : String)
    (q : ℚ) (hk : ¬ key = "children") :
    updateEntry m key (JVal.num q) = JVal.num q := by
  simp only [updateEntry]
  rw [if_neg hk]

/-- Phase 2 preserves keys and transforms values pointwise under lookup. -/
theorem objGet_updateFields (m : List (String × String)) :
    ∀ fields key, objGet (updateFields m fields) key
      = (objGet fields key).map (updateEntry m key)
  | [], key => by simp [updateFields, objGet]
  | (k, v) :: rest, key => by
    have hcf : updateFields m ((k, v) :: rest)
        = (k, updateEntry m k v) :: updateFields m rest := by
      simp [updateFields]
    rw [hcf]
    by_cases hk : k = key
    · subst hk
      rw [objGet_cons_self, objGet_cons_self, Option.map_some']
    · rw [objGet_cons_ne k key _ _ hk, objGet_cons_ne k key v rest hk]
      exact objGet_updateFields m rest key

/-- `idsOf` of an object whose id entry is not a string. -/
theorem idsOf_obj_nonstr (fields : List (String × JVal)) (w : JVal)
    (hid : objGet fields "id" = some w) (hw : ∀ s, w ≠ JVal.str s) :
    idsOf (JVal.obj fields) = idsOfChildrenOf fields := by
  simp only [idsOf, hid]
  cases w with
  | str s => exact absurd rfl (hw s)
  | null => exact List.nil_append _
  | bool b => exact List.nil_append _
  | num q => exact List.nil_append _
  | arr items => exact List.nil_append _
  | obj f => exact List.nil_append _

mutual
/-- Phase 2 never changes the truthy string ids of the `children` tree, as
long as no id contains `url(#` (in particular for the freshly generated
`_px_…` ids). -/
theorem updateNode_idsOf (m : List (String × String)) :
    ∀ v, (∀ s ∈ idsOf v, containsUrlOpen s.data = false) →
      idsOf (updateNode m v) = idsOf v
  | .null, _ => by simp [updateNode]
  | .bool b, _ => by simp [updateNode]
  | .num q, _ => by simp [updateNode]
  | .str s, _ => by simp [updateNode]
  | .arr items, _ => by simp [updateNode, idsOf]
  | .obj fields, h => by
    have hmemch : ∀ s ∈ idsOfChildrenOf fields, containsUrlOpen s.data = false := by
      intro s hs
      refine h s ?_
      simp only [idsOf]
      exact List.mem_append_right _ hs
    have hcf := updateFields_idsOfChildren m fields hmemch
    have hog := objGet_updateFields m fields "id"
    have hun : updateNode m (JVal.obj fields)
        = JVal.obj (updateFields m fields) := by
      simp [updateNode]
    rw [hun]
    cases hid : objGet fields "id" with
    | none =>
      rw [hid, Option.map_none'] at hog
      simp only [idsOf, hog, hid, List.nil_append]
      exact hcf
    | some w =>
      rw [hid, Option.map_some'] at hog
      cases w with
      | str s =>
        have hupd : updateEntry m "id" (JVal.str s)
            = JVal.str (updateStrField m "id" s) :=
          updateEntry_str m "id" s (by decide)
        have hplain : updateStrField m "id" s = s := by
          refine updateStrField_plain m "id" s (by decide) (by decide)
            (by decide) ?_
          by_cases hs0 : s = ""
          · subst hs0
            decide
          · refine h s ?_
            rw [idsOf_obj_fresh fields s hid hs0]
            exact List.mem_cons_self _ _
        rw [hupd, hplain] at hog
        by_cases hs0 : s = ""
        · subst hs0
          rw [idsOf_obj_empty _ hog, idsOf_obj_empty fields hid]
          exact hcf
        · rw [idsOf_obj_fresh _ s hog hs0, idsOf_obj_fresh fields s hid hs0,
            hcf]
      | null =>
        rw [updateEntry_null m "id" (by decide)] at hog
        rw [idsOf_obj_nonstr _ _ hog (fun s hy => by cases hy),
          idsOf_obj_nonstr fields _ hid (fun s hy => by cases hy)]
        exact hcf
      | bool b =>
        rw [updateEntry_bool m "id" b (by decide)] at hog
        rw [idsOf_obj_nonstr _ _ hog (fun s hy => by cases hy),
          idsOf_obj_nonstr fields _ hid (fun s hy => by cases hy)]
        exact hcf
      | num q =>
        rw [updateEntry_num m "id" q (by decide)] at hog
        rw [idsOf_obj_nonstr _ _ hog (fun s hy => by cases hy),
          idsOf_obj_nonstr fields _ hid (fun s hy => by cases hy)]
        exact hcf
      | arr items =>
        rw [updateEntry_arr m "id" items (by decide) (by decide)
          (by decide)] at hog
        rw [idsOf_obj_nonstr _ _ hog (fun s hy => by cases hy),
          idsOf_obj_nonstr fields _ hid (fun s hy => by cases hy)]
        exact hcf
      | obj f2 =>
        rw [updateEntry_obj m "id" f2 (by decide) (by decide)
          (by decide)] at hog
        rw [idsOf_obj_nonstr _ _ hog (fun s hy => by cases hy),
          idsOf_obj_nonstr fields _ hid (fun s hy => by cases hy)]
        exact hcf
termination_by v => sizeOf v

/-- Entry-walk form of `updateNode_idsOf`. -/
theorem updateFields_idsOfChildren (m : List (String × String)) :
    ∀ fields, (∀ s ∈ idsOfChildrenOf fields, containsUrlOpen s.data = false) →
      idsOfChildrenOf (updateFields m fields) = idsOfChildrenOf fields
  | [], _ => by simp [updateFields, idsOfChildrenOf]
  | (key, value) :: rest, h => by
    have hcf : updateFields m ((key, value) :: rest)
        = (key, updateEntry m key value) :: updateFields m rest := by
      simp [updateFields]
    rw [hcf]
    by_cases hk : key = "children"
    · subst hk
      cases value with
      | arr items =>
        rw [idsOfChildrenOf_cons_children_arr items rest] at h
        rw [updateEntry_children_arr,
          idsOfChildrenOf_cons_children_arr (updateChildren m items)
            (updateFields m rest),
          idsOfChildrenOf_cons_children_arr items rest,
          updateChildren_idsOfList m items
            (fun s hs => h s (List.mem_append_left _ hs)),
          updateFields_idsOfChildren m rest
            (fun s hs => h s (List.mem_append_right _ hs))]
      | null =>
        have hv : ∀ items, JVal.null ≠ JVal.arr items := fun _ hy => by cases hy
        rw [show updateEntry m "children" JVal.null = JVal.null from by
            simp only [updateEntry, eq_self_iff_true, if_true],
          idsOfChildrenOf_cons_children_nonarr _ _ hv,
          idsOfChildrenOf_cons_children_nonarr _ rest hv]
        rw [idsOfChildrenOf_cons_children_nonarr _ rest hv] at h
        exact updateFields_idsOfChildren m rest h
      | bool b =>
        have hv : ∀ items, JVal.bool b ≠ JVal.arr items := fun _ hy => by cases hy
        rw [show updateEntry m "children" (JVal.bool b) = JVal.bool b from by
            simp only [updateEntry, eq_self_iff_true, if_true],
          idsOfChildrenOf_cons_children_nonarr _ _ hv,
          idsOfChildrenOf_cons_children_nonarr _ rest hv]
        rw [idsOfChildrenOf_cons_children_nonarr _ rest hv] at h
        exact updateFields_idsOfChildren m rest h
      | num q =>
        have hv : ∀ items, JVal.num q ≠ JVal.arr items := fun _ hy => by cases hy
        rw [show updateEntry m "children" (JVal.num q) = JVal.num q from by
            simp only [updateEntry, eq_self_iff_true, if_true],
          idsOfChildrenOf_cons_children_nonarr _ _ hv,
          idsOfChildrenOf_cons_children_nonarr _ rest hv]
        rw [idsOfChildrenOf_cons_children_nonarr _ rest hv] at h
        exact updateFields_idsOfChildren m rest h
      | str s =>
        have hv : ∀ items, JVal.str s ≠ JVal.arr items := fun _ hy => by cases hy
        rw [show updateEntry m "children" (JVal.str s) = JVal.str s from by
            simp only [updateEntry, eq_self_iff_true, if_true],
          idsOfChildrenOf_cons_children_nonarr _ _ hv,
          idsOfChildrenOf_cons_children_nonarr _ rest hv]
        rw [idsOfChildrenOf_cons_children_nonarr _ rest hv] at h
        exact updateFields_idsOfChildren m rest h
      | obj f2 =>
        have hv : ∀ items, JVal.obj f2 ≠ JVal.arr items := fun _ hy => by cases hy
        rw [show updateEntry m "children" (JVal.obj f2) = JVal.obj f2 from by
            simp only [updateEntry, eq_self_iff_true, if_true],
          idsOfChildrenOf_cons_children_nonarr _ _ hv,
          idsOfChildrenOf_cons_children_nonarr _ rest hv]
        rw [idsOfChildrenOf_cons_children_nonarr _ rest hv] at h
        exact updateFields_idsOfChildren m rest h
    · rw [idsOfChildrenOf_cons_ne key _ _ hk,
        idsOfChildrenOf_cons_ne key value rest hk]
      rw [idsOfChildrenOf_cons_ne key value rest hk] at h
      exact updateFields_idsOfChildren m rest h
termination_by fields => sizeOf fields

/-- Children-array form of `updateNode_idsOf`. -/
theorem updateChildren_idsOfList (m : List (String × String)) :
    ∀ items, (∀ s ∈ idsOfList items, containsUrlOpen s.data = false) →
      idsOfList (updateChildren m items) = idsOfList items
  | [], _ => by simp [updateChildren]
  | v :: rest, h => by
    rw [updateChildren_cons]
    simp only [idsOfList]
    simp only [idsOfList] at h
    rw [updateNode_idsOf m v (fun s hs => h s (List.mem_append_left _ hs)),
      updateChildren_idsOfList m rest
        (fun s hs => h s (List.mem_append_right _ hs))]
termination_by items => sizeOf items
end

/-- C9 (amended): `generateNewIds` works on a value-identical deep clone
(so the caller's document is never aliased or mutated); the id generator's
outputs are only guaranteed distinct for same-timestamp calls with distinct
counters and full-length 4-character random suffixes (the bare concatenation
is ambiguous across timestamps); every node of the `children` tree with a
truthy string id is given the next generated id, in traversal order, with
the id map recording old → new (latest entry winning); phase 2 visits every
object entry, rewriting mapped hash references on `href`/`xlink:href`,
passing url-bearing attribute values through `replaceUrlRefs` — which
rewrites each mapped `url(#oldId)` occurrence and rescans the remaining
text — and rewriting mapped direct id references on
`baseId`/`targetId`/`boundElementId` (falsy mapped ids are skipped, and the
`animate` subtree is not descended into). -/
theorem generateNewIds_spec :
    (∀ v, deepClone v = v)
    ∧ (∀ (ts c₁ c₂ : ℕ) (r₁ r₂ : List Char), c₁ ≠ c₂ →
        (r₁.take 4).length = 4 → (r₂.take 4).length = 4 →
        generateUniqueId ts c₁ r₁ ≠ generateUniqueId ts c₂ r₂)
    ∧ (∀ (ids : ℕ → String) (doc : JVal),
        (∀ n, ids n ≠ "" ∧ containsUrlOpen (ids n).data = false) →
        idsOf (generateNewIds ids doc)
            = List.map ids (List.range' 0 (idsOf doc).length)
          ∧ (collectIds ids 0 doc).2.1
            = ((idsOf doc).zip
                (List.map ids (List.range' 0 (idsOf doc).length))).reverse)
    ∧ (∀ (m : List (String × String)) (fields : List (String × JVal)),
        updateFields m fields
          = fields.map fun kv => (kv.1, updateEntry m kv.1 kv.2))
    ∧ (∀ (m : List (String × String)) (key old new : String),
        hashRefAttrs.contains key = true → mapGet m old = some new →
        new ≠ "" → updateStrField m key ("#" ++ old) = "#" ++ new)
    ∧ (∀ (m : List (String × String)) (key s : String),
        urlRefAttrs.contains key = true →
        updateStrField m key s = replaceUrlRefs s m)
    ∧ (∀ (m : List (String × String)) (pre old post : List Char)
          (new : String),
        containsUrlOpen pre = false → old ≠ [] → (∀ c ∈ old, ¬ c = ')') →
        mapGet m (String.mk old) = some new → new ≠ "" →
        replaceUrlRefs (String.mk (pre ++ urlOpen ++ (old ++ ')' :: post))) m
          = String.mk (pre ++ urlOpen ++ new.data ++ ')'
              :: replaceUrlRefsGo m post.length post))
    ∧ (∀ (m : List (String × String)) (key s new : String),
        directIdRefAttrs.contains key = true → mapGet m s = some new →
        new ≠ "" → updateStrField m key s = new) := by
  refine ⟨deepClone_id,
    fun ts c₁ c₂ r₁ r₂ hc h1 h2 =>
      generateUniqueId_same_ts_ne ts c₁ c₂ r₁ r₂ hc h1 h2,
    fun ids doc hids => ?_,
    fun m fields => updateFields_eq_map m fields,
    fun m key old new hkey hm hnew => updateStrField_hash m key old new hkey hm hnew,
    fun m key s hkey => updateStrField_url m key s hkey,
    fun m pre old post new hpre hne hnp hm hnew =>
      replaceUrlRefs_rewrites m pre old post new hpre hne hnp hm hnew,
    fun m key s new hkey hm hnew => updateStrField_direct m key s new hkey hm hnew⟩
  have hids1 : ∀ n, ids n ≠ "" := fun n => (hids n).1
  obtain ⟨c1, c2, c3⟩ := collectIds_spec ids hids1 doc 0
  have hfresh : ∀ s ∈ idsOf (collectIds ids 0 doc).1,
      containsUrlOpen s.data = false := by
    intro s hs
    rw [c1] at hs
    obtain ⟨i, _, rfl⟩ := List.mem_map.mp hs
    exact (hids i).2
  refine ⟨?_, c3⟩
  calc idsOf (generateNewIds ids doc)
      = idsOf (updateNode (collectIds ids 0 doc).2.1
          (collectIds ids 0 doc).1) := by
        show idsOf (updateNode (collectIds ids 0 (deepClone doc)).2.1
          (collectIds ids 0 (deepClone doc)).1) = _
        rw [deepClone_id doc]
    _ = idsOf (collectIds ids 0 doc).1 :=
        updateNode_idsOf (collectIds ids 0 doc).2.1
          (collectIds ids 0 doc).1 hfresh
    _ = List.map ids (List.range' 0 (idsOf doc).length) := c1

/-- The constant generator stream used by the C9 witness. -/
def idsW : ℕ → String := fun _ => "_px_w"

/-- The two-node document used by the C9 witness. -/
def docW : JVal :=
  .obj [("id", .str "a"),
        ("children", .arr [.obj [("id", .str "b"), ("href", .str "#a")]])]

/-- Witness instantiating the C9 theorem: a concrete stream and document for
the id-regeneration clause, and a concrete same-timestamp pair for the
generator-distinctness clause. -/
theorem generateNewIds_spec_witness :
    (∀ n, idsW n ≠ "" ∧ containsUrlOpen (idsW n).data = false)
    ∧ idsOf (generateNewIds idsW docW)
        = List.map idsW (List.range' 0 (idsOf docW).length)
    ∧ ((2 : ℕ) ≠ 3
        ∧ ((['a', 'b', 'c', 'd'] : List Char).take 4).length = 4
        ∧ ((['e', 'f', 'g', 'h'] : List Char).take 4).length = 4
        ∧ generateUniqueId 7 2 ['a', 'b', 'c', 'd']
            ≠ generateUniqueId 7 3 ['e', 'f', 'g', 'h']) := by
  have hids : ∀ n, idsW n ≠ "" ∧ containsUrlOpen (idsW n).data = false :=
    fun n => ⟨show ("_px_w" : String) ≠ "" by decide,
      show containsUrlOpen ("_px_w" : String).data = false by decide⟩
  exact ⟨hids, (generateNewIds_spec.2.2.1 idsW docW hids).1,
    by decide, by decide, by decide,
    generateNewIds_spec.2.1 7 2 3 ['a', 'b', 'c', 'd'] ['e', 'f', 'g', 'h']
      (by decide) (by decide) (by decide)⟩

end SvgAnimator
